import Mathlib

/-!
# A verification development for `parse.cpp`

Shallow embedding of the front-end in `src/mainline/parse.cpp`: the operator
table (`OperatorManager`), the symbol tables held by `Top` and `FuncDef`, the
operator-stack expression parser `parse_expr` and the declaration parser
(`parse_var`, `parse_func`, `parse_top`).

Conventions of the embedding.

* `error(s)` prints a diagnostic and exits the process.  A function that can
  reach `error` returns `Res`: `Res.ok` for a normal return, `Res.error e` for
  the abort (one constructor of `Err` per diagnostic string of the source),
  `Res.undefined` where the C++ would dereference a missing object, and
  `Res.timeout` when the step budget `fuel` of the embedding is used up (the
  C++ has no such budget: a run that is `timeout` for every budget is a run
  that does not return).
* The globals `tokens[]` / `token_n` are the list `tokens`; the cursor
  `current` is passed in and returned explicitly.  A read at or beyond
  `token_n` yields `Token.eof`, a token of a kind different from every kind
  the parser names.
* `std::map` tables are association lists; a pointer to a `VarDef` is the
  `VarDef` value, which carries the allocation number `addr` of its `new`;
  a pointer to a `FuncDef` held by a call node is the key of that function in
  `top.funcManager`.
* The operator nodes that `parse_expr` links and re-links while it runs live in
  an explicit node store (`List OpNode`, addressed by index); the finished
  tree is read out of that store when `parse_expr` returns.
* The overload table `_map` is keyed by the address `&op` of the operator
  object: `overload` receives an `OperatorRef`, the address together with the
  descriptor stored there, and two objects at different addresses have
  separate tries even when their descriptors are equal.
-/

namespace CompilerPractice

/-! ## Tokens -/

/-- Token kinds named by `parse.cpp` (they are declared in `lex.hpp`), any other
kind of the lexer (`other`), and the kind read beyond the last token (`eof`). -/
inductive TokKind
  | identifier
  | constant_int
  | kwd_return
  | lparen
  | rparen
  | lbrace
  | rbrace
  | comma
  | equ
  | plus
  | star
  | other (code : Nat)
  | eof
  deriving DecidableEq, Repr

/-- A token: its kind and its payload `data`, read as a `std::string`
(`str`) for identifiers and as a `long long` (`num`) for integer literals. -/
structure Token where
  kind : TokKind
  str : String
  num : Int
  deriving DecidableEq, Repr

/-- The token read at and beyond position `token_n`. -/
def Token.eof : Token := ⟨TokKind.eof, "", 0⟩

/-- Identifier token with its text. -/
def Token.ident (s : String) : Token := ⟨TokKind.identifier, s, 0⟩

/-- Integer literal token with its value. -/
def Token.int (n : Int) : Token := ⟨TokKind.constant_int, "", n⟩

/-- Token without payload. -/
def Token.sym (k : TokKind) : Token := ⟨k, "", 0⟩

/-- The read `tokens[i]`. -/
def tokAt (tokens : List Token) (i : Nat) : Token := tokens.getD i Token.eof

/-! ## Results -/

/-- The diagnostics of `parse.cpp`, one constructor per message string. -/
inductive Err
  /-- Message "duplicate type registor" -/
  | duplicateType
  /-- Message "duplicate operator overload" -/
  | duplicateOverload
  /-- Message "inconsistent left associate" -/
  | inconsistentAssociativity
  /-- Message "duplicate operator registor" -/
  | duplicateOperator
  /-- Message "unexpected operator registor" -/
  | unexpectedOperator
  /-- Message "token unexpected" -/
  | tokenUnexpected
  /-- Message "function not find" -/
  | functionNotFound
  /-- Message "variable not find" -/
  | variableNotFound
  /-- Message "invalid factor" -/
  | invalidFactor
  /-- Message "rvalue expected" -/
  | rvalueExpected
  /-- Message "no such type" -/
  | noSuchType
  /-- Message "variable duplicated definition" -/
  | variableDuplicated
  /-- Message "function duplicated definition" -/
  | functionDuplicated
  /-- Message "duplicated definition" (a repeated parameter name) -/
  | duplicatedDefinition
  /-- Message "definition expected" -/
  | definitionExpected
  deriving DecidableEq, Repr

/-- Outcome of a run of a function that may call `error`. -/
inductive Res (α : Type)
  | ok (a : α)
  | error (e : Err)
  | undefined
  | timeout
  deriving Repr

/-- Sequencing: continue after a normal return, stop on everything else. -/
def Res.bind {α β : Type} (r : Res α) (f : α → Res β) : Res β :=
  match r with
  | .ok a => f a
  | .error e => .error e
  | .undefined => .undefined
  | .timeout => .timeout

instance : Monad Res where
  pure := Res.ok
  bind := Res.bind

/-- `r.le r1`: the run `r` with the smaller budget used its budget up, or it
ended as the run `r1` with the larger budget did. -/
def Res.le {α : Type} (r r1 : Res α) : Prop := r = Res.timeout ∨ r = r1

/-! ## Operators and the operator table -/

/-- The class of an operator (`Operator::type`). -/
inductive OpType
  | binary
  | left_unary
  | right_unary
  | factor
  deriving DecidableEq, Repr

/-- An operator descriptor: symbol text, precedence, class, left-associativity. -/
structure Operator where
  name : String
  prec : Nat
  type : OpType
  leftAsso : Bool
  deriving DecidableEq, Repr

/-- `Operator::Root("", 0, right_unary, true)`. -/
def Operator.Root : Operator := ⟨"", 0, OpType.right_unary, true⟩
/-- `Operator::Factor("", 99, factor, true)`. -/
def Operator.Factor : Operator := ⟨"", 99, OpType.factor, true⟩
/-- `Operator::Assign("=", 10, binary, false)`. -/
def Operator.Assign : Operator := ⟨"=", 10, OpType.binary, false⟩
/-- `Operator::Add("+", 20, binary, true)`. -/
def Operator.Add : Operator := ⟨"+", 20, OpType.binary, true⟩
/-- `Operator::Pos("+", 40, right_unary, true)`. -/
def Operator.Pos : Operator := ⟨"+", 40, OpType.right_unary, true⟩
/-- `Operator::Mul("*", 30, binary, true)`. -/
def Operator.Mul : Operator := ⟨"*", 30, OpType.binary, true⟩

/-- The three tables of `OperatorManager`: `binOrLeftUnaryManager[tok]` and
`rightUnaryManager[tok]` hold a pointer to an operator or null,
`leftAssoManager[prec]` holds a flag. -/
structure OperatorManager where
  binOrLeftUnaryManager : TokKind → Option Operator
  rightUnaryManager : TokKind → Option Operator
  leftAssoManager : Nat → Bool

/-- The zero-initialised tables of the global `top.opManager`. -/
def OperatorManager.empty : OperatorManager :=
  ⟨fun _ => none, fun _ => none, fun _ => false⟩

/-- `OperatorManager::regi(tok, op)`. -/
def OperatorManager.regi (m : OperatorManager) (tok : TokKind) (op : Operator) :
    Res OperatorManager :=
  (if m.leftAssoManager op.prec then
      if m.leftAssoManager op.prec != op.leftAsso then
        Res.error Err.inconsistentAssociativity
      else
        Res.ok m
    else
      Res.ok { m with leftAssoManager :=
        fun p => if p = op.prec then op.leftAsso else m.leftAssoManager p }).bind fun m1 =>
  match op.type with
  | OpType.binary | OpType.left_unary =>
    if (m1.binOrLeftUnaryManager tok).isSome then
      Res.error Err.duplicateOperator
    else
      Res.ok { m1 with binOrLeftUnaryManager :=
        fun t => if t = tok then some op else m1.binOrLeftUnaryManager t }
  | OpType.right_unary =>
    if (m1.rightUnaryManager tok).isSome then
      Res.error Err.duplicateOperator
    else
      Res.ok { m1 with rightUnaryManager :=
        fun t => if t = tok then some op else m1.rightUnaryManager t }
  | OpType.factor => Res.error Err.unexpectedOperator

/-- `OperatorManager::init()`: clear the two token tables, then register the
four built-in operators. -/
def OperatorManager.init (m : OperatorManager) : Res OperatorManager :=
  let m0 : OperatorManager := ⟨fun _ => none, fun _ => none, m.leftAssoManager⟩
  (m0.regi TokKind.equ Operator.Assign).bind fun m1 =>
  (m1.regi TokKind.plus Operator.Add).bind fun m2 =>
  (m2.regi TokKind.plus Operator.Pos).bind fun m3 =>
  m3.regi TokKind.star Operator.Mul

/-- A run of `regi` calls, in order, stopping at the first `error`. -/
def OperatorManager.regiAll (m : OperatorManager) :
    List (TokKind × Operator) → Res OperatorManager
  | [] => Res.ok m
  | (tok, op) :: rest => (m.regi tok op).bind fun m1 => m1.regiAll rest

/-! ## Types, variables, expression trees -/

/-- Modelled from the spec: the class `Type` of `parse.hpp`, which is not part
of the sources: "identity (name) + backend representation handle".  The
backend handle plays no role in parsing and is left out. -/
structure Type_ where
  name : String
  deriving DecidableEq, Repr

/-- `Type::Int("int", ...)`. -/
def Type_.Int : Type_ := ⟨"int"⟩

/-- A `std::map<std::string, T>`. -/
abbrev Map (α : Type) := List (String × α)

/-- `m.count(k)`, as a truth value. -/
def Map.count {α : Type} (m : Map α) (k : String) : Bool := (m.lookup k).isSome

/-- `m[k] = v`: bind `k` to `v`, replacing an earlier binding of `k`. -/
def Map.assign {α : Type} (m : Map α) (k : String) (v : α) : Map α :=
  (k, v) :: m.filter fun p => p.1 != k

/-- `VarDef(type, name)`; `addr` numbers the `new` that created the object, so
that two definitions of the same name and type in different scopes are
different objects, as the two pointers are in the source. -/
structure VarDef where
  type : Type_
  name : String
  addr : Nat
  deriving DecidableEq, Repr

/-- An `Expr *`: null, an `OpNode` with its operator and two children, a
`VarNode` referring to a `VarDef`, a `CallNode` referring to a function (by
its key in `top.funcManager`) with its argument list, or a `ConstantNumNode`. -/
inductive Expr
  | null
  | opNode (op : Operator) (left right : Expr)
  | varNode (var : VarDef)
  | callNode (func : String) (arguments : List Expr)
  | constantNumNode (value : Int)
  deriving Repr

/-- A `Statement *` of a function body: `Return(expr)` or an expression used as
a statement (`stmtList.push_back(parse_expr(ret))`, possibly null). -/
inductive Statement
  | ret (expr : Expr)
  | expr (e : Expr)
  deriving Repr

/-- `FuncDef(type, name)` with its ordered parameters, its local variable
table and its statements. -/
structure FuncDef where
  type : Type_
  name : String
  arguments : List VarDef
  varManager : Map VarDef
  stmtList : List Statement
  deriving Repr

/-- A `Definition *` in `top.defList`: a `VarDef` or a `FuncDef`. -/
inductive Definition
  | var (v : VarDef)
  | func (f : FuncDef)
  deriving Repr

/-- The global `top`.  `typeManager` is modelled from the spec (the class
`TypeManager` is declared in `parse.hpp`, not part of the sources): a mapping
from type name to type descriptor, `count` testing presence and `operator[]`
looking a registered name up.  `allocated` counts the `VarDef` objects
created so far and supplies `VarDef.addr`. -/
structure Top where
  typeManager : Map Type_
  opManager : OperatorManager
  varManager : Map VarDef
  funcManager : Map FuncDef
  defList : List Definition
  allocated : Nat

/-- `TypeManager::regi(s, type)`. -/
def TypeManager.regi (m : Map Type_) (s : String) (type : Type_) : Res (Map Type_) :=
  if m.count s then Res.error Err.duplicateType else Res.ok (m.assign s type)

/-! ## Operator overloads -/

/-- A `CallBack`, a pointer to a handler: null (`none`) or the handler with
the given number. -/
abbrev CallBack := Option Nat

/-- `OperatorManager::Trie`: the handler `callBack` and the map `children` from
operand types to sub-tries. -/
inductive Trie
  | node (callBack : CallBack) (children : List (Type_ × Trie))

/-- The trie made by `new Trie()`: no handler, no children. -/
def Trie.empty : Trie := Trie.node none []

/-- The assignment `children[t] = c`. -/
def Trie.setChild : List (Type_ × Trie) → Type_ → Trie → List (Type_ × Trie)
  | [], t, c => [(t, c)]
  | (k, v) :: rest, t, c => if k = t then (t, c) :: rest else (k, v) :: Trie.setChild rest t c

/-- `Trie::insert(types, callBack)`: walk down along `types`, making the
missing children on the way, abort with "duplicate operator overload" when the
node reached holds a handler, store `callBack` there otherwise. -/
def Trie.insert : Trie → List Type_ → CallBack → Res Trie
  | Trie.node cb children, [], callBack =>
    if cb.isSome then Res.error Err.duplicateOverload
    else Res.ok (Trie.node callBack children)
  | Trie.node cb children, t :: rest, callBack =>
    (Trie.insert ((children.lookup t).getD Trie.empty) rest callBack).bind fun child =>
    Res.ok (Trie.node cb (Trie.setChild children t child))

/-- The handler stored at the node reached from the root along `types`; null
when there is no such node. -/
def Trie.find : Trie → List Type_ → CallBack
  | Trie.node cb _, [] => cb
  | Trie.node _ children, t :: rest =>
    match children.lookup t with
    | none => none
    | some child => child.find rest

/-- An operator object as `overload` receives it through `const Operator & op`:
its address `&op` and the descriptor stored there.  Two objects at different
addresses are different operators, whatever their descriptors. -/
structure OperatorRef where
  addr : Nat
  op : Operator
  deriving DecidableEq, Repr

/-- The member `_map` of `OperatorManager`: a trie per operator object, keyed
by the address of the object.  It is kept apart from the three tables above,
which `overload` does not touch. -/
abbrev OverloadTable := List (Nat × Trie)

/-- The trie `_map[&op]`: the one bound to the address, an empty one when none
is. -/
def OverloadTable.trie (m : OverloadTable) (addr : Nat) : Trie :=
  (m.lookup addr).getD Trie.empty

/-- The assignment `_map[&op] = t`. -/
def OverloadTable.setTrie : OverloadTable → Nat → Trie → OverloadTable
  | [], addr, t => [(addr, t)]
  | (k, v) :: rest, addr, t =>
    if k = addr then (addr, t) :: rest else (k, v) :: OverloadTable.setTrie rest addr t

/-- `OperatorManager::overload(op, types, callBack)`:
`_map[&op].insert(types, callBack)`. -/
def OperatorManager.overload (m : OverloadTable) (op : OperatorRef) (types : List Type_)
    (callBack : CallBack) : Res OverloadTable :=
  ((m.trie op.addr).insert types callBack).bind fun t => Res.ok (m.setTrie op.addr t)

/-- A run of `overload` calls with non-null handlers, in order, stopping at the
first `error`. -/
def OperatorManager.overloadAll (m : OverloadTable) :
    List (OperatorRef × List Type_ × Nat) → Res OverloadTable
  | [] => Res.ok m
  | (op, types, h) :: rest =>
    (OperatorManager.overload m op types (some h)).bind fun m1 =>
    OperatorManager.overloadAll m1 rest

/-! ## The expression parser -/

/-- `eat(token)`: advance the cursor over a token of the given kind. -/
def eat (tokens : List Token) (token : TokKind) (current : Nat) : Res Nat :=
  if (tokAt tokens current).kind = token then Res.ok (current + 1)
  else Res.error Err.tokenUnexpected

/-- `is_const(token)`. -/
def is_const (token : TokKind) : Bool := token = TokKind.constant_int

/-- `parse_var_node(env)`: resolve the identifier under the cursor, in the
table of `env` first, in the global table second. -/
def parse_var_node (top : Top) (env : FuncDef) (tokens : List Token) (current : Nat) :
    Res (Expr × Nat) :=
  let str := (tokAt tokens current).str
  (eat tokens TokKind.identifier current).bind fun current1 =>
  match env.varManager.lookup str with
  | some v => Res.ok (Expr.varNode v, current1)
  | none =>
    match top.varManager.lookup str with
    | some v => Res.ok (Expr.varNode v, current1)
    | none => Res.error Err.variableNotFound

/-- `parse_const_int()`. -/
def parse_const_int (tokens : List Token) (current : Nat) : Res (Expr × Nat) :=
  let ret := Expr.constantNumNode (tokAt tokens current).num
  (eat tokens TokKind.constant_int current).bind fun current1 =>
  Res.ok (ret, current1)

/-- An `Expr *` stored in an operator node while `parse_expr` runs: null, the
operator node at index `i` of the node store, or a finished factor. -/
inductive Ptr
  | null
  | node (i : Nat)
  | tree (e : Expr)
  deriving Repr

/-- An `OpNode` under construction: operator, `left`, `right`. -/
structure OpNode where
  op : Operator
  left : Ptr
  right : Ptr
  deriving Repr

/-- The tree that a pointer denotes in a node store.  The budget is the number
of operator nodes that may be passed through; the store size always suffices
for the stores `parse_expr` builds, and a pointer out of the store or an
exhausted budget reads as null. -/
def readExpr (heap : List OpNode) : Nat → Ptr → Expr
  | _, Ptr.null => Expr.null
  | _, Ptr.tree e => e
  | 0, Ptr.node _ => Expr.null
  | fuel + 1, Ptr.node i =>
    match heap[i]? with
    | none => Expr.null
    | some n => Expr.opNode n.op (readExpr heap fuel n.left) (readExpr heap fuel n.right)

/-- The assignment `heap[i].right = p`. -/
def setRight (heap : List OpNode) (i : Nat) (p : Ptr) : List OpNode :=
  match heap[i]? with
  | none => heap
  | some n => heap.set i { n with right := p }

/-- The assignment `heap[i].left = p`. -/
def setLeft (heap : List OpNode) (i : Nat) (p : Ptr) : List OpNode :=
  match heap[i]? with
  | none => heap
  | some n => heap.set i { n with left := p }

/-- The inner loop of `parse_expr`,
`while (now->op->prec > prec || (now->op->prec == prec && leftAssoManager[prec]))
 { stack.pop_back(); now = stack.back(); }`.
The stack is kept with `stack.back()` first; the result is the stack left
when the loop exits, `now` being its first element. -/
def reduce (m : OperatorManager) (heap : List OpNode) (prec : Nat) :
    List Nat → Res (List Nat)
  | [] => Res.undefined
  | now :: below =>
    match heap[now]? with
    | none => Res.undefined
    | some n =>
      if n.op.prec > prec || (n.op.prec == prec && m.leftAssoManager prec) then
        reduce m heap prec below
      else
        Res.ok (now :: below)

/-- The node store and stack with which `parse_expr` starts: the sentinel
`_t(&Operator::Root)` alone. -/
def initialHeap : List OpNode := [⟨Operator.Root, Ptr.null, Ptr.null⟩]

mutual

/-- The `while (1)` loop of `parse_expr(env)`.  `stack` lists the indices of
the stacked nodes, `stack.back()` first (so `stack.front()` is the last
element); `heap` is the node store. -/
def parse_expr_loop : Nat → Top → FuncDef → List Token → List OpNode → List Nat → Bool →
    Nat → Res (Expr × Nat)
  | 0, _, _, _, _, _, _, _ => Res.timeout
  | fuel + 1, top, env, tokens, heap, stack, filled, current =>
    let tok := (tokAt tokens current).kind
    match stack with
    | [] => Res.undefined
    | now :: _ =>
      if filled then
        match top.opManager.binOrLeftUnaryManager tok with
        | some op =>
          let prec := op.prec
          let newNode := heap.length
          let heap1 := heap ++ [⟨op, Ptr.null, Ptr.null⟩]
          (reduce top.opManager heap1 prec stack).bind fun stack1 =>
          match stack1 with
          | [] => Res.undefined
          | now1 :: _ =>
            match heap1[now1]? with
            | none => Res.undefined
            | some n =>
              let heap2 := setLeft heap1 newNode n.right
              let heap3 := setRight heap2 now1 (Ptr.node newNode)
              parse_expr_loop fuel top env tokens heap3 (newNode :: stack1)
                (if op.type = OpType.binary then false else true) (current + 1)
        | none =>
          match stack.getLast? with
          | none => Res.undefined
          | some front =>
            match heap[front]? with
            | none => Res.undefined
            | some n => Res.ok (readExpr heap heap.length n.right, current)
      else
        if tok = TokKind.identifier || is_const tok then
          (parse_factor fuel top env tokens current).bind fun r =>
          parse_expr_loop fuel top env tokens (setRight heap now (Ptr.tree r.1)) stack true r.2
        else
          match top.opManager.rightUnaryManager tok with
          | some op =>
            let temp := heap.length
            let heap1 := heap ++ [⟨op, Ptr.null, Ptr.null⟩]
            parse_expr_loop fuel top env tokens (setRight heap1 now (Ptr.node temp))
              (temp :: stack) false (current + 1)
          | none =>
            if stack.length > 1 then Res.error Err.rvalueExpected
            else Res.ok (Expr.null, current)
termination_by structural fuel => fuel

/-- `parse_factor(env)`. -/
def parse_factor : Nat → Top → FuncDef → List Token → Nat → Res (Expr × Nat)
  | 0, _, _, _, _ => Res.timeout
  | fuel + 1, top, env, tokens, current =>
    if (tokAt tokens current).kind = TokKind.identifier then
      if (tokAt tokens (current + 1)).kind = TokKind.lparen then
        parse_call_node fuel top env tokens current
      else
        parse_var_node top env tokens current
    else if (tokAt tokens current).kind = TokKind.constant_int then
      parse_const_int tokens current
    else
      Res.error Err.invalidFactor
termination_by structural fuel => fuel

/-- `parse_call_node(env)`. -/
def parse_call_node : Nat → Top → FuncDef → List Token → Nat → Res (Expr × Nat)
  | 0, _, _, _, _ => Res.timeout
  | fuel + 1, top, env, tokens, current =>
    let name := (tokAt tokens current).str
    match top.funcManager.lookup name with
    | none => Res.error Err.functionNotFound
    | some func =>
      (eat tokens TokKind.identifier current).bind fun current1 =>
      (eat tokens TokKind.lparen current1).bind fun current2 =>
      (parse_call_args fuel top env tokens func.arguments [] current2).bind fun r =>
      (eat tokens TokKind.rparen r.2).bind fun current3 =>
      Res.ok (Expr.callNode name r.1, current3)
termination_by structural fuel => fuel

/-- The `for` loop of `parse_call_node` over the parameters still to be
visited (`iter != e`); `args` is `ret->arguments` so far. -/
def parse_call_args : Nat → Top → FuncDef → List Token → List VarDef → List Expr → Nat →
    Res (List Expr × Nat)
  | 0, _, _, _, _, _, _ => Res.timeout
  | fuel + 1, top, env, tokens, params, args, current =>
    match params with
    | [] => Res.ok (args, current)
    | _ :: params1 =>
      (parse_expr_loop fuel top env tokens initialHeap [0] false current).bind fun r =>
      if (tokAt tokens r.2).kind = TokKind.comma then
        (eat tokens TokKind.comma r.2).bind fun current1 =>
        parse_call_args fuel top env tokens params1 (args ++ [r.1]) current1
      else
        Res.ok (args ++ [r.1], r.2)
termination_by structural fuel => fuel
end

/-- `parse_expr(env)`: run the loop from the sentinel alone, `filled = false`. -/
def parse_expr (fuel : Nat) (top : Top) (env : FuncDef) (tokens : List Token) (current : Nat) :
    Res (Expr × Nat) :=
  parse_expr_loop fuel top env tokens initialHeap [0] false current

/-! ## Declarations and statements -/

/-- `parse_return(env)`. -/
def parse_return (fuel : Nat) (top : Top) (env : FuncDef) (tokens : List Token)
    (current : Nat) : Res (Statement × Nat) :=
  (eat tokens TokKind.kwd_return current).bind fun current1 =>
  (parse_expr fuel top env tokens current1).bind fun r =>
  Res.ok (Statement.ret r.1, r.2)

/-- What a call of `parse_var` leaves behind: the new `VarDef`, the global
`top`, the function `*env` when `env` is not null, and the cursor. -/
structure VarResult where
  var : VarDef
  top : Top
  env : Option FuncDef
  current : Nat

/-- `parse_var(env)`; `env = none` is the call `parse_var(NULL)`. -/
def parse_var (top : Top) (env : Option FuncDef) (tokens : List Token) (current : Nat) :
    Res VarResult :=
  let type := (tokAt tokens current).str
  let name := (tokAt tokens (current + 1)).str
  (eat tokens TokKind.identifier current).bind fun current1 =>
  (eat tokens TokKind.identifier current1).bind fun current2 =>
  match top.typeManager.lookup type with
  | none => Res.error Err.noSuchType
  | some ty =>
    let v : VarDef := ⟨ty, name, top.allocated⟩
    match env with
    | some e =>
      if e.varManager.count name then
        Res.error Err.variableDuplicated
      else
        Res.ok ⟨v, { top with allocated := top.allocated + 1 },
          some { e with varManager := e.varManager.assign name v }, current2⟩
    | none =>
      if top.varManager.count name then
        Res.error Err.variableDuplicated
      else
        Res.ok ⟨v, { top with varManager := top.varManager.assign name v,
                              allocated := top.allocated + 1 }, none, current2⟩

/-- State threaded through the two loops of `parse_func`: the global `top`,
the function `*ret` under construction, and the cursor. -/
structure FuncState where
  top : Top
  ret : FuncDef
  current : Nat

/-- The parameter loop of `parse_func` (the `while (1)` after `eat(lparen)`). -/
def parse_func_params : Nat → Top → FuncDef → List Token → Nat → Res FuncState
  | 0, _, _, _, _ => Res.timeout
  | fuel + 1, top, ret, tokens, current =>
    let type := (tokAt tokens current).str
    let name := (tokAt tokens (current + 1)).str
    (eat tokens TokKind.identifier current).bind fun current1 =>
    (eat tokens TokKind.identifier current1).bind fun current2 =>
    match top.typeManager.lookup type with
    | none => Res.error Err.noSuchType
    | some ty =>
      if ret.varManager.count name then
        Res.error Err.duplicatedDefinition
      else
        let v : VarDef := ⟨ty, name, top.allocated⟩
        let top1 : Top := { top with allocated := top.allocated + 1 }
        let ret1 : FuncDef := { ret with varManager := ret.varManager.assign name v,
                                         arguments := ret.arguments ++ [v] }
        if (tokAt tokens current2).kind ≠ TokKind.rparen then
          (eat tokens TokKind.comma current2).bind fun current3 =>
          parse_func_params fuel top1 ret1 tokens current3
        else
          Res.ok ⟨top1, ret1, current2⟩

/-- The statement loop of `parse_func` (the `while (1)` after `eat(lbrace)`),
up to the `goto out`. -/
def parse_func_stmts : Nat → Top → FuncDef → List Token → Nat → Res FuncState
  | 0, _, _, _, _ => Res.timeout
  | fuel + 1, top, ret, tokens, current =>
    match (tokAt tokens current).kind with
    | TokKind.kwd_return =>
      (parse_return fuel top ret tokens current).bind fun r =>
      parse_func_stmts fuel top { ret with stmtList := ret.stmtList ++ [r.1] } tokens r.2
    | TokKind.identifier =>
      if (tokAt tokens (current + 1)).kind ≠ TokKind.identifier then
        (parse_expr fuel top ret tokens current).bind fun r =>
        parse_func_stmts fuel top
          { ret with stmtList := ret.stmtList ++ [Statement.expr r.1] } tokens r.2
      else
        (parse_var top (some ret) tokens current).bind fun r =>
        match r.env with
        | none => Res.undefined
        | some ret1 =>
          parse_func_stmts fuel { r.top with defList := r.top.defList ++ [Definition.var r.var] }
            ret1 tokens r.current
    | TokKind.rbrace => Res.ok ⟨top, ret, current⟩
    | _ =>
      (parse_expr fuel top ret tokens current).bind fun r =>
      parse_func_stmts fuel top
        { ret with stmtList := ret.stmtList ++ [Statement.expr r.1] } tokens r.2

/-- `parse_func()`.  The returned state holds the finished `FuncDef` as `ret`
and the `top` in which it has been entered into `funcManager`. -/
def parse_func (fuel : Nat) (top : Top) (tokens : List Token) (current : Nat) :
    Res FuncState :=
  let funcType := (tokAt tokens current).str
  let funcName := (tokAt tokens (current + 1)).str
  (eat tokens TokKind.identifier current).bind fun current1 =>
  (eat tokens TokKind.identifier current1).bind fun current2 =>
  match top.typeManager.lookup funcType with
  | none => Res.error Err.noSuchType
  | some ty =>
    let ret : FuncDef := ⟨ty, funcName, [], [], []⟩
    if top.funcManager.count funcName then
      Res.error Err.functionDuplicated
    else
      (eat tokens TokKind.lparen current2).bind fun current3 =>
      (if (tokAt tokens current3).kind ≠ TokKind.rparen then
          parse_func_params fuel top ret tokens current3
        else
          Res.ok ⟨top, ret, current3⟩).bind fun s1 =>
      (eat tokens TokKind.rparen s1.current).bind fun current4 =>
      (eat tokens TokKind.lbrace current4).bind fun current5 =>
      (parse_func_stmts fuel s1.top s1.ret tokens current5).bind fun s2 =>
      (eat tokens TokKind.rbrace s2.current).bind fun current6 =>
      Res.ok ⟨{ s2.top with funcManager := s2.top.funcManager.assign funcName s2.ret },
        s2.ret, current6⟩

/-- `parse_top()`: the loop `while (current < token_n)`; returns `top`. -/
def parse_top : Nat → Top → List Token → Nat → Res Top
  | 0, _, _, _ => Res.timeout
  | fuel + 1, top, tokens, current =>
    if current < tokens.length then
      match (tokAt tokens current).kind with
      | TokKind.identifier =>
        if (tokAt tokens (current + 1)).kind ≠ TokKind.identifier then
          Res.error Err.definitionExpected
        else if (tokAt tokens (current + 2)).kind = TokKind.lparen then
          (parse_func fuel top tokens current).bind fun s =>
          parse_top fuel { s.top with defList := s.top.defList ++ [Definition.func s.ret] }
            tokens s.current
        else
          (parse_var top none tokens current).bind fun r =>
          parse_top fuel { r.top with defList := r.top.defList ++ [Definition.var r.var] }
            tokens r.current
      | _ => Res.error Err.tokenUnexpected
    else
      Res.ok top

/-- The global `top` as `parse_init` leaves it before it calls `parse_top`:
everything zero-initialised, then `top.typeManager.init()` and
`top.opManager.init()`.  `TypeManager::init` is modelled from the spec (it is
defined outside the sources): the registry is "initialized at startup with
at least one built-in numeric type", the constant `Type::Int`. -/
def Top.initial : Res Top :=
  (TypeManager.regi [] "int" Type_.Int).bind fun tm =>
  (OperatorManager.empty.init).bind fun om =>
  Res.ok ⟨tm, om, [], [], [], 0⟩

/-- `parse_init()` up to the call of `code_gen`: `current = 0`, the two `init`
calls, `parse_top()`. -/
def parse_init (fuel : Nat) (tokens : List Token) : Res Top :=
  Top.initial.bind fun top => parse_top fuel top tokens 0

/-! ## Notions used in the statements -/

/-- The table that `parse_var(env)` declares into: the table of `*env` when
`env` is not null, the global table otherwise. -/
def targetScope (top : Top) (env : Option FuncDef) : Map VarDef :=
  match env with
  | some e => e.varManager
  | none => top.varManager

/-! ## The operator stack as a list of frames

The proofs about `parse_expr` do not follow pointers through the node store.
They use the presentation below, in which a stacked node is a `Frame` (its
operator and the tree under its `left`), the `right` of every stacked node but
the topmost is the node stacked above it, and the `right` of the topmost node
is a tree `cur`.  `parse_expr_loop_eq_frames_loop` proves that the loop over
the node store and the loop over frames return the same results. -/

/-- A stacked operator node: its operator and the tree its `left` denotes. -/
structure Frame where
  op : Operator
  left : Expr
  deriving Repr

/-- The tree under the `right` of the bottom frame, when the topmost frame has
`cur` as its `right`: every frame above the bottom one is closed over the
tree built so far. -/
def plug : List Frame → Expr → Expr
  | [], cur => cur
  | [_], cur => cur
  | f :: g :: fs, cur => plug (g :: fs) (Expr.opNode f.op f.left cur)

/-- Frame form of `reduce`: a popped frame is closed over `cur` and becomes
the new `cur`. -/
def reduceFrames (m : OperatorManager) (prec : Nat) : List Frame → Expr → Res (List Frame × Expr)
  | [], _ => Res.undefined
  | f :: below, cur =>
    if f.op.prec > prec || (f.op.prec == prec && m.leftAssoManager prec) then
      reduceFrames m prec below (Expr.opNode f.op f.left cur)
    else
      Res.ok (f :: below, cur)

/-- Frame form of `parse_expr_loop`. -/
def frames_loop : Nat → Top → FuncDef → List Token → List Frame → Expr → Bool → Nat →
    Res (Expr × Nat)
  | 0, _, _, _, _, _, _, _ => Res.timeout
  | fuel + 1, top, env, tokens, frames, cur, filled, current =>
    let tok := (tokAt tokens current).kind
    match frames with
    | [] => Res.undefined
    | _ :: _ =>
      if filled then
        match top.opManager.binOrLeftUnaryManager tok with
        | some op =>
          (reduceFrames top.opManager op.prec frames cur).bind fun s =>
          frames_loop fuel top env tokens (⟨op, s.2⟩ :: s.1) Expr.null
            (if op.type = OpType.binary then false else true) (current + 1)
        | none => Res.ok (plug frames cur, current)
      else
        if tok = TokKind.identifier || is_const tok then
          (parse_factor fuel top env tokens current).bind fun r =>
          frames_loop fuel top env tokens frames r.1 true r.2
        else
          match top.opManager.rightUnaryManager tok with
          | some op =>
            frames_loop fuel top env tokens (⟨op, Expr.null⟩ :: frames) Expr.null false
              (current + 1)
          | none =>
            if frames.length > 1 then Res.error Err.rvalueExpected
            else Res.ok (Expr.null, current)

/-- `Den heap lo hi p e`: in the node store `heap` the pointer `p` denotes the
tree `e`, and the operator nodes of that tree have indices in `[lo, hi)`, those
under the `left` of a node below the index of the node and those under its
`right` above it. -/
inductive Den (heap : List OpNode) : Nat → Nat → Ptr → Expr → Prop
  | null (lo hi : Nat) : Den heap lo hi Ptr.null Expr.null
  | tree (lo hi : Nat) (e : Expr) : Den heap lo hi (Ptr.tree e) e
  | node (lo hi i : Nat) (n : OpNode) (l r : Expr) :
      lo ≤ i → i < hi → heap[i]? = some n →
      Den heap lo i n.left l → Den heap (i + 1) hi n.right r →
      Den heap lo hi (Ptr.node i) (Expr.opNode n.op l r)

/-- `Chain heap stack frames`: the stacked nodes (topmost first) carry the
operators and left trees of `frames`, their indices decrease towards the
bottom, each node below the topmost has the node stacked above it as its
`right`, and the left tree of a node lies between the node below it and the
node itself. -/
inductive Chain (heap : List OpNode) : List Nat → List Frame → Prop
  | single (p : Nat) (n : OpNode) (l : Expr) :
      heap[p]? = some n → Den heap 0 p n.left l → Chain heap [p] [⟨n.op, l⟩]
  | cons (p q : Nat) (n m : OpNode) (l : Expr) (rest : List Nat) (frames : List Frame) :
      heap[p]? = some n → q < p → heap[q]? = some m → m.right = Ptr.node p →
      Den heap (q + 1) p n.left l → Chain heap (q :: rest) frames →
      Chain heap (p :: q :: rest) (⟨n.op, l⟩ :: frames)

/-- `Sim heap stack frames cur`: the node store and stack present the frames
`frames` with `cur` under the `right` of the topmost node. -/
def Sim (heap : List OpNode) (stack : List Nat) (frames : List Frame) (cur : Expr) : Prop :=
  Chain heap stack frames ∧
    ∃ p n, stack.head? = some p ∧ heap[p]? = some n ∧ Den heap (p + 1) heap.length n.right cur

/-! ## Notions about trees used in the statements and proofs -/

/-- The table `OperatorManager::init` leaves in the zero-initialised
`top.opManager`. -/
def OperatorManager.builtin : OperatorManager :=
  match OperatorManager.empty.init with
  | Res.ok m => m
  | _ => OperatorManager.empty

/-- The operator of an operator node; nothing for null and for factors. -/
def Expr.rootOp : Expr → Option Operator
  | Expr.opNode op _ _ => some op
  | _ => none

/-- A factor node: a variable reference, a call or a constant. -/
def Expr.isFactor : Expr → Bool
  | Expr.varNode _ => true
  | Expr.callNode _ _ => true
  | Expr.constantNumNode _ => true
  | _ => false

/-- The null pointer. -/
def Expr.isNull : Expr → Bool
  | Expr.null => true
  | _ => false

/-- The precedence at the root of a tree: that of the operator of an operator
node, and 99 (the precedence of `Operator::Factor`) otherwise. -/
def Expr.rootPrec : Expr → Nat
  | Expr.opNode op _ _ => op.prec
  | _ => 99

/-- No node of the binary operator `+` (`Operator::Add`) is the left or the
right child of a node of `*` (`Operator::Mul`), anywhere in the tree, the
arguments of calls included. -/
def Expr.noAddUnderMul : Expr → Bool
  | Expr.null => true
  | Expr.opNode op l r =>
    (if op = Operator.Mul then
        l.rootOp != some Operator.Add && r.rootOp != some Operator.Add
      else true) && l.noAddUnderMul && r.noAddUnderMul
  | Expr.varNode _ => true
  | Expr.callNode _ args => allArgs args
  | Expr.constantNumNode _ => true
where
  /-- The same for every argument of a call. -/
  allArgs : List Expr → Bool
    | [] => true
    | a :: rest => a.noAddUnderMul && allArgs rest

/-- Every node of unary plus (`Operator::Pos`) has as its right child a factor
node or another node of unary plus, anywhere in the tree, the arguments of
calls included. -/
def Expr.posOperandsOk : Expr → Bool
  | Expr.null => true
  | Expr.opNode op l r =>
    (if op = Operator.Pos then r.isFactor || r.rootOp == some Operator.Pos else true) &&
      l.posOperandsOk && r.posOperandsOk
  | Expr.varNode _ => true
  | Expr.callNode _ args => allArgs args
  | Expr.constantNumNode _ => true
where
  /-- The same for every argument of a call. -/
  allArgs : List Expr → Bool
    | [] => true
    | a :: rest => a.posOperandsOk && allArgs rest

/-- The shape of the trees `parse_expr` builds with the built-in table: a
tree is a factor (whose call arguments are null or of this shape) or a node
of a built-in operator whose right child has this shape and a root precedence
not below that of the node, and whose left child has this shape and such a
root precedence when the operator is binary and is null when it is not. -/
def Expr.shape : Expr → Bool
  | Expr.null => false
  | Expr.opNode op l r =>
    (op = Operator.Assign || op = Operator.Add || op = Operator.Pos || op = Operator.Mul) &&
      r.shape && decide (op.prec ≤ r.rootPrec) &&
      (if op.type = OpType.binary then l.shape && decide (op.prec ≤ l.rootPrec) else l.isNull)
  | Expr.varNode _ => true
  | Expr.callNode _ args => allArgs args
  | Expr.constantNumNode _ => true
where
  /-- Every argument of a call is null or has the shape. -/
  allArgs : List Expr → Bool
    | [] => true
    | a :: rest => (a.isNull || a.shape) && allArgs rest

/-- The frames `parse_expr` stacks with the built-in table: the sentinel at
the bottom, above it built-in operators of non-decreasing precedence, the left
tree of a binary one of the shape above with a root precedence not below that
of the operator, the left tree of a unary one null. -/
def framesOk : List Frame → Bool
  | [] => false
  | [f] => f.op = Operator.Root
  | f :: g :: rest =>
    (f.op = Operator.Assign || f.op = Operator.Add || f.op = Operator.Pos ||
        f.op = Operator.Mul) &&
      decide (g.op.prec ≤ f.op.prec) &&
      (if f.op.type = OpType.binary then f.left.shape && decide (f.op.prec ≤ f.left.rootPrec)
        else f.left.isNull) &&
      framesOk (g :: rest)

/-- The factor that an operand token denotes for `parse_factor`: an integer
literal denotes its constant node, an identifier the variable it resolves to
(table of `env` first, global table second); other tokens and unbound
identifiers denote nothing. -/
def operand (top : Top) (env : FuncDef) (t : Token) : Option Expr :=
  match t.kind with
  | TokKind.constant_int => some (Expr.constantNumNode t.num)
  | TokKind.identifier =>
    match env.varManager.lookup t.str with
    | some v => some (Expr.varNode v)
    | none =>
      match top.varManager.lookup t.str with
      | some v => some (Expr.varNode v)
      | none => none
  | _ => none

/-- The token sequence `x1 op x2 op ... op xn`. -/
def chainTokens (op : TokKind) : List Token → List Token
  | [] => []
  | [x] => [x]
  | x :: y :: rest => x :: Token.sym op :: chainTokens op (y :: rest)

/-- The left-nested tree `((e1 op e2) op ...) op en`, from `e1` and the list
`e2, ..., en`. -/
def leftNested (op : Operator) : Expr → List Expr → Expr
  | acc, [] => acc
  | acc, e :: es => leftNested op (Expr.opNode op acc e) es

/-- The right-nested tree `e1 op (e2 op (... op en))`, from `e1` and the list
`e2, ..., en`. -/
def rightNested (op : Operator) : Expr → List Expr → Expr
  | e, [] => e
  | e, e2 :: es => Expr.opNode op e (rightNested op e2 es)

/-- The tokens are operands (identifiers or integer literals) alternating with
the operator tokens `+` and `*`; `filled` tells whether an operator (`true`) or
an operand (`false`) is due first.  In such a sequence `+` occurs as a binary
operator only. -/
def isAlternating : Bool → List Token → Bool
  | _, [] => true
  | false, t :: rest =>
    (t.kind = TokKind.identifier || t.kind = TokKind.constant_int) && isAlternating true rest
  | true, t :: rest =>
    (t.kind = TokKind.plus || t.kind = TokKind.star) && isAlternating false rest

/-- The symbol of the operator of an operator node. -/
def Expr.rootName : Expr → Option String
  | Expr.opNode op _ _ => some op.name
  | _ => none

/-- No operator node with the symbol `+` is the left or the right child of an
operator node with the symbol `*`, anywhere in the tree, the arguments of
calls included. -/
def Expr.noPlusUnderStar : Expr → Bool
  | Expr.null => true
  | Expr.opNode op l r =>
    (if op.name = "*" then l.rootName != some "+" && r.rootName != some "+" else true) &&
      l.noPlusUnderStar && r.noPlusUnderStar
  | Expr.varNode _ => true
  | Expr.callNode _ args => allArgs args
  | Expr.constantNumNode _ => true
where
  /-- The same for every argument of a call. -/
  allArgs : List Expr → Bool
    | [] => true
    | a :: rest => a.noPlusUnderStar && allArgs rest

/-- The tree is made of variables, constants and nodes of `Operator::Add` and
`Operator::Mul` only. -/
def Expr.onlyAddMul : Expr → Bool
  | Expr.null => true
  | Expr.opNode op l r =>
    (op = Operator.Add || op = Operator.Mul) && l.onlyAddMul && r.onlyAddMul
  | Expr.varNode _ => true
  | Expr.callNode _ _ => false
  | Expr.constantNumNode _ => true

/-- Frames whose operators, above the bottom frame, are `Operator::Add` or
`Operator::Mul`, with left trees made of variables, constants and nodes of
these two operators. -/
def framesAddMul : List Frame → Bool
  | [] => true
  | [_] => true
  | f :: g :: rest =>
    (f.op = Operator.Add || f.op = Operator.Mul) && f.left.onlyAddMul &&
      framesAddMul (g :: rest)

/-- Every operator node of the tree, the arguments of calls included, is
complete: a binary node has both children, a right-unary node has its right
child and no left child. -/
def Expr.complete : Expr → Bool
  | Expr.null => true
  | Expr.opNode op l r =>
    (match op.type with
      | OpType.binary => !l.isNull && !r.isNull
      | OpType.right_unary => l.isNull && !r.isNull
      | _ => true) && l.complete && r.complete
  | Expr.varNode _ => true
  | Expr.callNode _ args => allArgs args
  | Expr.constantNumNode _ => true
where
  /-- The same for every argument of a call. -/
  allArgs : List Expr → Bool
    | [] => true
    | a :: rest => a.complete && allArgs rest

/-- `argsWithCommas top env tokens k c c1`: from the cursor `c` on, `k`
argument expressions are parsed by `parse_expr`, each of them followed by a
comma, and `c1` is the cursor behind the last of these commas. -/
def argsWithCommas (top : Top) (env : FuncDef) (tokens : List Token) : Nat → Nat → Nat → Prop
  | 0, c, c1 => c = c1
  | k + 1, c, c1 =>
    ∃ fuel e c2, parse_expr fuel top env tokens c = Res.ok (e, c2) ∧
      (tokAt tokens c2).kind = TokKind.comma ∧ argsWithCommas top env tokens k (c2 + 1) c1

/-! ## Concrete inputs used to instantiate the theorems -/

/-- A global table with the variable `g`, the built-in operator table and the
type `int`; no function defined yet. -/
def demoTop : Top :=
  ⟨[("int", Type_.Int)], OperatorManager.builtin, [("g", ⟨Type_.Int, "g", 0⟩)], [], [], 3⟩

/-- A function `f` under construction, with the parameters `a` and `b`. -/
def demoEnv : FuncDef :=
  ⟨Type_.Int, "f", [⟨Type_.Int, "a", 1⟩, ⟨Type_.Int, "b", 2⟩],
    [("b", ⟨Type_.Int, "b", 2⟩), ("a", ⟨Type_.Int, "a", 1⟩)], []⟩

/-- The tokens of `int f ( ) { ( 1 ) }`: a function whose body is a
parenthesised expression. -/
def parenBodyTokens : List Token :=
  [Token.ident "int", Token.ident "f", Token.sym TokKind.lparen, Token.sym TokKind.rparen,
    Token.sym TokKind.lbrace, Token.sym TokKind.lparen, Token.int 1, Token.sym TokKind.rparen,
    Token.sym TokKind.rbrace]

/-- Every call node of the tree, the arguments of calls included, refers to a
function bound in the table `fm`. -/
def Expr.callsBound (fm : Map FuncDef) : Expr → Bool
  | Expr.null => true
  | Expr.opNode _ l r => l.callsBound fm && r.callsBound fm
  | Expr.varNode _ => true
  | Expr.callNode func args => fm.count func && allArgs fm args
  | Expr.constantNumNode _ => true
where
  /-- The same for every argument of a call. -/
  allArgs (fm : Map FuncDef) : List Expr → Bool
    | [] => true
    | a :: rest => a.callsBound fm && allArgs fm rest

/-- The tree contains a call node that refers to the function `name`. -/
def Expr.calls (name : String) : Expr → Bool
  | Expr.null => false
  | Expr.opNode _ l r => l.calls name || r.calls name
  | Expr.varNode _ => false
  | Expr.callNode func args => func == name || anyArg name args
  | Expr.constantNumNode _ => false
where
  /-- The same for some argument of a call. -/
  anyArg (name : String) : List Expr → Bool
    | [] => false
    | a :: rest => a.calls name || anyArg name rest

/-- The expression of a statement. -/
def Statement.expression : Statement → Expr
  | Statement.ret e => e
  | Statement.expr e => e

/-- The tokens of `int f ( ) { f ( ) }`: a function whose body calls the
function itself. -/
def selfCallTokens : List Token :=
  [Token.ident "int", Token.ident "f", Token.sym TokKind.lparen, Token.sym TokKind.rparen,
    Token.sym TokKind.lbrace, Token.ident "f", Token.sym TokKind.lparen,
    Token.sym TokKind.rparen, Token.sym TokKind.rbrace]

/-- The variables declared in the body of a function, in the order of their
declaration: the association list `varManager` holds the bindings newest
first, those of the parameters were entered before those of the body. -/
def bodyLocals (f : FuncDef) : List VarDef :=
  (f.varManager.reverse.map Prod.snd).drop f.arguments.length

/-- The entries a top-level definition leaves in `top.defList`: a global
variable leaves itself, a function leaves the variables declared in its body
followed by itself. -/
def Definition.entries : Definition → List Definition
  | Definition.var v => [Definition.var v]
  | Definition.func f => (bodyLocals f).map Definition.var ++ [Definition.func f]

/-- The entries of a list of top-level definitions, in order. -/
def entriesOf : List Definition → List Definition
  | [] => []
  | d :: ds => d.entries ++ entriesOf ds

/-- The global variable table after the variables among the given top-level
definitions have been bound, in order, on top of `vm`. -/
def bindGlobals (vm : Map VarDef) : List Definition → Map VarDef
  | [] => vm
  | Definition.var v :: ds => bindGlobals ((v.name, v) :: vm) ds
  | Definition.func _ :: ds => bindGlobals vm ds

/-- The function table after the functions among the given top-level
definitions have been bound, in order, on top of `fm`. -/
def bindFuncs (fm : Map FuncDef) : List Definition → Map FuncDef
  | [] => fm
  | Definition.var _ :: ds => bindFuncs fm ds
  | Definition.func f :: ds => bindFuncs ((f.name, f) :: fm) ds

/-- The global `top` after the two `init` calls of `parse_init`. -/
def startTop : Top := ⟨[("int", Type_.Int)], OperatorManager.builtin, [], [], [], 0⟩

/-- The tokens of `int f ( ) { int x }`: a function whose body declares a
variable. -/
def localDeclTokens : List Token :=
  [Token.ident "int", Token.ident "f", Token.sym TokKind.lparen, Token.sym TokKind.rparen,
    Token.sym TokKind.lbrace, Token.ident "int", Token.ident "x", Token.sym TokKind.rbrace]

/-- A function `h` with the two parameters `p` and `q` and an empty body. -/
def demoH : FuncDef :=
  ⟨Type_.Int, "h", [⟨Type_.Int, "p", 3⟩, ⟨Type_.Int, "q", 4⟩],
    [("q", ⟨Type_.Int, "q", 4⟩), ("p", ⟨Type_.Int, "p", 3⟩)], []⟩

/-- The global table of `demoTop` after the function `h` has been defined. -/
def demoTopWithH : Top :=
  ⟨[("int", Type_.Int)], OperatorManager.builtin, [("g", ⟨Type_.Int, "g", 0⟩)],
    [("h", demoH)], [], 5⟩

/-- The parameter declared by the two identifiers at `pos`: the type that the
first names in the type table `tm`, under the name that the second spells;
`addr` tells the `VarDef` apart from the others allocated. -/
def declaredParam (tm : Map Type_) (tokens : List Token) (pos addr : Nat) : Option VarDef :=
  (tm.lookup (tokAt tokens pos).str).map fun ty => ⟨ty, (tokAt tokens (pos + 1)).str, addr⟩

/-- The `k` parameters declared from `pos` on, every declaration two
identifiers followed by one separating token. -/
def declaredParams (tm : Map Type_) (tokens : List Token) : Nat → Nat → Nat → List (Option VarDef)
  | 0, _, _ => []
  | k + 1, pos, addr =>
    declaredParam tm tokens pos addr :: declaredParams tm tokens k (pos + 3) (addr + 1)

/-- The tokens of a parameter list, without the parentheses: for each pair
its type and its name, with commas in between. -/
def paramTokens : List (String × String) → List Token
  | [] => []
  | [d] => [Token.ident d.1, Token.ident d.2]
  | d :: e :: ds =>
    Token.ident d.1 :: Token.ident d.2 :: Token.sym TokKind.comma :: paramTokens (e :: ds)

/-- The tokens of `int g  int f ( int a , int b ) { return a + b * g }`. -/
def scenarioTokens : List Token :=
  [Token.ident "int", Token.ident "g",
    Token.ident "int", Token.ident "f", Token.sym TokKind.lparen,
    Token.ident "int", Token.ident "a", Token.sym TokKind.comma,
    Token.ident "int", Token.ident "b", Token.sym TokKind.rparen,
    Token.sym TokKind.lbrace, Token.sym TokKind.kwd_return,
    Token.ident "a", Token.sym TokKind.plus, Token.ident "b", Token.sym TokKind.star,
    Token.ident "g", Token.sym TokKind.rbrace]

/-- The tokens of `int f ( int a , int b ) { }`. -/
def twoParamTokens : List Token :=
  [Token.ident "int", Token.ident "f", Token.sym TokKind.lparen,
    Token.ident "int", Token.ident "a", Token.sym TokKind.comma,
    Token.ident "int", Token.ident "b", Token.sym TokKind.rparen,
    Token.sym TokKind.lbrace, Token.sym TokKind.rbrace]

/-! ## One pass of the loop of `parse_expr` -/

/-- The variables of the loop of `parse_expr`: the node store, the stack
(`stack.back()` first), `filled` and the cursor. -/
structure LoopState where
  heap : List OpNode
  stack : List Nat
  filled : Bool
  current : Nat

/-- One pass through the body of the `while (1)` loop of `parse_expr`: the
state in which the next pass starts, or the value that the pass returns. -/
def parse_expr_step (fuel : Nat) (top : Top) (env : FuncDef) (tokens : List Token)
    (st : LoopState) : Res (LoopState ⊕ (Expr × Nat)) :=
  let tok := (tokAt tokens st.current).kind
  match st.stack with
  | [] => Res.undefined
  | now :: _ =>
    if st.filled then
      match top.opManager.binOrLeftUnaryManager tok with
      | some op =>
        let prec := op.prec
        let newNode := st.heap.length
        let heap1 := st.heap ++ [⟨op, Ptr.null, Ptr.null⟩]
        (reduce top.opManager heap1 prec st.stack).bind fun stack1 =>
        match stack1 with
        | [] => Res.undefined
        | now1 :: _ =>
          match heap1[now1]? with
          | none => Res.undefined
          | some n =>
            let heap2 := setLeft heap1 newNode n.right
            let heap3 := setRight heap2 now1 (Ptr.node newNode)
            Res.ok (Sum.inl ⟨heap3, newNode :: stack1,
              if op.type = OpType.binary then false else true, st.current + 1⟩)
      | none =>
        match st.stack.getLast? with
        | none => Res.undefined
        | some front =>
          match st.heap[front]? with
          | none => Res.undefined
          | some n => Res.ok (Sum.inr (readExpr st.heap st.heap.length n.right, st.current))
    else
      if tok = TokKind.identifier || is_const tok then
        (parse_factor fuel top env tokens st.current).bind fun r =>
        Res.ok (Sum.inl ⟨setRight st.heap now (Ptr.tree r.1), st.stack, true, r.2⟩)
      else
        match top.opManager.rightUnaryManager tok with
        | some op =>
          let temp := st.heap.length
          let heap1 := st.heap ++ [⟨op, Ptr.null, Ptr.null⟩]
          Res.ok (Sum.inl ⟨setRight heap1 now (Ptr.node temp), temp :: st.stack, false,
            st.current + 1⟩)
        | none =>
          if st.stack.length > 1 then Res.error Err.rvalueExpected
          else Res.ok (Sum.inr (Expr.null, st.current))

/-- What follows a pass of the loop: the remaining passes, or the return. -/
def parse_expr_continue (fuel : Nat) (top : Top) (env : FuncDef) (tokens : List Token) :
    LoopState ⊕ (Expr × Nat) → Res (Expr × Nat)
  | Sum.inl st => parse_expr_loop fuel top env tokens st.heap st.stack st.filled st.current
  | Sum.inr r => Res.ok r

/-- The stack is linked: it is not empty, its bottom element is the sentinel
(the node with index 0, whose operator is `Operator::Root`), the indices of the
stacked nodes decrease towards the bottom, every stacked node is in the node
store, and the `right` of every stacked node but the topmost is the node
stacked directly above it. -/
def StackLinked (heap : List OpNode) : List Nat → Prop
  | [] => False
  | [p] => p = 0 ∧ ∃ n, heap[p]? = some n ∧ n.op = Operator.Root
  | p :: q :: rest =>
    q < p ∧ (∃ n, heap[p]? = some n) ∧ (∃ m, heap[q]? = some m ∧ m.right = Ptr.node p) ∧
      StackLinked heap (q :: rest)

/-- The bottom frame carries an operator of precedence 0, as the sentinel
does. -/
def framesRooted : List Frame → Bool
  | [] => false
  | [f] => f.op.prec == 0
  | _ :: g :: fs => framesRooted (g :: fs)

/-- The function `f` of the scenario as `parse_func` leaves it. -/
def scenarioFunc : FuncDef :=
  ⟨Type_.Int, "f", [⟨Type_.Int, "a", 1⟩, ⟨Type_.Int, "b", 2⟩],
    [("b", ⟨Type_.Int, "b", 2⟩), ("a", ⟨Type_.Int, "a", 1⟩)],
    [Statement.ret (Expr.opNode Operator.Add (Expr.varNode ⟨Type_.Int, "a", 1⟩)
      (Expr.opNode Operator.Mul (Expr.varNode ⟨Type_.Int, "b", 2⟩)
        (Expr.varNode ⟨Type_.Int, "g", 0⟩)))]⟩

/-- The global `top` that `parse_top` returns for the scenario. -/
def scenarioTop : Top :=
  ⟨[("int", Type_.Int)], OperatorManager.builtin, [("g", ⟨Type_.Int, "g", 0⟩)],
    [("f", scenarioFunc)],
    [Definition.var ⟨Type_.Int, "g", 0⟩, Definition.func scenarioFunc], 3⟩

/-- The state in which `parse_func` leaves `int f ( int a , int b ) { }`,
parsed from the start of the tokens with the tables of `startTop`. -/
def twoParamState : FuncState :=
  ⟨⟨[("int", Type_.Int)], OperatorManager.builtin, [],
      [("f", ⟨Type_.Int, "f", [⟨Type_.Int, "a", 0⟩, ⟨Type_.Int, "b", 1⟩],
        [("b", ⟨Type_.Int, "b", 1⟩), ("a", ⟨Type_.Int, "a", 0⟩)], []⟩)], [], 2⟩,
    ⟨Type_.Int, "f", [⟨Type_.Int, "a", 0⟩, ⟨Type_.Int, "b", 1⟩],
      [("b", ⟨Type_.Int, "b", 1⟩), ("a", ⟨Type_.Int, "a", 0⟩)], []⟩, 11⟩

/-- The states in which the passes of the loop of `parse_expr` start, when the
loop is entered in the state `st`: `st` itself, then the states of the passes
that follow, up to the pass that returns or aborts. -/
def parse_expr_states : Nat → Top → FuncDef → List Token → LoopState → List LoopState
  | 0, _, _, _, _ => []
  | fuel + 1, top, env, tokens, st =>
    st :: match parse_expr_step fuel top env tokens st with
      | Res.ok (Sum.inl st1) => parse_expr_states fuel top env tokens st1
      | _ => []

/-- The state after the first pass of the loop over a leading `+`: the node of
`Operator::Pos` stacked on the sentinel. -/
def demoPushed : LoopState :=
  ⟨[⟨Operator.Root, Ptr.null, Ptr.node 1⟩, ⟨Operator.Pos, Ptr.null, Ptr.null⟩], [1, 0], false, 1⟩

/-! ## The order of the tokens in a tree -/

/-- What a tree is read as, node by node: an operator, or a leaf (a variable,
a literal or a call). -/
inductive Label
  | op (o : Operator)
  | leaf (e : Expr)

/-- The label is a call leaf. -/
def Label.isCall : Label → Bool
  | Label.leaf (Expr.callNode _ _) => true
  | _ => false

/-- The in-order linearisation of a tree: left subtree, operator, right
subtree for an operator node (a null child contributing nothing); the leaf
itself for a variable, a literal or a call. -/
def Expr.inorder : Expr → List Label
  | Expr.null => []
  | Expr.opNode op l r => l.inorder ++ [Label.op op] ++ r.inorder
  | Expr.varNode v => [Label.leaf (Expr.varNode v)]
  | Expr.callNode func args => [Label.leaf (Expr.callNode func args)]
  | Expr.constantNumNode n => [Label.leaf (Expr.constantNumNode n)]

/-- The tree contains a call node outside the arguments of calls; as the
arguments of a call are inside its call node, a tree for which this is false
contains no function call at all. -/
def Expr.hasCall : Expr → Bool
  | Expr.null => false
  | Expr.opNode _ l r => l.hasCall || r.hasCall
  | Expr.varNode _ => false
  | Expr.callNode _ _ => true
  | Expr.constantNumNode _ => false

/-- The token stands for the label: an operator token for the operator that
one of the two operator tables gives for it, an operand token for the factor
it denotes. -/
def tokenMatches (top : Top) (env : FuncDef) (t : Token) : Label → Prop
  | Label.op o =>
    top.opManager.binOrLeftUnaryManager t.kind = some o ∨
      top.opManager.rightUnaryManager t.kind = some o
  | Label.leaf e => operand top env t = some e

/-- The `n` tokens from position `i` on. -/
def tokensFrom (tokens : List Token) : Nat → Nat → List Token
  | 0, _ => []
  | n + 1, i => tokAt tokens i :: tokensFrom tokens n (i + 1)

/-- The tokens from the cursor position `a` up to the cursor position `b`. -/
def tokensBetween (tokens : List Token) (a b : Nat) : List Token := tokensFrom tokens (b - a) a

/-- The stacked frames read in order, from the bottom of the stack to its
top: the left tree and the operator of every frame but the bottom one, which
is the sentinel. -/
def framesLin : List Frame → List Label
  | [] => []
  | [_] => []
  | f :: g :: fs => framesLin (g :: fs) ++ f.left.inorder ++ [Label.op f.op]

/-- `Consumed top env tokens a b L`: between the cursor positions `a` and `b`
the loop of `parse_expr` has passed the items `L`, every item an operator
token or a factor accepted by `parse_factor`. -/
inductive Consumed (top : Top) (env : FuncDef) (tokens : List Token) :
    Nat → Nat → List Label → Prop
  | done (c : Nat) : Consumed top env tokens c c []
  | op (current c : Nat) (o : Operator) (L : List Label) :
      tokenMatches top env (tokAt tokens current) (Label.op o) →
      Consumed top env tokens (current + 1) c L →
      Consumed top env tokens current c (Label.op o :: L)
  | leaf (current c fuel : Nat) (r : Expr × Nat) (L : List Label) :
      parse_factor fuel top env tokens current = Res.ok r →
      Consumed top env tokens r.2 c L →
      Consumed top env tokens current c (Label.leaf r.1 :: L)

/-- The tokens of `int f ( ) { y + f ( ) }`: a function whose body calls the
function itself after a use of the undeclared variable `y`. -/
def unknownThenSelfCallTokens : List Token :=
  [Token.ident "int", Token.ident "f", Token.sym TokKind.lparen, Token.sym TokKind.rparen,
    Token.sym TokKind.lbrace, Token.ident "y", Token.sym TokKind.plus, Token.ident "f",
    Token.sym TokKind.lparen, Token.sym TokKind.rparen, Token.sym TokKind.rbrace]

/-! ## The passes of `parse_top` -/

/-- The passes of the loop of `parse_top` that parse a definition, in their
order: for each the cursor position at which it starts, the cursor position at
which it ends, and the definition `temp` that `parse_var(NULL)` or
`parse_func()` returns in it. -/
def parse_top_passes : Nat → Top → List Token → Nat → List (Nat × Nat × Definition)
  | 0, _, _, _ => []
  | fuel + 1, top, tokens, current =>
    if current < tokens.length then
      match (tokAt tokens current).kind with
      | TokKind.identifier =>
        if (tokAt tokens (current + 1)).kind ≠ TokKind.identifier then
          []
        else if (tokAt tokens (current + 2)).kind = TokKind.lparen then
          match parse_func fuel top tokens current with
          | Res.ok s =>
            (current, s.current, Definition.func s.ret) ::
              parse_top_passes fuel
                { s.top with defList := s.top.defList ++ [Definition.func s.ret] }
                tokens s.current
          | _ => []
        else
          match parse_var top none tokens current with
          | Res.ok r =>
            (current, r.current, Definition.var r.var) ::
              parse_top_passes fuel
                { r.top with defList := r.top.defList ++ [Definition.var r.var] }
                tokens r.current
          | _ => []
      | _ => []
    else
      []

/-- The definition `d` is written in the tokens from position `p` up to
position `q`: two identifiers, the second of them its name; a variable is not
followed by `(` and ends behind its name; a function is followed by `(` and
ends behind a closing brace. -/
def definedAt (tokens : List Token) (p q : Nat) : Definition → Prop
  | Definition.var v =>
    (tokAt tokens p).kind = TokKind.identifier ∧
      (tokAt tokens (p + 1)).kind = TokKind.identifier ∧
      v.name = (tokAt tokens (p + 1)).str ∧
      (tokAt tokens (p + 2)).kind ≠ TokKind.lparen ∧ q = p + 2
  | Definition.func f =>
    (tokAt tokens p).kind = TokKind.identifier ∧
      (tokAt tokens (p + 1)).kind = TokKind.identifier ∧
      f.name = (tokAt tokens (p + 1)).str ∧
      (tokAt tokens (p + 2)).kind = TokKind.lparen ∧ p + 2 < q ∧
      (tokAt tokens (q - 1)).kind = TokKind.rbrace

/-- The definitions of the list are written one after the other from the
cursor position `c` to the end of the tokens: the first starts at `c`, every
further one where the one before it ends, and the last ends at the end of the
tokens. -/
def Tiled (tokens : List Token) : Nat → List (Nat × Nat × Definition) → Prop
  | c, [] => tokens.length ≤ c
  | c, (p, q, d) :: rest =>
    p = c ∧ c < tokens.length ∧ definedAt tokens p q d ∧ Tiled tokens q rest

/-- The tokens of `int g  int f ( ) { int x }  int k`. -/
def mixedDefsTokens : List Token :=
  [Token.ident "int", Token.ident "g",
    Token.ident "int", Token.ident "f", Token.sym TokKind.lparen, Token.sym TokKind.rparen,
    Token.sym TokKind.lbrace, Token.ident "int", Token.ident "x", Token.sym TokKind.rbrace,
    Token.ident "int", Token.ident "k"]

/-- The function `f` of `mixedDefsTokens` as `parse_func` leaves it. -/
def mixedDefsFunc : FuncDef :=
  ⟨Type_.Int, "f", [], [("x", ⟨Type_.Int, "x", 1⟩)], []⟩

/-- The global `top` that `parse_top` returns for `mixedDefsTokens`. -/
def mixedDefsTop : Top :=
  ⟨[("int", Type_.Int)], OperatorManager.builtin,
    [("k", ⟨Type_.Int, "k", 2⟩), ("g", ⟨Type_.Int, "g", 0⟩)],
    [("f", mixedDefsFunc)],
    [Definition.var ⟨Type_.Int, "g", 0⟩, Definition.var ⟨Type_.Int, "x", 1⟩,
      Definition.func mixedDefsFunc, Definition.var ⟨Type_.Int, "k", 2⟩], 3⟩

/-! ## Theorems -/

@[simp] theorem Res.bind_ok {α β : Type} (a : α) (f : α → Res β) :
    (Res.ok a).bind f = f a := rfl

@[simp] theorem Res.bind_error {α β : Type} (e : Err) (f : α → Res β) :
    (Res.error e : Res α).bind f = Res.error e := rfl

@[simp] theorem Res.bind_undefined {α β : Type} (f : α → Res β) :
    (Res.undefined : Res α).bind f = Res.undefined := rfl

@[simp] theorem Res.bind_timeout {α β : Type} (f : α → Res β) :
    (Res.timeout : Res α).bind f = Res.timeout := rfl

/-! ### The operator table -/

/-- `regi` reports inconsistent associativity exactly when the flag recorded
for the precedence level is `true` and the new operator is not
left-associative. -/
theorem regi_inconsistent_iff (m : OperatorManager) (tok : TokKind) (op : Operator) :
    m.regi tok op = Res.error Err.inconsistentAssociativity ↔
      (m.leftAssoManager op.prec = true ∧ op.leftAsso = false) := by
  unfold OperatorManager.regi
  cases h1 : m.leftAssoManager op.prec <;> cases h2 : op.leftAsso <;> cases h3 : op.type <;>
    simp <;> split <;> simp

/-- C3, evaluated on the code: after `Assign` (precedence 10, not
left-associative) is registered, registering a left-associative binary
operator at precedence 10 for another token returns normally; no
inconsistency is reported, and the level is now recorded as left-associative. -/
theorem regi_left_after_nonleft_accepted :
    ∃ m1 m2, OperatorManager.empty.regi TokKind.equ Operator.Assign = Res.ok m1 ∧
      m1.regi (TokKind.other 0) ⟨"-", 10, OpType.binary, true⟩ = Res.ok m2 ∧
      m2.leftAssoManager 10 = true :=
  ⟨_, _, rfl, rfl, rfl⟩

/-- C4, evaluated on the code: two successful `regi` calls from the empty table
leave `Assign` in its slot with a flag different from the one recorded for
its precedence, next to an operator of the same precedence with the opposite
flag. -/
theorem regiAll_breaks_level_flag :
    ∃ m, OperatorManager.empty.regiAll
        [(TokKind.equ, Operator.Assign), (TokKind.other 0, ⟨"-", 10, OpType.binary, true⟩)]
        = Res.ok m ∧
      m.binOrLeftUnaryManager TokKind.equ = some Operator.Assign ∧
      m.binOrLeftUnaryManager (TokKind.other 0) = some ⟨"-", 10, OpType.binary, true⟩ ∧
      m.leftAssoManager Operator.Assign.prec = true ∧
      Operator.Assign.leftAsso = false :=
  ⟨_, rfl, rfl, rfl, rfl, rfl⟩

/-! ### The symbol tables -/

theorem Map.lookup_assign_self {α : Type} (m : Map α) (k : String) (v : α) :
    List.lookup k (m.assign k v) = some v := by
  simp [Map.assign, List.lookup]

theorem Map.lookup_filter_ne {α : Type} (m : Map α) (k k1 : String) (h : k1 ≠ k) :
    List.lookup k1 (m.filter fun p => p.1 != k) = List.lookup k1 m := by
  induction m with
  | nil => rfl
  | cons p rest ih =>
    obtain ⟨a, b⟩ := p
    by_cases hak : a = k
    · subst hak
      have h1 : (k1 == a) = false := by simpa using h
      simp [List.filter, List.lookup, h1, ih]
    · have h2 : (a != k) = true := by simpa using hak
      simp only [List.filter, h2, List.lookup]
      rw [ih]

theorem Map.lookup_assign_ne {α : Type} (m : Map α) (k k1 : String) (v : α) (h : k1 ≠ k) :
    List.lookup k1 (m.assign k v) = List.lookup k1 m := by
  have h1 : (k1 == k) = false := by simpa using h
  simp only [Map.assign, List.lookup, h1]
  exact Map.lookup_filter_ne m k k1 h

theorem eat_of_kind (tokens : List Token) (k : TokKind) (current : Nat)
    (h : (tokAt tokens current).kind = k) : eat tokens k current = Res.ok (current + 1) := by
  simp [eat, h]

theorem eat_eq_ok {tokens : List Token} {k : TokKind} {current c : Nat}
    (h : eat tokens k current = Res.ok c) : c = current + 1 := by
  unfold eat at h
  split at h
  · exact (Res.ok.inj h).symm
  · cases h

theorem eat_of_not_kind (tokens : List Token) (k : TokKind) (current : Nat)
    (h : (tokAt tokens current).kind ≠ k) :
    eat tokens k current = Res.error Err.tokenUnexpected := by
  simp [eat, h]

/-- C9: `parse_var_node` on an identifier resolves it in the table of the
function first and in the global table second: a local binding is returned
whatever the global table holds, a global binding is returned when there is no
local one, and the result is the "variable not find" abort exactly when the
name is bound in neither table. -/
theorem parse_var_node_local_then_global (top : Top) (env : FuncDef) (tokens : List Token)
    (current : Nat) (hk : (tokAt tokens current).kind = TokKind.identifier) :
    (∀ v, List.lookup (tokAt tokens current).str env.varManager = some v →
        parse_var_node top env tokens current = Res.ok (Expr.varNode v, current + 1)) ∧
    (∀ v, List.lookup (tokAt tokens current).str env.varManager = none →
        List.lookup (tokAt tokens current).str top.varManager = some v →
        parse_var_node top env tokens current = Res.ok (Expr.varNode v, current + 1)) ∧
    (parse_var_node top env tokens current = Res.error Err.variableNotFound ↔
        (env.varManager.count (tokAt tokens current).str = false ∧
         top.varManager.count (tokAt tokens current).str = false)) := by
  refine ⟨?_, ?_, ?_⟩
  · intro v hv
    simp [parse_var_node, eat_of_kind _ _ _ hk, hv]
  · intro v hl hg
    simp [parse_var_node, eat_of_kind _ _ _ hk, hl, hg]
  · simp only [parse_var_node, eat_of_kind _ _ _ hk, Res.bind_ok, Map.count]
    cases hl : List.lookup (tokAt tokens current).str env.varManager <;>
      cases hg : List.lookup (tokAt tokens current).str top.varManager <;> simp

/-- C9 at a concrete input: inside a function whose table binds `x` to the
local object number 5, with a global `x` (object number 0) also present, the
identifier `x` resolves to the local object. -/
theorem parse_var_node_local_then_global_witness :
    (tokAt [Token.ident "x"] 0).kind = TokKind.identifier ∧
    List.lookup "x" [("x", (⟨Type_.Int, "x", 0⟩ : VarDef))] = some ⟨Type_.Int, "x", 0⟩ ∧
    parse_var_node
      ⟨[("int", Type_.Int)], OperatorManager.empty, [("x", ⟨Type_.Int, "x", 0⟩)], [], [], 6⟩
      ⟨Type_.Int, "f", [], [("x", ⟨Type_.Int, "x", 5⟩)], []⟩ [Token.ident "x"] 0
      = Res.ok (Expr.varNode ⟨Type_.Int, "x", 5⟩, 1) :=
  ⟨rfl, rfl,
    (parse_var_node_local_then_global
      ⟨[("int", Type_.Int)], OperatorManager.empty, [("x", ⟨Type_.Int, "x", 0⟩)], [], [], 6⟩
      ⟨Type_.Int, "f", [], [("x", ⟨Type_.Int, "x", 5⟩)], []⟩ [Token.ident "x"] 0 rfl).1
      ⟨Type_.Int, "x", 5⟩ rfl⟩

/-- C8: with two identifiers `type name` under the cursor and `type`
registered, `parse_var` aborts with "variable duplicated definition" exactly
when `name` is bound in the target scope; otherwise it returns a new `VarDef`,
binds `name` to it in the target scope, keeps every other binding of that scope,
and leaves the table of the other scope as it was. -/
theorem parse_var_duplicate_iff (top : Top) (env : Option FuncDef) (tokens : List Token)
    (current : Nat) (ty : Type_)
    (hk0 : (tokAt tokens current).kind = TokKind.identifier)
    (hk1 : (tokAt tokens (current + 1)).kind = TokKind.identifier)
    (hty : List.lookup (tokAt tokens current).str top.typeManager = some ty) :
    (parse_var top env tokens current = Res.error Err.variableDuplicated ↔
        (targetScope top env).count (tokAt tokens (current + 1)).str = true) ∧
    ((targetScope top env).count (tokAt tokens (current + 1)).str = false →
      ∃ r, parse_var top env tokens current = Res.ok r ∧
        r.var = ⟨ty, (tokAt tokens (current + 1)).str, top.allocated⟩ ∧
        r.current = current + 2 ∧
        List.lookup (tokAt tokens (current + 1)).str (targetScope r.top r.env) = some r.var ∧
        (∀ other, other ≠ (tokAt tokens (current + 1)).str →
          List.lookup other (targetScope r.top r.env) = List.lookup other (targetScope top env)) ∧
        (env.isSome = r.env.isSome) ∧
        (env.isSome = true → r.top.varManager = top.varManager) ∧
        (env.isSome = false → r.env = none)) := by
  cases env with
  | some e =>
    simp only [parse_var, eat_of_kind _ _ _ hk0, eat_of_kind _ _ _ hk1, Res.bind_ok, hty,
      targetScope]
    cases hc : e.varManager.count (tokAt tokens (current + 1)).str
    · simp [Map.lookup_assign_self]
      intro other hne
      exact Map.lookup_assign_ne _ _ _ _ hne
    · simp
  | none =>
    simp only [parse_var, eat_of_kind _ _ _ hk0, eat_of_kind _ _ _ hk1, Res.bind_ok, hty,
      targetScope]
    cases hc : top.varManager.count (tokAt tokens (current + 1)).str
    · simp [Map.lookup_assign_self]
      intro other hne
      exact Map.lookup_assign_ne _ _ _ _ hne
    · simp

/-! ### The node store -/

theorem getElem?_setRight (heap : List OpNode) (i j : Nat) (p : Ptr) :
    (setRight heap i p)[j]? =
      if j = i then (heap[i]?).map (fun n => { n with right := p }) else heap[j]? := by
  unfold setRight
  cases h : heap[i]? with
  | none =>
    by_cases hj : j = i
    · subst hj; simp [h]
    · simp [hj]
  | some n =>
    by_cases hj : j = i
    · subst hj
      have hlt : j < heap.length := by
        rcases List.getElem?_eq_some.mp h with ⟨hlt, _⟩
        exact hlt
      simp [List.getElem?_set, hlt]
    · have hj2 : ¬ i = j := fun hh => hj hh.symm
      simp [List.getElem?_set, hj, hj2]

theorem getElem?_setLeft (heap : List OpNode) (i j : Nat) (p : Ptr) :
    (setLeft heap i p)[j]? =
      if j = i then (heap[i]?).map (fun n => { n with left := p }) else heap[j]? := by
  unfold setLeft
  cases h : heap[i]? with
  | none =>
    by_cases hj : j = i
    · subst hj; simp [h]
    · simp [hj]
  | some n =>
    by_cases hj : j = i
    · subst hj
      have hlt : j < heap.length := by
        rcases List.getElem?_eq_some.mp h with ⟨hlt, _⟩
        exact hlt
      simp [List.getElem?_set, hlt]
    · have hj2 : ¬ i = j := fun hh => hj hh.symm
      simp [List.getElem?_set, hj, hj2]

@[simp] theorem length_setRight (heap : List OpNode) (i : Nat) (p : Ptr) :
    (setRight heap i p).length = heap.length := by
  unfold setRight
  cases heap[i]? <;> simp

@[simp] theorem length_setLeft (heap : List OpNode) (i : Nat) (p : Ptr) :
    (setLeft heap i p).length = heap.length := by
  unfold setLeft
  cases heap[i]? <;> simp

theorem lt_length_of_getElem? {heap : List OpNode} {i : Nat} {n : OpNode}
    (h : heap[i]? = some n) : i < heap.length := by
  rcases List.getElem?_eq_some.mp h with ⟨hlt, _⟩
  exact hlt

theorem Den.mono {heap : List OpNode} {lo hi : Nat} {p : Ptr} {e : Expr}
    (h : Den heap lo hi p e) : ∀ {lo1 hi1 : Nat}, lo1 ≤ lo → hi ≤ hi1 → Den heap lo1 hi1 p e := by
  induction h with
  | null lo hi => intro lo1 hi1 _ _; exact Den.null lo1 hi1
  | tree lo hi e => intro lo1 hi1 _ _; exact Den.tree lo1 hi1 e
  | node lo hi i n l r h1 h2 h3 _ _ ihl ihr =>
    intro lo1 hi1 hlo hhi
    exact Den.node lo1 hi1 i n l r (le_trans hlo h1) (lt_of_lt_of_le h2 hhi) h3
      (ihl hlo (le_refl _)) (ihr (le_refl _) hhi)

theorem Den.congr {heap : List OpNode} {lo hi : Nat} {p : Ptr} {e : Expr}
    (h : Den heap lo hi p e) : ∀ {heap1 : List OpNode},
      (∀ i, lo ≤ i → i < hi → heap1[i]? = heap[i]?) → Den heap1 lo hi p e := by
  induction h with
  | null lo hi => intro heap1 _; exact Den.null lo hi
  | tree lo hi e => intro heap1 _; exact Den.tree lo hi e
  | node lo hi i n l r h1 h2 h3 _ _ ihl ihr =>
    intro heap1 hsame
    refine Den.node lo hi i n l r h1 h2 ?_ (ihl ?_) (ihr ?_)
    · rw [hsame i h1 h2]; exact h3
    · intro j hj1 hj2; exact hsame j hj1 (lt_trans hj2 h2)
    · intro j hj1 hj2; exact hsame j (le_trans h1 (Nat.le_of_succ_le hj1)) hj2

theorem readExpr_of_Den {heap : List OpNode} {lo hi : Nat} {p : Ptr} {e : Expr}
    (h : Den heap lo hi p e) : ∀ fuel, hi - lo ≤ fuel → readExpr heap fuel p = e := by
  induction h with
  | null lo hi => intro fuel _; cases fuel <;> rfl
  | tree lo hi e => intro fuel _; cases fuel <;> rfl
  | node lo hi i n l r h1 h2 h3 _ _ ihl ihr =>
    intro fuel hf
    cases fuel with
    | zero => omega
    | succ fuel =>
      simp only [readExpr, h3]
      rw [ihl fuel (by omega), ihr fuel (by omega)]

/-! ### The node store and the frames present the same stack -/

theorem Chain.congr_heap {heap : List OpNode} {stack : List Nat} {frames : List Frame}
    (h : Chain heap stack frames) : ∀ {heap1 : List OpNode},
      (∀ p, stack.head? = some p →
        (∀ i, i < p → heap1[i]? = heap[i]?) ∧
        ∃ n n1, heap[p]? = some n ∧ heap1[p]? = some n1 ∧ n1.op = n.op ∧ n1.left = n.left) →
      Chain heap1 stack frames := by
  induction h with
  | single p n l hp hl =>
    intro heap1 hc
    obtain ⟨hsame, n0, n1, hn0, hn1, hop, hleft⟩ := hc p rfl
    have hnn : n0 = n := by rw [hp] at hn0; exact (Option.some.inj hn0).symm
    subst hnn
    have := @Chain.single heap1 p n1 l hn1
      (by rw [hleft]; exact hl.congr (fun i _ hi => hsame i hi))
    rw [hop] at this
    exact this
  | cons p q n m l rest frames hp hqp hq hmr hl _ ih =>
    intro heap1 hc
    obtain ⟨hsame, n0, n1, hn0, hn1, hop, hleft⟩ := hc p rfl
    have hnn : n0 = n := by rw [hp] at hn0; exact (Option.some.inj hn0).symm
    subst hnn
    have hq1 : heap1[q]? = some m := by rw [hsame q hqp]; exact hq
    have htail : Chain heap1 (q :: rest) frames := by
      apply ih
      intro p1 hp1
      have : p1 = q := by simpa using hp1.symm
      subst this
      exact ⟨fun i hi => hsame i (lt_trans hi hqp), m, m, hq, hq1, rfl, rfl⟩
    have := @Chain.cons heap1 p q n1 m l rest frames hn1 hqp hq1 hmr
      (by rw [hleft]; exact hl.congr (fun i _ hi => hsame i hi)) htail
    rw [hop] at this
    exact this

theorem Chain.lt_length {heap : List OpNode} {stack : List Nat} {frames : List Frame}
    (h : Chain heap stack frames) : ∀ p ∈ stack, p < heap.length := by
  induction h with
  | single p n l hp _ =>
    intro p1 hp1
    have : p1 = p := by simpa using hp1
    subst this
    exact lt_length_of_getElem? hp
  | cons p q n m l rest frames hp _ _ _ _ _ ih =>
    intro p1 hp1
    rcases List.mem_cons.mp hp1 with h1 | h1
    · subst h1; exact lt_length_of_getElem? hp
    · exact ih p1 h1

theorem Chain.length_eq {heap : List OpNode} {stack : List Nat} {frames : List Frame}
    (h : Chain heap stack frames) : stack.length = frames.length := by
  induction h with
  | single p n l _ _ => rfl
  | cons p q n m l rest frames _ _ _ _ _ _ ih => simp [ih] at *

theorem Chain.front {heap : List OpNode} {stack : List Nat} {frames : List Frame}
    (h : Chain heap stack frames) : ∀ (cur : Expr) (p : Nat) (n : OpNode),
      stack.head? = some p → heap[p]? = some n → Den heap (p + 1) heap.length n.right cur →
      ∃ front n0, stack.getLast? = some front ∧ heap[front]? = some n0 ∧
        Den heap (front + 1) heap.length n0.right (plug frames cur) := by
  induction h with
  | single p n l hp _ =>
    intro cur p1 n1 hhead hn1 hden
    have : p1 = p := by simpa using hhead.symm
    subst this
    exact ⟨p1, n1, rfl, hn1, by simpa [plug] using hden⟩
  | cons p q n m l rest frames hp hqp hq hmr hl hch ih =>
    intro cur p1 n1 hhead hn1 hden
    have : p1 = p := by simpa using hhead.symm
    subst this
    have hnn : n1 = n := by rw [hp] at hn1; exact (Option.some.inj hn1).symm
    subst hnn
    have hnode : Den heap (q + 1) heap.length (Ptr.node p1) (Expr.opNode n1.op l cur) :=
      Den.node (q + 1) heap.length p1 n1 l cur hqp (lt_length_of_getElem? hp) hp hl hden
    obtain ⟨front, n0, hlast, hn0, hd⟩ :=
      ih (Expr.opNode n1.op l cur) q m rfl hq (by rw [hmr]; exact hnode)
    refine ⟨front, n0, ?_, hn0, ?_⟩
    · rw [List.getLast?_cons_cons]; exact hlast
    · cases hch with
      | single _ _ _ _ _ => simpa [plug] using hd
      | cons _ _ _ _ _ _ _ _ _ _ _ _ _ => simpa [plug] using hd

theorem Sim.read_front {heap : List OpNode} {stack : List Nat} {frames : List Frame} {cur : Expr}
    (h : Sim heap stack frames cur) :
    ∃ front n0, stack.getLast? = some front ∧ heap[front]? = some n0 ∧
      readExpr heap heap.length n0.right = plug frames cur := by
  obtain ⟨hch, p, n, hhead, hn, hden⟩ := h
  obtain ⟨front, n0, h1, h2, h3⟩ := hch.front cur p n hhead hn hden
  exact ⟨front, n0, h1, h2, readExpr_of_Den h3 heap.length (by omega)⟩

theorem Sim.cases {heap : List OpNode} {stack : List Nat} {frames : List Frame} {cur : Expr}
    (h : Sim heap stack frames cur) :
    ∃ p rest f fs n, stack = p :: rest ∧ frames = f :: fs ∧ heap[p]? = some n ∧
      f.op = n.op ∧ Den heap (p + 1) heap.length n.right cur ∧ Chain heap (p :: rest) (f :: fs) := by
  obtain ⟨hch, p, n, hhead, hn, hden⟩ := h
  cases hch with
  | single p1 n1 l hp hl =>
    have : p = p1 := by simpa using hhead.symm
    subst this
    have hnn : n1 = n := by rw [hp] at hn; exact Option.some.inj hn
    subst hnn
    exact ⟨p, [], _, [], n1, rfl, rfl, hn, rfl, hden, Chain.single p n1 l hp hl⟩
  | cons p1 q n1 m l rest frames hp hqp hq hmr hl hch =>
    have : p = p1 := by simpa using hhead.symm
    subst this
    have hnn : n1 = n := by rw [hp] at hn; exact Option.some.inj hn
    subst hnn
    exact ⟨p, q :: rest, _, frames, n1, rfl, rfl, hn, rfl, hden,
      Chain.cons p q n1 m l rest frames hp hqp hq hmr hl hch⟩

theorem getElem?_append_one_lt (heap : List OpNode) (x : OpNode) (i : Nat)
    (h : i < heap.length) : (heap ++ [x])[i]? = heap[i]? := by
  rw [List.getElem?_append_left h]

theorem getElem?_append_one_self (heap : List OpNode) (x : OpNode) :
    (heap ++ [x])[heap.length]? = some x := by
  simp

theorem reduce_append (m : OperatorManager) (heap : List OpNode) (x : OpNode) (prec : Nat) :
    ∀ stack : List Nat, (∀ p ∈ stack, p < heap.length) →
      reduce m (heap ++ [x]) prec stack = reduce m heap prec stack := by
  intro stack
  induction stack with
  | nil => intro _; rfl
  | cons p rest ih =>
    intro hlt
    have hp : p < heap.length := hlt p (List.mem_cons_self _ _)
    simp only [reduce, getElem?_append_one_lt heap x p hp]
    cases heap[p]? with
    | none => rfl
    | some n =>
      simp only []
      rw [ih (fun q hq => hlt q (List.mem_cons_of_mem _ hq))]

theorem reduce_frames_sim (m : OperatorManager) (prec : Nat) {heap : List OpNode}
    {stack : List Nat} {frames : List Frame} (hch : Chain heap stack frames) :
    ∀ (cur : Expr) (p : Nat) (n : OpNode), stack.head? = some p → heap[p]? = some n →
      Den heap (p + 1) heap.length n.right cur →
      (reduce m heap prec stack = Res.undefined ∧
        reduceFrames m prec frames cur = Res.undefined) ∨
      ∃ stack1 frames1 cur1, reduce m heap prec stack = Res.ok stack1 ∧
        reduceFrames m prec frames cur = Res.ok (frames1, cur1) ∧
        Sim heap stack1 frames1 cur1 := by
  induction hch with
  | single p n l hp hl =>
    intro cur p1 n1 hhead hn1 hden
    have : p1 = p := by simpa using hhead.symm
    subst this
    have hnn : n1 = n := by rw [hp] at hn1; exact (Option.some.inj hn1).symm
    subst hnn
    simp only [reduce, reduceFrames, hp]
    split
    · left; exact ⟨rfl, rfl⟩
    · right
      exact ⟨[p1], [⟨n1.op, l⟩], cur, rfl, rfl, Chain.single p1 n1 l hp hl, p1, n1, rfl, hp, hden⟩
  | cons p q n m1 l rest frames hp hqp hq hmr hl hch ih =>
    intro cur p1 n1 hhead hn1 hden
    have : p1 = p := by simpa using hhead.symm
    subst this
    have hnn : n1 = n := by rw [hp] at hn1; exact (Option.some.inj hn1).symm
    subst hnn
    simp only [reduce, reduceFrames, hp]
    split
    · have hnode : Den heap (q + 1) heap.length (Ptr.node p1) (Expr.opNode n1.op l cur) :=
        Den.node (q + 1) heap.length p1 n1 l cur hqp (lt_length_of_getElem? hp) hp hl hden
      exact ih (Expr.opNode n1.op l cur) q m1 rfl hq (by rw [hmr]; exact hnode)
    · right
      exact ⟨p1 :: q :: rest, ⟨n1.op, l⟩ :: frames, cur, rfl, rfl,
        Chain.cons p1 q n1 m1 l rest frames hp hqp hq hmr hl hch, p1, n1, rfl, hp, hden⟩

theorem Sim.set_factor {heap : List OpNode} {p : Nat} {rest : List Nat} {frames : List Frame}
    {cur : Expr} (h : Sim heap (p :: rest) frames cur) (e : Expr) :
    Sim (setRight heap p (Ptr.tree e)) (p :: rest) frames e := by
  obtain ⟨hch, p1, n, hhead, hn, _⟩ := h
  have : p1 = p := by simpa using hhead.symm
  subst this
  have hnew : (setRight heap p1 (Ptr.tree e))[p1]? = some { n with right := Ptr.tree e } := by
    rw [getElem?_setRight]; simp [hn]
  refine ⟨hch.congr_heap ?_, p1, _, rfl, hnew, Den.tree _ _ e⟩
  intro p2 hp2
  have : p2 = p1 := by simpa using hp2.symm
  subst this
  refine ⟨fun i hi => ?_, n, _, hn, hnew, rfl, rfl⟩
  rw [getElem?_setRight]; simp [Nat.ne_of_lt hi]

theorem Sim.push_unary {heap : List OpNode} {p : Nat} {rest : List Nat} {frames : List Frame}
    {cur : Expr} (h : Sim heap (p :: rest) frames cur) (op : Operator) :
    Sim (setRight (heap ++ [⟨op, Ptr.null, Ptr.null⟩]) p (Ptr.node heap.length))
      (heap.length :: p :: rest) (⟨op, Expr.null⟩ :: frames) Expr.null := by
  obtain ⟨hch, p1, n, hhead, hn, _⟩ := h
  have : p1 = p := by simpa using hhead.symm
  subst this
  have hlt : p1 < heap.length := lt_length_of_getElem? hn
  have hp : (setRight (heap ++ [⟨op, Ptr.null, Ptr.null⟩]) p1 (Ptr.node heap.length))[p1]? =
      some { n with right := Ptr.node heap.length } := by
    rw [getElem?_setRight]; simp [getElem?_append_one_lt _ _ _ hlt, hn]
  have hN : (setRight (heap ++ [⟨op, Ptr.null, Ptr.null⟩]) p1 (Ptr.node heap.length))[heap.length]? =
      some ⟨op, Ptr.null, Ptr.null⟩ := by
    rw [getElem?_setRight]; simp [Nat.ne_of_gt hlt]
  have hbelow : ∀ i, i < p1 →
      (setRight (heap ++ [⟨op, Ptr.null, Ptr.null⟩]) p1 (Ptr.node heap.length))[i]? = heap[i]? := by
    intro i hi
    rw [getElem?_setRight]
    simp only [Nat.ne_of_lt hi, if_false]
    exact getElem?_append_one_lt _ _ _ (lt_trans hi hlt)
  have htail : Chain (setRight (heap ++ [⟨op, Ptr.null, Ptr.null⟩]) p1 (Ptr.node heap.length))
      (p1 :: rest) frames := by
    apply hch.congr_heap
    intro p2 hp2
    have : p2 = p1 := by simpa using hp2.symm
    subst this
    exact ⟨hbelow, n, _, hn, hp, rfl, rfl⟩
  refine ⟨?_, heap.length, _, rfl, hN, Den.null _ _⟩
  exact Chain.cons heap.length p1 ⟨op, Ptr.null, Ptr.null⟩ _ Expr.null rest frames hN hlt hp rfl
    (Den.null _ _) htail

theorem Sim.push_binary {heap : List OpNode} {q : Nat} {rest : List Nat} {frames : List Frame}
    {cur : Expr} (h : Sim heap (q :: rest) frames cur) (op : Operator) (n : OpNode)
    (hn : heap[q]? = some n) :
    Sim (setRight (setLeft (heap ++ [⟨op, Ptr.null, Ptr.null⟩]) heap.length n.right) q
        (Ptr.node heap.length))
      (heap.length :: q :: rest) (⟨op, cur⟩ :: frames) Expr.null := by
  obtain ⟨hch, p1, n1, hhead, hn1, hden⟩ := h
  have : p1 = q := by simpa using hhead.symm
  subst this
  have hnn : n1 = n := by rw [hn] at hn1; exact (Option.some.inj hn1).symm
  subst hnn
  have hlt : p1 < heap.length := lt_length_of_getElem? hn
  have hget : ∀ i, (setRight (setLeft (heap ++ [⟨op, Ptr.null, Ptr.null⟩]) heap.length n1.right) p1
      (Ptr.node heap.length))[i]? =
      if i = p1 then some { n1 with right := Ptr.node heap.length }
      else if i = heap.length then some ⟨op, n1.right, Ptr.null⟩ else heap[i]? := by
    intro i
    rw [getElem?_setRight, getElem?_setLeft, getElem?_setLeft]
    by_cases h1 : i = p1
    · subst h1
      simp [Nat.ne_of_lt hlt, getElem?_append_one_lt _ _ _ hlt, hn]
    · by_cases h2 : i = heap.length
      · subst h2; simp [h1]
      · simp only [h1, h2, if_false]
        by_cases h3 : i < heap.length
        · exact getElem?_append_one_lt _ _ _ h3
        · rw [List.getElem?_eq_none (by simp; omega), List.getElem?_eq_none (by omega)]
  have hq := hget p1
  simp only [if_true] at hq
  have hN := hget heap.length
  simp only [Nat.ne_of_gt hlt, if_false, if_true] at hN
  have hother : ∀ i, i ≠ p1 → i < heap.length →
      (setRight (setLeft (heap ++ [⟨op, Ptr.null, Ptr.null⟩]) heap.length n1.right) p1
        (Ptr.node heap.length))[i]? = heap[i]? := by
    intro i h1 h2
    rw [hget i]; simp [h1, Nat.ne_of_lt h2]
  have htail : Chain (setRight (setLeft (heap ++ [⟨op, Ptr.null, Ptr.null⟩]) heap.length n1.right)
      p1 (Ptr.node heap.length)) (p1 :: rest) frames := by
    apply hch.congr_heap
    intro p2 hp2
    have : p2 = p1 := by simpa using hp2.symm
    subst this
    exact ⟨fun i hi => hother i (Nat.ne_of_lt hi) (lt_trans hi hlt), n1, _, hn, hq, rfl, rfl⟩
  refine ⟨?_, heap.length, _, rfl, hN, Den.null _ _⟩
  exact Chain.cons heap.length p1 ⟨op, n1.right, Ptr.null⟩ _ cur rest frames hN hlt hq rfl
    (hden.congr (fun i hi1 hi2 => hother i (by omega) hi2)) htail

/-- The loop of `parse_expr` over the node store returns what the loop over
frames returns, from every pair of states that present the same stack. -/
theorem parse_expr_loop_eq_frames_loop (top : Top) (env : FuncDef) (tokens : List Token) :
    ∀ (fuel : Nat) (heap : List OpNode) (stack : List Nat) (frames : List Frame) (cur : Expr)
      (filled : Bool) (current : Nat), Sim heap stack frames cur →
      parse_expr_loop fuel top env tokens heap stack filled current =
        frames_loop fuel top env tokens frames cur filled current := by
  intro fuel
  induction fuel with
  | zero => intro heap stack frames cur filled current _; simp [parse_expr_loop, frames_loop]
  | succ fuel ih =>
    intro heap stack frames cur filled current hsim
    obtain ⟨p, rest, f, fs, n, hstack, hframes, hn, hfop, hden, hch⟩ := hsim.cases
    subst hstack hframes
    simp only [parse_expr_loop, frames_loop]
    cases filled with
    | true =>
      simp only [if_true]
      cases hop : top.opManager.binOrLeftUnaryManager (tokAt tokens current).kind with
      | some op =>
        simp only []
        rw [reduce_append _ _ _ _ _ hch.lt_length]
        rcases reduce_frames_sim top.opManager op.prec hch cur p n rfl hn hden with
          ⟨h1, h2⟩ | ⟨stack1, frames1, cur1, h1, h2, hsim1⟩
        · rw [h1, h2]; rfl
        · rw [h1, h2]
          simp only [Res.bind_ok]
          obtain ⟨q, rest1, f1, fs1, n1, hs1, hf1, hn1, _, _, hch1⟩ := hsim1.cases
          subst hs1 hf1
          have hq : q < heap.length := lt_length_of_getElem? hn1
          simp only [getElem?_append_one_lt _ _ _ hq, hn1]
          exact ih _ _ _ _ _ _ (hsim1.push_binary op n1 hn1)
      | none =>
        simp only []
        obtain ⟨front, n0, h1, h2, h3⟩ := hsim.read_front
        rw [h1]
        simp only [h2, h3]
    | false =>
      simp only [Bool.false_eq_true, if_false]
      split
      · cases hf : parse_factor fuel top env tokens current with
        | ok r =>
          simp only [Res.bind_ok]
          exact ih _ _ _ _ _ _ (hsim.set_factor r.1)
        | error e => rfl
        | undefined => rfl
        | timeout => rfl
      · cases hop : top.opManager.rightUnaryManager (tokAt tokens current).kind with
        | some op =>
          simp only []
          exact ih _ _ _ _ _ _ (hsim.push_unary op)
        | none =>
          simp only []
          have := hch.length_eq
          rw [this]

/-- The states in which `parse_expr` starts present the same stack. -/
theorem Sim.initial : Sim initialHeap [0] [⟨Operator.Root, Expr.null⟩] Expr.null :=
  ⟨Chain.single 0 ⟨Operator.Root, Ptr.null, Ptr.null⟩ Expr.null rfl (Den.null _ _),
    0, ⟨Operator.Root, Ptr.null, Ptr.null⟩, rfl, rfl, Den.null _ _⟩

/-- `parse_expr` in frame form. -/
theorem parse_expr_eq_frames_loop (fuel : Nat) (top : Top) (env : FuncDef)
    (tokens : List Token) (current : Nat) :
    parse_expr fuel top env tokens current =
      frames_loop fuel top env tokens [⟨Operator.Root, Expr.null⟩] Expr.null false current :=
  parse_expr_loop_eq_frames_loop top env tokens fuel _ _ _ _ _ _ Sim.initial

/-! ### The built-in operator table -/

theorem init_eq_builtin : OperatorManager.empty.init = Res.ok OperatorManager.builtin := rfl

theorem builtin_bin (t : TokKind) :
    OperatorManager.builtin.binOrLeftUnaryManager t =
      if t = TokKind.star then some Operator.Mul
      else if t = TokKind.plus then some Operator.Add
      else if t = TokKind.equ then some Operator.Assign else none := rfl

theorem builtin_right (t : TokKind) :
    OperatorManager.builtin.rightUnaryManager t =
      if t = TokKind.plus then some Operator.Pos else none := rfl

theorem builtin_asso (p : Nat) :
    OperatorManager.builtin.leftAssoManager p =
      if p = 30 then true else if p = 40 then true else if p = 20 then true
      else if p = 10 then false else false := rfl

theorem builtin_of_init {m : OperatorManager} (h : OperatorManager.empty.init = Res.ok m) :
    m = OperatorManager.builtin := by
  rw [init_eq_builtin] at h
  exact (Res.ok.inj h).symm

theorem builtin_bin_cases {t : TokKind} {op : Operator}
    (h : OperatorManager.builtin.binOrLeftUnaryManager t = some op) :
    op = Operator.Mul ∨ op = Operator.Add ∨ op = Operator.Assign := by
  rw [builtin_bin] at h
  split at h
  · left; exact (Option.some.inj h).symm
  · split at h
    · right; left; exact (Option.some.inj h).symm
    · split at h
      · right; right; exact (Option.some.inj h).symm
      · cases h

theorem builtin_right_cases {t : TokKind} {op : Operator}
    (h : OperatorManager.builtin.rightUnaryManager t = some op) : op = Operator.Pos := by
  rw [builtin_right] at h
  split at h
  · exact (Option.some.inj h).symm
  · cases h

/-! ### The shape of the trees built with the built-in table -/

theorem framesOk_top_prec : ∀ {f : Frame} {fs : List Frame}, framesOk (f :: fs) = true →
    f.op.prec ≤ 40 := by
  intro f fs h
  cases fs with
  | nil =>
    have : f.op = Operator.Root := by simpa [framesOk] using h
    rw [this]; decide
  | cons g rest =>
    simp only [framesOk, Bool.and_eq_true, Bool.or_eq_true, decide_eq_true_eq] at h
    rcases h.1.1.1 with ((h1 | h1) | h1) | h1 <;> rw [h1] <;> decide

theorem reduceFrames_shape (m : OperatorManager) (prec : Nat) :
    ∀ (frames : List Frame) (cur : Expr) (s : List Frame × Expr),
      framesOk frames = true → cur.shape = true →
      (∀ f fs, frames = f :: fs → f.op.prec ≤ cur.rootPrec) → prec ≤ cur.rootPrec →
      reduceFrames m prec frames cur = Res.ok s →
      framesOk s.1 = true ∧ s.2.shape = true ∧ prec ≤ s.2.rootPrec ∧
        ∃ g rest, s.1 = g :: rest ∧ g.op.prec ≤ prec := by
  intro frames
  induction frames with
  | nil => intro cur s h; simp [framesOk] at h
  | cons f fs ih =>
    intro cur s hok hcur htop hprec hred
    simp only [reduceFrames] at hred
    split at hred
    · rename_i hcond
      cases fs with
      | nil => simp [reduceFrames] at hred
      | cons g rest =>
        simp only [framesOk, Bool.and_eq_true, Bool.or_eq_true, decide_eq_true_eq] at hok
        obtain ⟨⟨⟨hop, hgf⟩, hleft⟩, hrest⟩ := hok
        have hfp : prec ≤ f.op.prec := by
          simp only [Bool.or_eq_true, Bool.and_eq_true, decide_eq_true_eq, beq_iff_eq] at hcond
          rcases hcond with h1 | h1
          · exact Nat.le_of_lt h1
          · exact Nat.le_of_eq h1.1.symm
        apply ih (Expr.opNode f.op f.left cur) s hrest ?_ ?_ ?_ hred
        · simp only [Expr.shape, Bool.and_eq_true, Bool.or_eq_true, decide_eq_true_eq]
          exact ⟨⟨⟨hop, hcur⟩, htop f _ rfl⟩, hleft⟩
        · intro f1 fs1 h1
          have : f1 = g := by
            have := (List.cons.inj h1).1
            exact this.symm
          subst this
          simpa [Expr.rootPrec] using hgf
        · simpa [Expr.rootPrec] using hfp
    · rename_i hcond
      have hs : s = (f :: fs, cur) := (Res.ok.inj hred).symm
      subst hs
      refine ⟨hok, hcur, hprec, f, fs, rfl, ?_⟩
      simp only [Bool.or_eq_true, Bool.and_eq_true, decide_eq_true_eq, beq_iff_eq, not_or] at hcond
      exact Nat.le_of_not_lt hcond.1

theorem plug_shape : ∀ (frames : List Frame) (cur : Expr), framesOk frames = true →
    cur.shape = true → (∀ f fs, frames = f :: fs → f.op.prec ≤ cur.rootPrec) →
    (plug frames cur).shape = true := by
  intro frames
  induction frames with
  | nil => intro cur h; simp [framesOk] at h
  | cons f fs ih =>
    intro cur hok hcur htop
    cases fs with
    | nil => simpa [plug] using hcur
    | cons g rest =>
      simp only [framesOk, Bool.and_eq_true, Bool.or_eq_true, decide_eq_true_eq] at hok
      obtain ⟨⟨⟨hop, hgf⟩, hleft⟩, hrest⟩ := hok
      simp only [plug]
      apply ih _ hrest
      · simp only [Expr.shape, Bool.and_eq_true, Bool.or_eq_true, decide_eq_true_eq]
        exact ⟨⟨⟨hop, hcur⟩, htop f _ rfl⟩, hleft⟩
      · intro f1 fs1 h1
        have : f1 = g := ((List.cons.inj h1).1).symm
        subst this
        simpa [Expr.rootPrec] using hgf

theorem isFactor_rootPrec {e : Expr} (h : e.isFactor = true) : e.rootPrec = 99 := by
  cases e <;> simp [Expr.isFactor] at h <;> rfl

theorem shape_allArgs_append (args : List Expr) (e : Expr)
    (h : Expr.shape.allArgs args = true) (he : e.isNull = true ∨ e.shape = true) :
    Expr.shape.allArgs (args ++ [e]) = true := by
  induction args with
  | nil => simpa [Expr.shape.allArgs] using he
  | cons a rest ih =>
    simp only [Expr.shape.allArgs, Bool.and_eq_true] at h
    simp only [List.cons_append, Expr.shape.allArgs, Bool.and_eq_true]
    exact ⟨h.1, ih h.2⟩

theorem parse_var_node_factor {top : Top} {env : FuncDef} {tokens : List Token} {current : Nat}
    {r : Expr × Nat} (h : parse_var_node top env tokens current = Res.ok r) :
    r.1.isFactor = true ∧ r.1.shape = true := by
  unfold parse_var_node at h
  cases h1 : eat tokens TokKind.identifier current with
  | ok c =>
    rw [h1] at h
    simp only [Res.bind_ok] at h
    split at h
    · cases h; exact ⟨rfl, rfl⟩
    · split at h
      · cases h; exact ⟨rfl, rfl⟩
      · cases h
  | error e => rw [h1] at h; cases h
  | undefined => rw [h1] at h; cases h
  | timeout => rw [h1] at h; cases h

theorem parse_const_int_factor {tokens : List Token} {current : Nat}
    {r : Expr × Nat} (h : parse_const_int tokens current = Res.ok r) :
    r.1.isFactor = true ∧ r.1.shape = true := by
  unfold parse_const_int at h
  cases h1 : eat tokens TokKind.constant_int current with
  | ok c =>
    rw [h1] at h
    cases h; exact ⟨rfl, rfl⟩
  | error e => rw [h1] at h; cases h
  | undefined => rw [h1] at h; cases h
  | timeout => rw [h1] at h; cases h

theorem Res.bind_eq_ok {α β : Type} {r : Res α} {f : α → Res β} {b : β}
    (h : r.bind f = Res.ok b) : ∃ a, r = Res.ok a ∧ f a = Res.ok b := by
  cases r with
  | ok a => exact ⟨a, rfl, h⟩
  | error e => cases h
  | undefined => cases h
  | timeout => cases h

/-- With the built-in table, whatever the four mutually recursive parsing
functions return has the shape `Expr.shape` (a returned expression may also
be null). -/
theorem shape_of_parse (top : Top) (env : FuncDef) (tokens : List Token)
    (hb : top.opManager = OperatorManager.builtin) : ∀ fuel : Nat,
    (∀ frames cur filled current r, framesOk frames = true →
        (filled = true → cur.isFactor = true ∧ cur.shape = true) →
        frames_loop fuel top env tokens frames cur filled current = Res.ok r →
        r.1.isNull = true ∨ r.1.shape = true) ∧
    (∀ current r, parse_factor fuel top env tokens current = Res.ok r →
        r.1.isFactor = true ∧ r.1.shape = true) ∧
    (∀ current r, parse_call_node fuel top env tokens current = Res.ok r →
        r.1.isFactor = true ∧ r.1.shape = true) ∧
    (∀ params args current r,
        parse_call_args fuel top env tokens params args current = Res.ok r →
        Expr.shape.allArgs args = true → Expr.shape.allArgs r.1 = true) := by
  intro fuel
  induction fuel with
  | zero =>
    refine ⟨?_, ?_, ?_, ?_⟩
    · intro frames cur filled current r _ _ h; simp [frames_loop] at h
    · intro current r h; simp [parse_factor] at h
    · intro current r h; simp [parse_call_node] at h
    · intro params args current r h; simp [parse_call_args] at h
  | succ fuel ih =>
    obtain ⟨ihA, ihB, ihC, ihD⟩ := ih
    refine ⟨?_, ?_, ?_, ?_⟩
    · intro frames cur filled current r hok hcur h
      cases frames with
      | nil => simp [framesOk] at hok
      | cons f fs =>
        simp only [frames_loop] at h
        cases filled with
        | true =>
          obtain ⟨hfac, hshape⟩ := hcur rfl
          have hrp := isFactor_rootPrec hfac
          simp only [if_true, hb] at h
          cases hop : OperatorManager.builtin.binOrLeftUnaryManager (tokAt tokens current).kind with
          | some op =>
            rw [hop] at h
            simp only [] at h
            obtain ⟨s, hs, hloop⟩ := Res.bind_eq_ok h
            have hopc := builtin_bin_cases hop
            have hprec : op.prec ≤ 40 := by
              rcases hopc with h1 | h1 | h1 <;> rw [h1] <;> decide
            have hbin : op.type = OpType.binary := by
              rcases hopc with h1 | h1 | h1 <;> rw [h1] <;> rfl
            obtain ⟨h1, h2, h3, g, rest, h4, h5⟩ := reduceFrames_shape _ op.prec (f :: fs) cur s hok
              hshape (by
                intro f1 fs1 h1
                have : f1 = f := ((List.cons.inj h1).1).symm
                subst this
                rw [hrp]
                exact le_trans (framesOk_top_prec hok) (by decide))
              (by rw [hrp]; omega) hs
            apply ihA _ _ _ _ r ?_ ?_ hloop
            · rw [h4] at h1 ⊢
              simp only [framesOk, Bool.and_eq_true, Bool.or_eq_true, decide_eq_true_eq, hbin,
                if_true]
              refine ⟨⟨⟨?_, h5⟩, h2, h3⟩, h1⟩
              rcases hopc with h6 | h6 | h6 <;> simp [h6]
            · intro hf
              simp [hbin] at hf
          | none =>
            rw [hop] at h
            have hr : r = (plug (f :: fs) cur, current) := (Res.ok.inj h).symm
            subst hr
            right
            apply plug_shape _ _ hok hshape
            intro f1 fs1 h1
            have : f1 = f := ((List.cons.inj h1).1).symm
            subst this
            rw [hrp]
            exact le_trans (framesOk_top_prec hok) (by decide)
        | false =>
          simp only [Bool.false_eq_true, if_false] at h
          split at h
          · obtain ⟨r1, hr1, hloop⟩ := Res.bind_eq_ok h
            exact ihA _ _ _ _ r hok (fun _ => ihB _ _ hr1) hloop
          · rw [hb] at h
            cases hop : OperatorManager.builtin.rightUnaryManager (tokAt tokens current).kind with
            | some op =>
              rw [hop] at h
              have hpos := builtin_right_cases hop
              subst hpos
              apply ihA _ _ _ _ r ?_ ?_ h
              · have := framesOk_top_prec hok
                simp only [framesOk, Bool.and_eq_true, Bool.or_eq_true, decide_eq_true_eq]
                refine ⟨⟨⟨?_, ?_⟩, ?_⟩, hok⟩
                · simp
                · simpa [Operator.Pos] using this
                · simp [Operator.Pos, Expr.isNull]
              · intro hf; cases hf
            | none =>
              rw [hop] at h
              simp only [] at h
              split at h
              · cases h
              · cases h; left; rfl
    · intro current r h
      simp only [parse_factor] at h
      split at h
      · split at h
        · exact ihC _ _ h
        · exact parse_var_node_factor h
      · split at h
        · exact parse_const_int_factor h
        · cases h
    · intro current r h
      simp only [parse_call_node] at h
      split at h
      · cases h
      · rename_i func hfunc
        obtain ⟨c1, _, h1⟩ := Res.bind_eq_ok h
        obtain ⟨c2, _, h2⟩ := Res.bind_eq_ok h1
        obtain ⟨r3, hr3, h3⟩ := Res.bind_eq_ok h2
        obtain ⟨c4, _, h4⟩ := Res.bind_eq_ok h3
        cases h4
        have := ihD _ _ _ _ hr3 rfl
        exact ⟨rfl, by simpa [Expr.shape] using this⟩
    · intro params args current r h hargs
      simp only [parse_call_args] at h
      cases params with
      | nil =>
        simp only [] at h
        cases h; exact hargs
      | cons pr params1 =>
        simp only [] at h
        obtain ⟨r1, hr1, h1⟩ := Res.bind_eq_ok h
        rw [parse_expr_loop_eq_frames_loop top env tokens fuel _ _ _ _ _ _ Sim.initial] at hr1
        have hr1s := ihA _ _ _ _ r1 (by rfl) (by intro hf; cases hf) hr1
        have happ := shape_allArgs_append args r1.1 hargs hr1s
        split at h1
        · obtain ⟨c2, _, h2⟩ := Res.bind_eq_ok h1
          exact ihD _ _ _ _ h2 happ
        · cases h1; exact happ

theorem rootOp_eq_some {e : Expr} {op : Operator} (h : e.rootOp = some op) :
    e.rootPrec = op.prec := by
  cases e <;> simp [Expr.rootOp] at h
  subst h; rfl

theorem isNull_eq {e : Expr} (h : e.isNull = true) : e = Expr.null := by
  cases e <;> simp [Expr.isNull] at h
  rfl

mutual

theorem shape_noAddUnderMul : ∀ e : Expr, e.shape = true → e.noAddUnderMul = true
  | Expr.null, _ => rfl
  | Expr.varNode _, _ => rfl
  | Expr.constantNumNode _, _ => rfl
  | Expr.callNode _ args, h => by
    simp only [Expr.shape] at h
    simp only [Expr.noAddUnderMul]
    exact shape_allArgs_noAddUnderMul args h
  | Expr.opNode op l r, h => by
    simp only [Expr.shape, Bool.and_eq_true, Bool.or_eq_true, decide_eq_true_eq] at h
    obtain ⟨⟨⟨hop, hr⟩, hrp⟩, hl⟩ := h
    have ihr := shape_noAddUnderMul r hr
    simp only [Expr.noAddUnderMul, Bool.and_eq_true]
    refine ⟨⟨?_, ?_⟩, ihr⟩
    · split
      · rename_i hmul
        subst hmul
        simp only [Operator.Mul, if_true] at hl
        simp only [Bool.and_eq_true, decide_eq_true_eq] at hl
        simp only [Bool.and_eq_true, bne_iff_ne, ne_eq]
        constructor
        · intro hadd
          have := rootOp_eq_some hadd
          rw [this] at hl
          simp [Operator.Add] at hl
        · intro hadd
          have := rootOp_eq_some hadd
          rw [this] at hrp
          simp [Operator.Add, Operator.Mul] at hrp
      · rfl
    · split at hl
      · simp only [Bool.and_eq_true] at hl
        exact shape_noAddUnderMul l hl.1
      · rw [isNull_eq hl]; rfl

theorem shape_allArgs_noAddUnderMul : ∀ args : List Expr, Expr.shape.allArgs args = true →
    Expr.noAddUnderMul.allArgs args = true
  | [], _ => rfl
  | a :: rest, h => by
    simp only [Expr.shape.allArgs, Bool.and_eq_true, Bool.or_eq_true] at h
    simp only [Expr.noAddUnderMul.allArgs, Bool.and_eq_true]
    refine ⟨?_, shape_allArgs_noAddUnderMul rest h.2⟩
    rcases h.1 with h1 | h1
    · rw [isNull_eq h1]; rfl
    · exact shape_noAddUnderMul a h1

end

mutual

theorem shape_posOperandsOk : ∀ e : Expr, e.shape = true → e.posOperandsOk = true
  | Expr.null, _ => rfl
  | Expr.varNode _, _ => rfl
  | Expr.constantNumNode _, _ => rfl
  | Expr.callNode _ args, h => by
    simp only [Expr.shape] at h
    simp only [Expr.posOperandsOk]
    exact shape_allArgs_posOperandsOk args h
  | Expr.opNode op l r, h => by
    simp only [Expr.shape, Bool.and_eq_true, Bool.or_eq_true, decide_eq_true_eq] at h
    obtain ⟨⟨⟨hop, hr⟩, hrp⟩, hl⟩ := h
    have ihr := shape_posOperandsOk r hr
    simp only [Expr.posOperandsOk, Bool.and_eq_true]
    refine ⟨⟨?_, ?_⟩, ihr⟩
    · split
      · rename_i hpos
        subst hpos
        cases r with
        | null => simp [Expr.shape] at hr
        | varNode _ => rfl
        | constantNumNode _ => rfl
        | callNode _ _ => rfl
        | opNode op1 l1 r1 =>
          simp only [Expr.shape, Bool.and_eq_true, Bool.or_eq_true, decide_eq_true_eq] at hr
          simp only [Expr.rootPrec, Operator.Pos] at hrp
          have : op1 = Operator.Pos := by
            rcases hr.1.1.1 with ((h1 | h1) | h1) | h1
            · rw [h1] at hrp; simp [Operator.Assign] at hrp
            · rw [h1] at hrp; simp [Operator.Add] at hrp
            · exact h1
            · rw [h1] at hrp; simp [Operator.Mul] at hrp
          subst this
          simp [Expr.isFactor, Expr.rootOp]
      · rfl
    · split at hl
      · simp only [Bool.and_eq_true] at hl
        exact shape_posOperandsOk l hl.1
      · rw [isNull_eq hl]; rfl

theorem shape_allArgs_posOperandsOk : ∀ args : List Expr, Expr.shape.allArgs args = true →
    Expr.posOperandsOk.allArgs args = true
  | [], _ => rfl
  | a :: rest, h => by
    simp only [Expr.shape.allArgs, Bool.and_eq_true, Bool.or_eq_true] at h
    simp only [Expr.posOperandsOk.allArgs, Bool.and_eq_true]
    refine ⟨?_, shape_allArgs_posOperandsOk rest h.2⟩
    rcases h.1 with h1 | h1
    · rw [isNull_eq h1]; rfl
    · exact shape_posOperandsOk a h1

end

/-- With the built-in table, a tree returned by `parse_expr` is null or has the
shape `Expr.shape`. -/
theorem parse_expr_shape {top : Top} {env : FuncDef} {tokens : List Token}
    (hinit : OperatorManager.empty.init = Res.ok top.opManager) {fuel current : Nat}
    {r : Expr × Nat} (h : parse_expr fuel top env tokens current = Res.ok r) :
    r.1.isNull = true ∨ r.1.shape = true := by
  rw [parse_expr_eq_frames_loop] at h
  exact (shape_of_parse top env tokens (builtin_of_init hinit) fuel).1
    [⟨Operator.Root, Expr.null⟩] Expr.null false current r rfl (by intro hf; cases hf) h

/-! ### Running the loop on operands and operators -/

theorem tokAt_of_drop {tokens : List Token} {current : Nat} {t : Token} {rest : List Token}
    (h : tokens.drop current = t :: rest) : tokAt tokens current = t := by
  have h1 : (tokens.drop current)[0]? = some t := by rw [h]; simp
  rw [List.getElem?_drop] at h1
  simp only [tokAt, List.getD_eq_getElem?_getD]
  simp only [Nat.add_zero] at h1
  rw [h1]; rfl

theorem drop_succ_of_drop {tokens : List Token} {current : Nat} {t : Token} {rest : List Token}
    (h : tokens.drop current = t :: rest) : tokens.drop (current + 1) = rest := by
  have : tokens.drop (current + 1) = (tokens.drop current).drop 1 := by
    rw [List.drop_drop]
  rw [this, h]; rfl

theorem tokAt_of_drop_nil {tokens : List Token} {current : Nat}
    (h : tokens.drop current = []) : tokAt tokens current = Token.eof := by
  have hlen : tokens.length ≤ current := List.drop_eq_nil_iff.mp h
  simp only [tokAt, List.getD_eq_getElem?_getD]
  rw [List.getElem?_eq_none hlen]; rfl

theorem tokAt_of_drop_headD {tokens : List Token} {current : Nat} {rest : List Token}
    (h : tokens.drop current = rest) : tokAt tokens current = rest.headD Token.eof := by
  cases rest with
  | nil => exact tokAt_of_drop_nil h
  | cons t more => exact tokAt_of_drop h

theorem operand_kind {top : Top} {env : FuncDef} {t : Token} {e : Expr}
    (h : operand top env t = some e) :
    t.kind = TokKind.identifier ∨ t.kind = TokKind.constant_int := by
  unfold operand at h
  split at h
  · right; assumption
  · left; assumption
  · cases h

theorem parse_factor_operand {top : Top} {env : FuncDef} {tokens : List Token} {current : Nat}
    {e : Expr} (fuel : Nat) (h : operand top env (tokAt tokens current) = some e)
    (hn : (tokAt tokens (current + 1)).kind ≠ TokKind.lparen) :
    parse_factor (fuel + 1) top env tokens current = Res.ok (e, current + 1) := by
  unfold operand at h
  simp only [parse_factor]
  split at h
  · rename_i hk
    rw [if_neg (by rw [hk]; decide), if_pos hk]
    simp only [parse_const_int, eat, hk, if_true, Res.bind_ok]
    cases h; rfl
  · rename_i hk
    rw [if_pos hk, if_neg hn]
    simp only [parse_var_node, eat, hk, if_true, Res.bind_ok]
    split at h
    · cases h; rfl
    · split at h
      · cases h; rfl
      · cases h
  · cases h

theorem frames_loop_operand {top : Top} {env : FuncDef} {tokens : List Token} {current : Nat}
    {e : Expr} (fuel : Nat) (f : Frame) (fs : List Frame) (cur : Expr)
    (h : operand top env (tokAt tokens current) = some e)
    (hn : (tokAt tokens (current + 1)).kind ≠ TokKind.lparen) :
    frames_loop (fuel + 2) top env tokens (f :: fs) cur false current =
      frames_loop (fuel + 1) top env tokens (f :: fs) e true (current + 1) := by
  have hk := operand_kind h
  have hcond : ((tokAt tokens current).kind = TokKind.identifier ||
      is_const (tokAt tokens current).kind) = true := by
    rcases hk with h1 | h1 <;> simp [h1, is_const]
  rw [frames_loop]
  simp only [Bool.false_eq_true, if_false]
  rw [if_pos hcond, parse_factor_operand fuel h hn]
  rfl

theorem frames_loop_end {top : Top} {env : FuncDef} {tokens : List Token} {current : Nat}
    (fuel : Nat) (f : Frame) (fs : List Frame) (cur : Expr)
    (h : top.opManager.binOrLeftUnaryManager (tokAt tokens current).kind = none) :
    frames_loop (fuel + 1) top env tokens (f :: fs) cur true current =
      Res.ok (plug (f :: fs) cur, current) := by
  rw [frames_loop]
  simp only [if_true, h]

theorem frames_loop_binop {top : Top} {env : FuncDef} {tokens : List Token} {current : Nat}
    (fuel : Nat) (f : Frame) (fs : List Frame) (cur : Expr) (op : Operator)
    (h : top.opManager.binOrLeftUnaryManager (tokAt tokens current).kind = some op) :
    frames_loop (fuel + 1) top env tokens (f :: fs) cur true current =
      (reduceFrames top.opManager op.prec (f :: fs) cur).bind fun s =>
        frames_loop fuel top env tokens (⟨op, s.2⟩ :: s.1) Expr.null
          (if op.type = OpType.binary then false else true) (current + 1) := by
  rw [frames_loop]
  simp only [if_true, h]

theorem frames_loop_unary {top : Top} {env : FuncDef} {tokens : List Token} {current : Nat}
    (fuel : Nat) (f : Frame) (fs : List Frame) (cur : Expr) (op : Operator)
    (hk : (tokAt tokens current).kind ≠ TokKind.identifier)
    (hc : (tokAt tokens current).kind ≠ TokKind.constant_int)
    (h : top.opManager.rightUnaryManager (tokAt tokens current).kind = some op) :
    frames_loop (fuel + 1) top env tokens (f :: fs) cur false current =
      frames_loop fuel top env tokens (⟨op, Expr.null⟩ :: f :: fs) Expr.null false
        (current + 1) := by
  rw [frames_loop]
  simp only [Bool.false_eq_true, if_false, is_const, hk, hc, decide_False, Bool.or_self, h]

theorem chainTokens_length (k : TokKind) : ∀ (x : Token) (xs : List Token),
    (chainTokens k (x :: xs)).length = 2 * xs.length + 1 := by
  intro x xs
  induction xs generalizing x with
  | nil => rfl
  | cons y ys ih =>
    simp only [chainTokens, List.length_cons, ih y]
    omega

theorem map_operand_cons {top : Top} {env : FuncDef} {y : Token} {ys : List Token}
    {es : List Expr} (h : (y :: ys).map (operand top env) = es.map some) :
    ∃ e2 es1, es = e2 :: es1 ∧ operand top env y = some e2 ∧
      ys.map (operand top env) = es1.map some := by
  cases es with
  | nil => simp at h
  | cons e2 es1 =>
    simp only [List.map_cons, List.cons.injEq] at h
    exact ⟨e2, es1, rfl, h.1, h.2⟩

theorem map_operand_nil {top : Top} {env : FuncDef} {es : List Expr}
    (h : ([] : List Token).map (operand top env) = es.map some) : es = [] := by
  cases es with
  | nil => rfl
  | cons e2 es1 => simp at h

/-- A chain of one left-associative binary operator on top of an open node of
the same operator, followed in the token array by `rest`, whose first token
(the end of the array when `rest` is empty) is neither a binary or left-unary
operator nor `(`: every further operand closes the node and reopens it. -/
theorem frames_loop_left_chain {top : Top} {env : FuncDef} {tokens : List Token}
    (k : TokKind) (op : Operator)
    (hk : top.opManager.binOrLeftUnaryManager k = some op) (hkl : k ≠ TokKind.lparen)
    (hbin : op.type = OpType.binary) (hasso : top.opManager.leftAssoManager op.prec = true)
    (hpos : 0 < op.prec) (rest : List Token)
    (hnext : top.opManager.binOrLeftUnaryManager (rest.headD Token.eof).kind = none)
    (hcall : (rest.headD Token.eof).kind ≠ TokKind.lparen) :
    ∀ (xs : List Token) (es : List Expr) (x : Token) (e acc cur0 : Expr) (fuel current : Nat),
      tokens.drop current = chainTokens k (x :: xs) ++ rest →
      operand top env x = some e → xs.map (operand top env) = es.map some →
      2 * (xs.length + 1) ≤ fuel →
      frames_loop fuel top env tokens [⟨op, acc⟩, ⟨Operator.Root, Expr.null⟩] cur0 false current =
        Res.ok (leftNested op (Expr.opNode op acc e) es,
          current + (chainTokens k (x :: xs)).length) := by
  intro xs
  induction xs with
  | nil =>
    intro es x e acc cur0 fuel current hdrop hx hes hfuel
    have hes1 := map_operand_nil hes
    subst hes1
    obtain ⟨f, rfl⟩ : ∃ f, fuel = f + 2 := ⟨fuel - 2, by simp at hfuel; omega⟩
    have hdrop0 : tokens.drop current = x :: rest := hdrop
    have h0 := tokAt_of_drop hdrop0
    have h1 := tokAt_of_drop_headD (drop_succ_of_drop hdrop0)
    rw [frames_loop_operand f _ _ _ (by rw [h0]; exact hx) (by rw [h1]; exact hcall)]
    rw [frames_loop_end f _ _ _ (by rw [h1]; exact hnext)]
    rfl
  | cons y ys ih =>
    intro es x e acc cur0 fuel current hdrop hx hes hfuel
    obtain ⟨e2, es1, rfl, hy, hes1⟩ := map_operand_cons hes
    obtain ⟨f, rfl⟩ : ∃ f, fuel = f + 2 := ⟨fuel - 2, by simp at hfuel; omega⟩
    have hdrop0 : tokens.drop current =
        x :: Token.sym k :: (chainTokens k (y :: ys) ++ rest) := hdrop
    have h0 := tokAt_of_drop hdrop0
    have hdrop1 := drop_succ_of_drop hdrop0
    have h1 := tokAt_of_drop hdrop1
    have hdrop2 := drop_succ_of_drop hdrop1
    rw [frames_loop_operand f _ _ _ (by rw [h0]; exact hx) (by rw [h1]; exact hkl)]
    rw [frames_loop_binop f _ _ _ op (by rw [h1]; exact hk)]
    have hred : reduceFrames top.opManager op.prec [⟨op, acc⟩, ⟨Operator.Root, Expr.null⟩] e =
        Res.ok ([⟨Operator.Root, Expr.null⟩], Expr.opNode op acc e) := by
      have hne : ¬ (0 = op.prec) := Nat.ne_of_lt hpos
      simp [reduceFrames, hasso, Operator.Root, hne]
    rw [hred]
    simp only [Res.bind_ok, hbin, if_true]
    rw [ih es1 y e2 (Expr.opNode op acc e) Expr.null f (current + 1 + 1) hdrop2 hy hes1
      (by simp at hfuel ⊢; omega)]
    simp only [leftNested, chainTokens, List.length_cons]
    congr 2
    omega

/-- A chain of one binary operator whose level is not left-associative, on top
of frames of no higher precedence, followed in the token array by `rest`,
whose first token (the end of the array when `rest` is empty) is neither a
binary or left-unary operator nor `(`: every operator opens a new node above
the open ones. -/
theorem frames_loop_right_chain {top : Top} {env : FuncDef} {tokens : List Token}
    (k : TokKind) (op : Operator)
    (hk : top.opManager.binOrLeftUnaryManager k = some op) (hkl : k ≠ TokKind.lparen)
    (hbin : op.type = OpType.binary) (hasso : top.opManager.leftAssoManager op.prec = false)
    (rest : List Token)
    (hnext : top.opManager.binOrLeftUnaryManager (rest.headD Token.eof).kind = none)
    (hcall : (rest.headD Token.eof).kind ≠ TokKind.lparen) :
    ∀ (xs : List Token) (es : List Expr) (x : Token) (e cur0 : Expr) (f : Frame)
      (fs : List Frame) (fuel current : Nat),
      tokens.drop current = chainTokens k (x :: xs) ++ rest →
      operand top env x = some e → xs.map (operand top env) = es.map some →
      f.op.prec ≤ op.prec → 2 * (xs.length + 1) ≤ fuel →
      frames_loop fuel top env tokens (f :: fs) cur0 false current =
        Res.ok (plug (f :: fs) (rightNested op e es),
          current + (chainTokens k (x :: xs)).length) := by
  intro xs
  induction xs with
  | nil =>
    intro es x e cur0 f fs fuel current hdrop hx hes _ hfuel
    have hes1 := map_operand_nil hes
    subst hes1
    obtain ⟨f1, rfl⟩ : ∃ f1, fuel = f1 + 2 := ⟨fuel - 2, by simp at hfuel; omega⟩
    have hdrop0 : tokens.drop current = x :: rest := hdrop
    have h0 := tokAt_of_drop hdrop0
    have h1 := tokAt_of_drop_headD (drop_succ_of_drop hdrop0)
    rw [frames_loop_operand f1 _ _ _ (by rw [h0]; exact hx) (by rw [h1]; exact hcall)]
    rw [frames_loop_end f1 _ _ _ (by rw [h1]; exact hnext)]
    rfl
  | cons y ys ih =>
    intro es x e cur0 f fs fuel current hdrop hx hes hprec hfuel
    obtain ⟨e2, es1, rfl, hy, hes1⟩ := map_operand_cons hes
    obtain ⟨f1, rfl⟩ : ∃ f1, fuel = f1 + 2 := ⟨fuel - 2, by simp at hfuel; omega⟩
    have hdrop0 : tokens.drop current =
        x :: Token.sym k :: (chainTokens k (y :: ys) ++ rest) := hdrop
    have h0 := tokAt_of_drop hdrop0
    have hdrop1 := drop_succ_of_drop hdrop0
    have h1 := tokAt_of_drop hdrop1
    have hdrop2 := drop_succ_of_drop hdrop1
    rw [frames_loop_operand f1 _ _ _ (by rw [h0]; exact hx) (by rw [h1]; exact hkl)]
    rw [frames_loop_binop f1 _ _ _ op (by rw [h1]; exact hk)]
    have hred : reduceFrames top.opManager op.prec (f :: fs) e = Res.ok (f :: fs, e) := by
      simp [reduceFrames, hasso, Nat.not_lt.mpr hprec]
    rw [hred]
    simp only [Res.bind_ok, hbin, if_true]
    rw [ih es1 y e2 Expr.null ⟨op, e⟩ (f :: fs) f1 (current + 1 + 1) hdrop2 hy hes1
      (le_refl _) (by simp at hfuel ⊢; omega)]
    simp only [rightNested, plug, chainTokens, List.length_cons]
    congr 2
    omega

/-! ### Precedence and associativity (C1, C2, C5) -/

theorem builtin_eof : OperatorManager.builtin.binOrLeftUnaryManager TokKind.eof = none := rfl

theorem plug_two (f g : Frame) (cur : Expr) :
    plug [f, g] cur = Expr.opNode f.op f.left cur := rfl

/-- The expression `a + b * c` with the built-in table. -/
theorem parse_expr_add_mul {top : Top} {env : FuncDef}
    (hb : top.opManager = OperatorManager.builtin) (a b c : Token) (ea eb ec : Expr)
    (ha : operand top env a = some ea) (hb1 : operand top env b = some eb)
    (hc : operand top env c = some ec) (fuel : Nat) (hfuel : 6 ≤ fuel) :
    parse_expr fuel top env [a, Token.sym TokKind.plus, b, Token.sym TokKind.star, c] 0 =
      Res.ok (Expr.opNode Operator.Add ea (Expr.opNode Operator.Mul eb ec), 5) := by
  obtain ⟨f, rfl⟩ : ∃ f, fuel = f + 6 := ⟨fuel - 6, by omega⟩
  rw [parse_expr_eq_frames_loop]
  rw [frames_loop_operand (f + 4) _ _ _ (by exact ha) (by simp [tokAt, Token.sym])]
  rw [frames_loop_binop (f + 4) _ _ _ Operator.Add (by rw [hb]; rfl)]
  have hred1 : reduceFrames top.opManager Operator.Add.prec [⟨Operator.Root, Expr.null⟩] ea =
      Res.ok ([⟨Operator.Root, Expr.null⟩], ea) := by rw [hb]; rfl
  rw [hred1]
  simp only [Res.bind_ok]
  rw [show (if Operator.Add.type = OpType.binary then false else true) = false from rfl]
  rw [frames_loop_operand (f + 2) _ _ _ (by exact hb1) (by simp [tokAt, Token.sym])]
  rw [frames_loop_binop (f + 2) _ _ _ Operator.Mul (by rw [hb]; rfl)]
  have hred2 : reduceFrames top.opManager Operator.Mul.prec
      [⟨Operator.Add, ea⟩, ⟨Operator.Root, Expr.null⟩] eb =
      Res.ok ([⟨Operator.Add, ea⟩, ⟨Operator.Root, Expr.null⟩], eb) := by rw [hb]; rfl
  rw [hred2]
  simp only [Res.bind_ok]
  rw [show (if Operator.Mul.type = OpType.binary then false else true) = false from rfl]
  rw [frames_loop_operand f _ _ _ (by exact hc) (by simp [tokAt, Token.eof])]
  rw [frames_loop_end f _ _ _ (by rw [hb]; rfl)]
  rfl

theorem onlyAddMul_noPlusUnderStar : ∀ e : Expr, e.onlyAddMul = true →
    e.noAddUnderMul = true → e.noPlusUnderStar = true
  | Expr.null, _, _ => rfl
  | Expr.varNode _, _, _ => rfl
  | Expr.constantNumNode _, _, _ => rfl
  | Expr.callNode _ _, h, _ => by simp [Expr.onlyAddMul] at h
  | Expr.opNode op l r, h, hn => by
    simp only [Expr.onlyAddMul, Bool.and_eq_true, Bool.or_eq_true, decide_eq_true_eq] at h
    simp only [Expr.noAddUnderMul, Bool.and_eq_true] at hn
    obtain ⟨⟨hop, hl⟩, hr⟩ := h
    obtain ⟨⟨hm, hnl⟩, hnr⟩ := hn
    simp only [Expr.noPlusUnderStar, Bool.and_eq_true]
    refine ⟨⟨?_, onlyAddMul_noPlusUnderStar l hl hnl⟩, onlyAddMul_noPlusUnderStar r hr hnr⟩
    have hchild : ∀ c : Expr, c.onlyAddMul = true → c.rootOp ≠ some Operator.Add →
        c.rootName ≠ some "+" := by
      intro c hc hca
      cases c with
      | opNode op1 l1 r1 =>
        simp only [Expr.onlyAddMul, Bool.and_eq_true, Bool.or_eq_true, decide_eq_true_eq] at hc
        rcases hc.1.1 with h1 | h1
        · subst h1; exact absurd rfl hca
        · subst h1; simp [Expr.rootName, Operator.Mul]
      | null => simp [Expr.rootName]
      | varNode _ => simp [Expr.rootName]
      | callNode _ _ => simp [Expr.rootName]
      | constantNumNode _ => simp [Expr.rootName]
    rcases hop with h1 | h1
    · subst h1; simp [Operator.Add]
    · subst h1
      simp only [if_true, Bool.and_eq_true, bne_iff_ne, ne_eq] at hm
      simp only [Operator.Mul, if_true, Bool.and_eq_true, bne_iff_ne, ne_eq]
      exact ⟨hchild l hl hm.1, hchild r hr hm.2⟩

theorem reduceFrames_addMul (m : OperatorManager) (prec : Nat) :
    ∀ (frames : List Frame) (cur : Expr) (s : List Frame × Expr),
      framesAddMul frames = true → cur.onlyAddMul = true →
      reduceFrames m prec frames cur = Res.ok s →
      framesAddMul s.1 = true ∧ s.2.onlyAddMul = true ∧ s.1 ≠ [] := by
  intro frames
  induction frames with
  | nil => intro cur s _ _ h; simp [reduceFrames] at h
  | cons f fs ih =>
    intro cur s hfs hcur h
    simp only [reduceFrames] at h
    split at h
    · cases fs with
      | nil => simp [reduceFrames] at h
      | cons g rest =>
        simp only [framesAddMul, Bool.and_eq_true, Bool.or_eq_true, decide_eq_true_eq] at hfs
        apply ih _ s hfs.2 ?_ h
        simp only [Expr.onlyAddMul, Bool.and_eq_true, Bool.or_eq_true, decide_eq_true_eq]
        exact ⟨⟨hfs.1.1, hfs.1.2⟩, hcur⟩
    · cases h
      exact ⟨hfs, hcur, by simp⟩

theorem plug_addMul : ∀ (frames : List Frame) (cur : Expr),
    framesAddMul frames = true → cur.onlyAddMul = true →
    (plug frames cur).onlyAddMul = true := by
  intro frames
  induction frames with
  | nil => intro cur _ h; simpa [plug] using h
  | cons f fs ih =>
    intro cur hfs hcur
    cases fs with
    | nil => simpa [plug] using hcur
    | cons g rest =>
      simp only [framesAddMul, Bool.and_eq_true, Bool.or_eq_true, decide_eq_true_eq] at hfs
      simp only [plug]
      apply ih _ hfs.2
      simp only [Expr.onlyAddMul, Bool.and_eq_true, Bool.or_eq_true, decide_eq_true_eq]
      exact ⟨⟨hfs.1.1, hfs.1.2⟩, hcur⟩

theorem parse_factor_plain {top : Top} {env : FuncDef} {tokens : List Token} {fuel current : Nat}
    {r : Expr × Nat} (hn : (tokAt tokens (current + 1)).kind ≠ TokKind.lparen)
    (h : parse_factor fuel top env tokens current = Res.ok r) :
    r.1.onlyAddMul = true ∧ r.2 = current + 1 := by
  cases fuel with
  | zero => simp [parse_factor] at h
  | succ fuel =>
    simp only [parse_factor] at h
    split at h
    · try rw [if_neg hn] at h
      unfold parse_var_node at h
      obtain ⟨c1, hc1, h1⟩ := Res.bind_eq_ok h
      have := eat_eq_ok hc1
      split at h1
      · cases h1; exact ⟨rfl, this⟩
      · split at h1
        · cases h1; exact ⟨rfl, this⟩
        · cases h1
    · split at h
      · unfold parse_const_int at h
        obtain ⟨c1, hc1, h1⟩ := Res.bind_eq_ok h
        have := eat_eq_ok hc1
        cases h1; exact ⟨rfl, this⟩
      · cases h

theorem isAlternating_next_not_lparen {tokens : List Token} {current : Nat} {t : Token}
    {rest : List Token} (hd : tokens.drop current = t :: rest)
    (h : isAlternating true rest = true) :
    (tokAt tokens (current + 1)).kind ≠ TokKind.lparen := by
  have hd1 := drop_succ_of_drop hd
  cases rest with
  | nil => rw [tokAt_of_drop_nil hd1]; decide
  | cons u rest1 =>
    rw [tokAt_of_drop hd1]
    simp only [isAlternating, Bool.and_eq_true, Bool.or_eq_true, decide_eq_true_eq] at h
    rcases h.1 with h1 | h1 <;> rw [h1] <;> decide

/-- With the built-in table, on operands alternating with `+` and `*` the loop
builds trees of variables, constants and nodes of `Operator::Add` and
`Operator::Mul` only. -/
theorem frames_loop_addMul (top : Top) (env : FuncDef) (tokens : List Token)
    (hb : top.opManager = OperatorManager.builtin) : ∀ (fuel : Nat) (frames : List Frame)
    (cur : Expr) (filled : Bool) (current : Nat) (r : Expr × Nat),
    framesAddMul frames = true → cur.onlyAddMul = true →
    isAlternating filled (tokens.drop current) = true →
    frames_loop fuel top env tokens frames cur filled current = Res.ok r →
    r.1.onlyAddMul = true := by
  intro fuel
  induction fuel with
  | zero => intro frames cur filled current r _ _ _ h; simp [frames_loop] at h
  | succ fuel ih =>
    intro frames cur filled current r hfs hcur halt h
    cases frames with
    | nil => simp [frames_loop] at h
    | cons f fs =>
      simp only [frames_loop] at h
      cases hd : tokens.drop current with
      | nil =>
        rw [tokAt_of_drop_nil hd, hb] at h
        cases filled with
        | true =>
          simp only [if_true] at h
          rw [show OperatorManager.builtin.binOrLeftUnaryManager Token.eof.kind = none from rfl] at h
          cases h
          exact plug_addMul _ _ hfs hcur
        | false =>
          simp only [Bool.false_eq_true, if_false] at h
          rw [if_neg (by decide)] at h
          rw [show OperatorManager.builtin.rightUnaryManager Token.eof.kind = none from rfl] at h
          simp only [] at h
          split at h
          · cases h
          · cases h; rfl
      | cons t rest =>
        rw [hd] at halt
        have ht := tokAt_of_drop hd
        have hd1 := drop_succ_of_drop hd
        cases filled with
        | true =>
          simp only [isAlternating, Bool.and_eq_true, Bool.or_eq_true, decide_eq_true_eq] at halt
          simp only [if_true, ht, hb] at h
          have hop : ∃ op, OperatorManager.builtin.binOrLeftUnaryManager t.kind = some op ∧
              (op = Operator.Add ∨ op = Operator.Mul) := by
            rcases halt.1 with h1 | h1 <;> rw [h1]
            · exact ⟨Operator.Add, rfl, Or.inl rfl⟩
            · exact ⟨Operator.Mul, rfl, Or.inr rfl⟩
          obtain ⟨op, hop1, hop2⟩ := hop
          rw [hop1] at h
          simp only [] at h
          obtain ⟨s, hs, hloop⟩ := Res.bind_eq_ok h
          obtain ⟨h1, h2, h3⟩ := reduceFrames_addMul _ _ _ _ _ hfs hcur hs
          have hbin : (if op.type = OpType.binary then false else true) = false := by
            rcases hop2 with h4 | h4 <;> rw [h4] <;> rfl
          rw [hbin] at hloop
          apply ih _ Expr.null false _ r ?_ rfl (by rw [hd1]; exact halt.2) hloop
          obtain ⟨g, grest, hg⟩ := List.exists_cons_of_ne_nil h3
          rw [hg] at h1 ⊢
          simp only [framesAddMul, Bool.and_eq_true, Bool.or_eq_true, decide_eq_true_eq]
          exact ⟨⟨hop2, h2⟩, h1⟩
        | false =>
          simp only [isAlternating, Bool.and_eq_true, Bool.or_eq_true, decide_eq_true_eq] at halt
          simp only [Bool.false_eq_true, if_false, ht] at h
          have hcond : (t.kind = TokKind.identifier || is_const t.kind) = true := by
            rcases halt.1 with h1 | h1 <;> simp [h1, is_const]
          rw [if_pos hcond] at h
          obtain ⟨r1, hr1, hloop⟩ := Res.bind_eq_ok h
          obtain ⟨h1, h2⟩ := parse_factor_plain (isAlternating_next_not_lparen hd halt.2) hr1
          rw [h2] at hloop
          exact ih _ _ true _ r hfs h1 (by rw [hd1]; exact halt.2) hloop

/-- C1: with the built-in operator table, no tree returned by `parse_expr`, for
any token sequence and cursor, has a node of the binary `+` (`Operator::Add`)
as the left or the right child of a node of `*`; when the tokens from the
cursor on are operands alternating with `+` and `*` (so that `+` occurs as a
binary operator only), no node with the symbol `+` at all is a child of a node
with the symbol `*`; and `a + b * c`, for operands `a`, `b`, `c`, is parsed (in
full, five tokens) to `+` with left `a` and right `*` of `b` and `c`. -/
theorem parse_expr_mul_binds_tighter (top : Top) (env : FuncDef)
    (hinit : OperatorManager.empty.init = Res.ok top.opManager) :
    (∀ (fuel : Nat) (tokens : List Token) (current : Nat) (e : Expr) (current1 : Nat),
      parse_expr fuel top env tokens current = Res.ok (e, current1) →
      e.noAddUnderMul = true) ∧
    (∀ (fuel : Nat) (tokens : List Token) (current : Nat) (e : Expr) (current1 : Nat),
      isAlternating false (tokens.drop current) = true →
      parse_expr fuel top env tokens current = Res.ok (e, current1) →
      e.noPlusUnderStar = true) ∧
    (∀ (a b c : Token) (ea eb ec : Expr) (fuel : Nat),
      operand top env a = some ea → operand top env b = some eb →
      operand top env c = some ec → 6 ≤ fuel →
      parse_expr fuel top env [a, Token.sym TokKind.plus, b, Token.sym TokKind.star, c] 0 =
        Res.ok (Expr.opNode Operator.Add ea (Expr.opNode Operator.Mul eb ec), 5)) := by
  have hfirst : ∀ (fuel : Nat) (tokens : List Token) (current : Nat) (e : Expr)
      (current1 : Nat), parse_expr fuel top env tokens current = Res.ok (e, current1) →
      e.noAddUnderMul = true := by
    intro fuel tokens current e current1 h
    rcases parse_expr_shape hinit h with h1 | h1
    · have h2 : e = Expr.null := isNull_eq h1
      rw [h2]; rfl
    · exact shape_noAddUnderMul e h1
  refine ⟨hfirst, ?_, ?_⟩
  · intro fuel tokens current e current1 halt h
    have hn := hfirst fuel tokens current e current1 h
    rw [parse_expr_eq_frames_loop] at h
    have ho := frames_loop_addMul top env tokens (builtin_of_init hinit) fuel
      [⟨Operator.Root, Expr.null⟩] Expr.null false current (e, current1) rfl rfl halt h
    exact onlyAddMul_noPlusUnderStar e ho hn
  · intro a b c ea eb ec fuel ha hb hc hfuel
    exact parse_expr_add_mul (builtin_of_init hinit) a b c ea eb ec ha hb hc fuel hfuel

/-- C1 at a concrete input: inside `f(a, b)` with the global `g`, the tokens
`a + b * g`, operands alternating with operators, give `+` of `a` and `*` of
`b` and `g`, a tree without `+` under `*`. -/
theorem parse_expr_mul_binds_tighter_witness :
    OperatorManager.empty.init = Res.ok demoTop.opManager ∧
    parse_expr 6 demoTop demoEnv
      [Token.ident "a", Token.sym TokKind.plus, Token.ident "b", Token.sym TokKind.star,
        Token.ident "g"] 0 =
      Res.ok (Expr.opNode Operator.Add (Expr.varNode ⟨Type_.Int, "a", 1⟩)
        (Expr.opNode Operator.Mul (Expr.varNode ⟨Type_.Int, "b", 2⟩)
          (Expr.varNode ⟨Type_.Int, "g", 0⟩)), 5) ∧
    (Expr.opNode Operator.Add (Expr.varNode ⟨Type_.Int, "a", 1⟩)
        (Expr.opNode Operator.Mul (Expr.varNode ⟨Type_.Int, "b", 2⟩)
          (Expr.varNode ⟨Type_.Int, "g", 0⟩))).noAddUnderMul = true ∧
    (Expr.opNode Operator.Add (Expr.varNode ⟨Type_.Int, "a", 1⟩)
        (Expr.opNode Operator.Mul (Expr.varNode ⟨Type_.Int, "b", 2⟩)
          (Expr.varNode ⟨Type_.Int, "g", 0⟩))).noPlusUnderStar = true :=
  ⟨rfl,
    (parse_expr_mul_binds_tighter demoTop demoEnv rfl).2.2 (Token.ident "a") (Token.ident "b")
      (Token.ident "g") _ _ _ 6 rfl rfl rfl (by decide),
    (parse_expr_mul_binds_tighter demoTop demoEnv rfl).1 6
      [Token.ident "a", Token.sym TokKind.plus, Token.ident "b", Token.sym TokKind.star,
        Token.ident "g"] 0 _ 5 rfl,
    (parse_expr_mul_binds_tighter demoTop demoEnv rfl).2.1 6
      [Token.ident "a", Token.sym TokKind.plus, Token.ident "b", Token.sym TokKind.star,
        Token.ident "g"] 0 _ 5 rfl rfl⟩

/-- A whole chain of one left-associative binary operator, parsed from the
sentinel alone at any cursor position of any token array. -/
theorem parse_expr_left_chain {top : Top} {env : FuncDef} {tokens : List Token}
    (k : TokKind) (op : Operator)
    (hk : top.opManager.binOrLeftUnaryManager k = some op) (hkl : k ≠ TokKind.lparen)
    (hbin : op.type = OpType.binary) (hasso : top.opManager.leftAssoManager op.prec = true)
    (hpos : 0 < op.prec) (rest : List Token)
    (hnext : top.opManager.binOrLeftUnaryManager (rest.headD Token.eof).kind = none)
    (hcall : (rest.headD Token.eof).kind ≠ TokKind.lparen)
    (x : Token) (xs : List Token) (e : Expr) (es : List Expr) (current : Nat)
    (hdrop : tokens.drop current = chainTokens k (x :: xs) ++ rest)
    (hx : operand top env x = some e) (hxs : xs.map (operand top env) = es.map some)
    (fuel : Nat) (hfuel : 2 * (xs.length + 1) ≤ fuel) :
    parse_expr fuel top env tokens current =
      Res.ok (leftNested op e es, current + (2 * xs.length + 1)) := by
  rw [parse_expr_eq_frames_loop]
  obtain ⟨f, rfl⟩ : ∃ f, fuel = f + 2 := ⟨fuel - 2, by omega⟩
  cases xs with
  | nil =>
    have hes1 := map_operand_nil hxs
    subst hes1
    have hdrop0 : tokens.drop current = x :: rest := hdrop
    have h0 := tokAt_of_drop hdrop0
    have h1 := tokAt_of_drop_headD (drop_succ_of_drop hdrop0)
    rw [frames_loop_operand f _ _ _ (by rw [h0]; exact hx) (by rw [h1]; exact hcall)]
    rw [frames_loop_end f _ _ _ (by rw [h1]; exact hnext)]
    rfl
  | cons y ys =>
    obtain ⟨e2, es1, rfl, hy, hes1⟩ := map_operand_cons hxs
    have hdrop0 : tokens.drop current =
        x :: Token.sym k :: (chainTokens k (y :: ys) ++ rest) := hdrop
    have h0 := tokAt_of_drop hdrop0
    have hdrop1 := drop_succ_of_drop hdrop0
    have h1 := tokAt_of_drop hdrop1
    have hdrop2 := drop_succ_of_drop hdrop1
    rw [frames_loop_operand f _ _ _ (by rw [h0]; exact hx) (by rw [h1]; exact hkl)]
    rw [frames_loop_binop f _ _ _ op (by rw [h1]; exact hk)]
    have hred : reduceFrames top.opManager op.prec [⟨Operator.Root, Expr.null⟩] e =
        Res.ok ([⟨Operator.Root, Expr.null⟩], e) := by
      have hne : ¬ (0 = op.prec) := Nat.ne_of_lt hpos
      simp [reduceFrames, Operator.Root, hne]
    rw [hred]
    simp only [Res.bind_ok, hbin, if_true]
    rw [frames_loop_left_chain k op hk hkl hbin hasso hpos rest hnext hcall ys es1 y e2 e
      Expr.null f (current + 1 + 1) hdrop2 hy hes1 (by simp at hfuel ⊢; omega)]
    simp only [leftNested, chainTokens_length, List.length_cons]
    congr 2
    omega

/-- A whole chain of one binary operator whose level is not left-associative,
parsed from the sentinel alone at any cursor position of any token array. -/
theorem parse_expr_right_chain {top : Top} {env : FuncDef} {tokens : List Token}
    (k : TokKind) (op : Operator)
    (hk : top.opManager.binOrLeftUnaryManager k = some op) (hkl : k ≠ TokKind.lparen)
    (hbin : op.type = OpType.binary) (hasso : top.opManager.leftAssoManager op.prec = false)
    (rest : List Token)
    (hnext : top.opManager.binOrLeftUnaryManager (rest.headD Token.eof).kind = none)
    (hcall : (rest.headD Token.eof).kind ≠ TokKind.lparen)
    (x : Token) (xs : List Token) (e : Expr) (es : List Expr) (current : Nat)
    (hdrop : tokens.drop current = chainTokens k (x :: xs) ++ rest)
    (hx : operand top env x = some e) (hxs : xs.map (operand top env) = es.map some)
    (fuel : Nat) (hfuel : 2 * (xs.length + 1) ≤ fuel) :
    parse_expr fuel top env tokens current =
      Res.ok (rightNested op e es, current + (2 * xs.length + 1)) := by
  rw [parse_expr_eq_frames_loop]
  rw [frames_loop_right_chain k op hk hkl hbin hasso rest hnext hcall xs es x e Expr.null
    ⟨Operator.Root, Expr.null⟩ [] fuel current hdrop hx hxs (Nat.zero_le _) hfuel]
  simp only [plug, chainTokens_length]

/-- C2: with the built-in operator table, wherever a chain
`x1 + x2 + ... + xn` of operands stands in the token array (from any cursor
position on, followed by the end of the array or by any token that is neither
a binary operator nor `(`, such as `)`, `,` or the closing brace), `parse_expr`
parses it in full to the left-nested tree `((x1 + x2) + ...) + xn` and stops
behind it; likewise with `*`; and a chain `x1 = x2 = ... = xn` is parsed in
full to the right-nested tree `x1 = (x2 = (... = xn))`; `2 n` loop steps are
enough. -/
theorem parse_expr_chain_associativity (top : Top) (env : FuncDef)
    (hinit : OperatorManager.empty.init = Res.ok top.opManager)
    (tokens : List Token) (current : Nat) (rest : List Token)
    (hnext : top.opManager.binOrLeftUnaryManager (rest.headD Token.eof).kind = none)
    (hcall : (rest.headD Token.eof).kind ≠ TokKind.lparen)
    (x : Token) (xs : List Token) (e : Expr) (es : List Expr)
    (hx : operand top env x = some e) (hxs : xs.map (operand top env) = es.map some)
    (fuel : Nat) (hfuel : 2 * (xs.length + 1) ≤ fuel) :
    (tokens.drop current = chainTokens TokKind.plus (x :: xs) ++ rest →
      parse_expr fuel top env tokens current =
        Res.ok (leftNested Operator.Add e es, current + (2 * xs.length + 1))) ∧
    (tokens.drop current = chainTokens TokKind.star (x :: xs) ++ rest →
      parse_expr fuel top env tokens current =
        Res.ok (leftNested Operator.Mul e es, current + (2 * xs.length + 1))) ∧
    (tokens.drop current = chainTokens TokKind.equ (x :: xs) ++ rest →
      parse_expr fuel top env tokens current =
        Res.ok (rightNested Operator.Assign e es, current + (2 * xs.length + 1))) := by
  have hb := builtin_of_init hinit
  refine ⟨?_, ?_, ?_⟩
  · intro hdrop
    exact parse_expr_left_chain TokKind.plus Operator.Add (by rw [hb]; rfl) (by decide) rfl
      (by rw [hb]; rfl) (by decide) rest hnext hcall x xs e es current hdrop hx hxs fuel hfuel
  · intro hdrop
    exact parse_expr_left_chain TokKind.star Operator.Mul (by rw [hb]; rfl) (by decide) rfl
      (by rw [hb]; rfl) (by decide) rest hnext hcall x xs e es current hdrop hx hxs fuel hfuel
  · intro hdrop
    exact parse_expr_right_chain TokKind.equ Operator.Assign (by rw [hb]; rfl) (by decide) rfl
      (by rw [hb]; rfl) rest hnext hcall x xs e es current hdrop hx hxs fuel hfuel

/-- C2 at concrete inputs: in `return a + b + g }`, read from the token after
`return`, the chain gives `(a + b) + g` and the cursor stops at the closing
brace; in `h ( a = b = g , a )`, read from the token after `(`, the chain
gives `a = (b = g)` and the cursor stops at the comma. -/
theorem parse_expr_chain_associativity_witness :
    parse_expr 6 demoTop demoEnv
      [Token.sym TokKind.kwd_return, Token.ident "a", Token.sym TokKind.plus, Token.ident "b",
        Token.sym TokKind.plus, Token.ident "g", Token.sym TokKind.rbrace] 1 =
      Res.ok (Expr.opNode Operator.Add
        (Expr.opNode Operator.Add (Expr.varNode ⟨Type_.Int, "a", 1⟩)
          (Expr.varNode ⟨Type_.Int, "b", 2⟩))
        (Expr.varNode ⟨Type_.Int, "g", 0⟩), 6) ∧
    parse_expr 6 demoTop demoEnv
      [Token.ident "h", Token.sym TokKind.lparen, Token.ident "a", Token.sym TokKind.equ,
        Token.ident "b", Token.sym TokKind.equ, Token.ident "g", Token.sym TokKind.comma,
        Token.ident "a", Token.sym TokKind.rparen] 2 =
      Res.ok (Expr.opNode Operator.Assign (Expr.varNode ⟨Type_.Int, "a", 1⟩)
        (Expr.opNode Operator.Assign (Expr.varNode ⟨Type_.Int, "b", 2⟩)
          (Expr.varNode ⟨Type_.Int, "g", 0⟩)), 7) :=
  ⟨(parse_expr_chain_associativity demoTop demoEnv rfl
      [Token.sym TokKind.kwd_return, Token.ident "a", Token.sym TokKind.plus, Token.ident "b",
        Token.sym TokKind.plus, Token.ident "g", Token.sym TokKind.rbrace] 1
      [Token.sym TokKind.rbrace] rfl (by decide) (Token.ident "a")
      [Token.ident "b", Token.ident "g"] (Expr.varNode ⟨Type_.Int, "a", 1⟩)
      [Expr.varNode ⟨Type_.Int, "b", 2⟩, Expr.varNode ⟨Type_.Int, "g", 0⟩] rfl rfl 6
      (by decide)).1 rfl,
    (parse_expr_chain_associativity demoTop demoEnv rfl
      [Token.ident "h", Token.sym TokKind.lparen, Token.ident "a", Token.sym TokKind.equ,
        Token.ident "b", Token.sym TokKind.equ, Token.ident "g", Token.sym TokKind.comma,
        Token.ident "a", Token.sym TokKind.rparen] 2
      [Token.sym TokKind.comma, Token.ident "a", Token.sym TokKind.rparen] rfl (by decide)
      (Token.ident "a") [Token.ident "b", Token.ident "g"] (Expr.varNode ⟨Type_.Int, "a", 1⟩)
      [Expr.varNode ⟨Type_.Int, "b", 2⟩, Expr.varNode ⟨Type_.Int, "g", 0⟩] rfl rfl 6
      (by decide)).2.2 rfl⟩

/-- The expression `+ a op b` for a binary operator `op` of the built-in table:
the unary plus is closed over `a` before the binary node is opened. -/
theorem parse_expr_pos_binop {top : Top} {env : FuncDef}
    (hb : top.opManager = OperatorManager.builtin) (k : TokKind) (op : Operator)
    (hk : OperatorManager.builtin.binOrLeftUnaryManager k = some op) (hkl : k ≠ TokKind.lparen)
    (a b : Token) (ea eb : Expr)
    (ha : operand top env a = some ea) (hb1 : operand top env b = some eb)
    (fuel : Nat) (hfuel : 5 ≤ fuel) :
    parse_expr fuel top env [Token.sym TokKind.plus, a, Token.sym k, b] 0 =
      Res.ok (Expr.opNode op (Expr.opNode Operator.Pos Expr.null ea) eb, 4) := by
  obtain ⟨f, rfl⟩ : ∃ f, fuel = f + 5 := ⟨fuel - 5, by omega⟩
  have hop : op = Operator.Mul ∨ op = Operator.Add ∨ op = Operator.Assign :=
    builtin_bin_cases hk
  rw [parse_expr_eq_frames_loop]
  rw [frames_loop_unary (f + 4) _ _ _ Operator.Pos (by simp [tokAt, Token.sym])
    (by simp [tokAt, Token.sym]) (by rw [hb]; rfl)]
  rw [frames_loop_operand (f + 2) _ _ _ (by exact ha) (by simpa [tokAt, Token.sym] using hkl)]
  rw [frames_loop_binop (f + 2) _ _ _ op (by rw [hb]; exact hk)]
  have hred : reduceFrames top.opManager op.prec
      [⟨Operator.Pos, Expr.null⟩, ⟨Operator.Root, Expr.null⟩] ea =
      Res.ok ([⟨Operator.Root, Expr.null⟩], Expr.opNode Operator.Pos Expr.null ea) := by
    rw [hb]
    rcases hop with h1 | h1 | h1 <;> subst h1 <;> rfl
  rw [hred]
  simp only [Res.bind_ok]
  have hbin : (if op.type = OpType.binary then false else true) = false := by
    rcases hop with h1 | h1 | h1 <;> subst h1 <;> rfl
  rw [hbin]
  rw [frames_loop_operand f _ _ _ (by exact hb1) (by simp [tokAt, Token.eof])]
  rw [frames_loop_end f _ _ _ (by rw [hb]; rfl)]
  rfl

/-- C5: with the built-in operator table, in every tree returned by
`parse_expr` the right child of a node of unary plus is a factor node or
another node of unary plus; `+ a + b` is parsed to `Add(Pos(a), b)` and
`+ a * b` to `Mul(Pos(a), b)`. -/
theorem parse_expr_pos_operand (top : Top) (env : FuncDef)
    (hinit : OperatorManager.empty.init = Res.ok top.opManager) :
    (∀ (fuel : Nat) (tokens : List Token) (current : Nat) (e : Expr) (current1 : Nat),
      parse_expr fuel top env tokens current = Res.ok (e, current1) →
      e.posOperandsOk = true) ∧
    (∀ (a b : Token) (ea eb : Expr) (fuel : Nat),
      operand top env a = some ea → operand top env b = some eb → 5 ≤ fuel →
      parse_expr fuel top env [Token.sym TokKind.plus, a, Token.sym TokKind.plus, b] 0 =
        Res.ok (Expr.opNode Operator.Add (Expr.opNode Operator.Pos Expr.null ea) eb, 4) ∧
      parse_expr fuel top env [Token.sym TokKind.plus, a, Token.sym TokKind.star, b] 0 =
        Res.ok (Expr.opNode Operator.Mul (Expr.opNode Operator.Pos Expr.null ea) eb, 4)) := by
  refine ⟨?_, ?_⟩
  · intro fuel tokens current e current1 h
    rcases parse_expr_shape hinit h with h1 | h1
    · have h2 : e = Expr.null := isNull_eq h1
      rw [h2]; rfl
    · exact shape_posOperandsOk e h1
  · intro a b ea eb fuel ha hb hfuel
    exact ⟨parse_expr_pos_binop (builtin_of_init hinit) TokKind.plus Operator.Add rfl (by decide)
        a b ea eb ha hb fuel hfuel,
      parse_expr_pos_binop (builtin_of_init hinit) TokKind.star Operator.Mul rfl (by decide)
        a b ea eb ha hb fuel hfuel⟩

/-- C5 at a concrete input: `+ a * b` inside `f(a, b)`. -/
theorem parse_expr_pos_operand_witness :
    OperatorManager.empty.init = Res.ok demoTop.opManager ∧
    parse_expr 5 demoTop demoEnv
      [Token.sym TokKind.plus, Token.ident "a", Token.sym TokKind.star, Token.ident "b"] 0 =
      Res.ok (Expr.opNode Operator.Mul
        (Expr.opNode Operator.Pos Expr.null (Expr.varNode ⟨Type_.Int, "a", 1⟩))
        (Expr.varNode ⟨Type_.Int, "b", 2⟩), 4) ∧
    (Expr.opNode Operator.Mul
        (Expr.opNode Operator.Pos Expr.null (Expr.varNode ⟨Type_.Int, "a", 1⟩))
        (Expr.varNode ⟨Type_.Int, "b", 2⟩)).posOperandsOk = true :=
  ⟨rfl,
    ((parse_expr_pos_operand demoTop demoEnv rfl).2 (Token.ident "a") (Token.ident "b") _ _ 5
      rfl rfl (by decide)).2,
    (parse_expr_pos_operand demoTop demoEnv rfl).1 5
      [Token.sym TokKind.plus, Token.ident "a", Token.sym TokKind.star, Token.ident "b"] 0 _ 4
      rfl⟩

/-- C8 at a concrete input: inside `f(a, b)`, with the global `g` present, the
declaration `int g` is not a duplicate; it returns a new local object and leaves
the global table as it was. -/
theorem parse_var_duplicate_iff_witness :
    (targetScope demoTop (some demoEnv)).count "g" = false ∧
    demoTop.varManager.count "g" = true ∧
    ∃ r, parse_var demoTop (some demoEnv) [Token.ident "int", Token.ident "g"] 0 = Res.ok r ∧
      r.var = ⟨Type_.Int, "g", 3⟩ ∧ r.top.varManager = demoTop.varManager :=
  ⟨rfl, rfl,
    match (parse_var_duplicate_iff demoTop (some demoEnv)
      [Token.ident "int", Token.ident "g"] 0 Type_.Int rfl rfl rfl).2 rfl with
    | ⟨r, h1, h2, _, _, _, _, h7, _⟩ => ⟨r, h1, h2, h7 rfl⟩⟩

/-! ### The statement loop (C6) -/

/-- At a token that is neither an operand nor a right-unary operator,
`parse_expr` returns null without moving the cursor (or the budget is used
up). -/
theorem parse_expr_no_progress (top : Top) (env : FuncDef) (tokens : List Token) (current : Nat)
    (hk : (tokAt tokens current).kind ≠ TokKind.identifier)
    (hc : (tokAt tokens current).kind ≠ TokKind.constant_int)
    (hu : top.opManager.rightUnaryManager (tokAt tokens current).kind = none) (fuel : Nat) :
    parse_expr fuel top env tokens current = Res.timeout ∨
      parse_expr fuel top env tokens current = Res.ok (Expr.null, current) := by
  cases fuel with
  | zero => left; simp [parse_expr, parse_expr_loop]
  | succ fuel =>
    right
    simp [parse_expr, parse_expr_loop, initialHeap, hk, hc, hu, is_const]

/-- The statement loop of `parse_func` never returns when the cursor stands on
a token that is not `return`, an identifier, `}`, an integer literal or a
right-unary operator: every budget is used up. -/
theorem parse_func_stmts_stuck (tokens : List Token) (current : Nat)
    (h1 : (tokAt tokens current).kind ≠ TokKind.kwd_return)
    (h2 : (tokAt tokens current).kind ≠ TokKind.identifier)
    (h3 : (tokAt tokens current).kind ≠ TokKind.rbrace)
    (h4 : (tokAt tokens current).kind ≠ TokKind.constant_int) :
    ∀ (fuel : Nat) (top : Top) (ret : FuncDef),
      top.opManager.rightUnaryManager (tokAt tokens current).kind = none →
      parse_func_stmts fuel top ret tokens current = Res.timeout := by
  intro fuel
  induction fuel with
  | zero => intro top ret _; simp [parse_func_stmts]
  | succ fuel ih =>
    intro top ret hu
    rw [parse_func_stmts]
    split
    · rename_i h; exact absurd h h1
    · rename_i h; exact absurd h h2
    · rename_i h; exact absurd h h3
    · rcases parse_expr_no_progress top ret tokens current h2 h4 hu fuel with h | h
      · rw [h]; rfl
      · rw [h]
        simp only [Res.bind_ok]
        exact ih top _ hu

/-- C6, evaluated on the code: on the tokens of `int f ( ) { ( 1 ) }` the run
of `parse_init` (hence of `parse_top`) uses up every budget: the statement loop
of `parse_func` stays on the `(` of the body for ever, appending a null
statement at each turn. -/
theorem parse_top_diverges : ∀ fuel : Nat, parse_init fuel parenBodyTokens = Res.timeout := by
  intro fuel
  cases fuel with
  | zero => rfl
  | succ fuel =>
    have hstuck := parse_func_stmts_stuck parenBodyTokens 5 (by decide) (by decide) (by decide)
      (by decide) fuel
    simp only [parse_init, Top.initial, TypeManager.regi, Map.count, List.lookup,
      Option.isSome, Bool.false_eq_true, if_false, Res.bind_ok, init_eq_builtin, Map.assign,
      List.filter]
    rw [parse_top]
    simp only [parenBodyTokens, List.length_cons, List.length_nil] at hstuck ⊢
    simp [parse_func, eat, tokAt, Token.ident, Token.sym, Token.int, Map.count, List.lookup,
      Token.eof] at hstuck ⊢
    rw [hstuck _ _ rfl]
    rfl

/-! ### Calls and the function table (C10) -/

theorem reduceFrames_callsBound (fm : Map FuncDef) (m : OperatorManager) (prec : Nat) :
    ∀ (frames : List Frame) (cur : Expr) (s : List Frame × Expr),
      (∀ f ∈ frames, f.left.callsBound fm = true) → cur.callsBound fm = true →
      reduceFrames m prec frames cur = Res.ok s →
      (∀ f ∈ s.1, f.left.callsBound fm = true) ∧ s.2.callsBound fm = true := by
  intro frames
  induction frames with
  | nil => intro cur s _ _ h; simp [reduceFrames] at h
  | cons f fs ih =>
    intro cur s hfs hcur h
    simp only [reduceFrames] at h
    split at h
    · apply ih _ s (fun g hg => hfs g (List.mem_cons_of_mem _ hg)) ?_ h
      simp only [Expr.callsBound, Bool.and_eq_true]
      exact ⟨hfs f (List.mem_cons_self _ _), hcur⟩
    · cases h
      exact ⟨hfs, hcur⟩

theorem plug_callsBound (fm : Map FuncDef) : ∀ (frames : List Frame) (cur : Expr),
    (∀ f ∈ frames, f.left.callsBound fm = true) → cur.callsBound fm = true →
    (plug frames cur).callsBound fm = true := by
  intro frames
  induction frames with
  | nil => intro cur _ h; simpa [plug] using h
  | cons f fs ih =>
    intro cur hfs hcur
    cases fs with
    | nil => simpa [plug] using hcur
    | cons g rest =>
      simp only [plug]
      apply ih _ (fun g hg => hfs g (List.mem_cons_of_mem _ hg))
      simp only [Expr.callsBound, Bool.and_eq_true]
      exact ⟨hfs f (List.mem_cons_self _ _), hcur⟩

theorem callsBound_allArgs_append (fm : Map FuncDef) (args : List Expr) (e : Expr)
    (h : Expr.callsBound.allArgs fm args = true) (he : e.callsBound fm = true) :
    Expr.callsBound.allArgs fm (args ++ [e]) = true := by
  induction args with
  | nil => simpa [Expr.callsBound.allArgs] using he
  | cons a rest ih =>
    simp only [Expr.callsBound.allArgs, Bool.and_eq_true] at h
    simp only [List.cons_append, Expr.callsBound.allArgs, Bool.and_eq_true]
    exact ⟨h.1, ih h.2⟩

/-- Whatever the four mutually recursive parsing functions return contains
only calls of functions bound in `top.funcManager`. -/
theorem callsBound_of_parse (top : Top) (env : FuncDef) (tokens : List Token) : ∀ fuel : Nat,
    (∀ frames cur filled current r, (∀ f ∈ frames, f.left.callsBound top.funcManager = true) →
        cur.callsBound top.funcManager = true →
        frames_loop fuel top env tokens frames cur filled current = Res.ok r →
        r.1.callsBound top.funcManager = true) ∧
    (∀ current r, parse_factor fuel top env tokens current = Res.ok r →
        r.1.callsBound top.funcManager = true) ∧
    (∀ current r, parse_call_node fuel top env tokens current = Res.ok r →
        r.1.callsBound top.funcManager = true) ∧
    (∀ params args current r,
        parse_call_args fuel top env tokens params args current = Res.ok r →
        Expr.callsBound.allArgs top.funcManager args = true →
        Expr.callsBound.allArgs top.funcManager r.1 = true) := by
  intro fuel
  induction fuel with
  | zero =>
    refine ⟨?_, ?_, ?_, ?_⟩
    · intro frames cur filled current r _ _ h; simp [frames_loop] at h
    · intro current r h; simp [parse_factor] at h
    · intro current r h; simp [parse_call_node] at h
    · intro params args current r h; simp [parse_call_args] at h
  | succ fuel ih =>
    obtain ⟨ihA, ihB, ihC, ihD⟩ := ih
    refine ⟨?_, ?_, ?_, ?_⟩
    · intro frames cur filled current r hfs hcur h
      cases frames with
      | nil => simp [frames_loop] at h
      | cons f fs =>
        simp only [frames_loop] at h
        cases filled with
        | true =>
          simp only [if_true] at h
          split at h
          · obtain ⟨s, hs, hloop⟩ := Res.bind_eq_ok h
            obtain ⟨h1, h2⟩ := reduceFrames_callsBound _ _ _ _ _ _ hfs hcur hs
            apply ihA _ Expr.null _ _ r ?_ rfl hloop
            intro g hg
            rcases List.mem_cons.mp hg with h3 | h3
            · subst h3; exact h2
            · exact h1 g h3
          · cases h
            exact plug_callsBound _ _ _ hfs hcur
        | false =>
          simp only [Bool.false_eq_true, if_false] at h
          split at h
          · obtain ⟨r1, hr1, hloop⟩ := Res.bind_eq_ok h
            exact ihA _ _ _ _ r hfs (ihB _ _ hr1) hloop
          · split at h
            · apply ihA _ Expr.null _ _ r ?_ rfl h
              intro g hg
              rcases List.mem_cons.mp hg with h3 | h3
              · subst h3; rfl
              · exact hfs g h3
            · split at h
              · cases h
              · cases h; rfl
    · intro current r h
      simp only [parse_factor] at h
      split at h
      · split at h
        · exact ihC _ _ h
        · unfold parse_var_node at h
          obtain ⟨c1, _, h1⟩ := Res.bind_eq_ok h
          split at h1
          · cases h1; rfl
          · split at h1
            · cases h1; rfl
            · cases h1
      · split at h
        · unfold parse_const_int at h
          obtain ⟨c1, _, h1⟩ := Res.bind_eq_ok h
          cases h1; rfl
        · cases h
    · intro current r h
      simp only [parse_call_node] at h
      split at h
      · cases h
      · rename_i func hfunc
        obtain ⟨c1, _, h1⟩ := Res.bind_eq_ok h
        obtain ⟨c2, _, h2⟩ := Res.bind_eq_ok h1
        obtain ⟨r3, hr3, h3⟩ := Res.bind_eq_ok h2
        obtain ⟨c4, _, h4⟩ := Res.bind_eq_ok h3
        cases h4
        have := ihD _ _ _ _ hr3 rfl
        simp only [Expr.callsBound, Bool.and_eq_true, Map.count, hfunc, Option.isSome]
        exact ⟨trivial, this⟩
    · intro params args current r h hargs
      simp only [parse_call_args] at h
      cases params with
      | nil =>
        simp only [] at h
        cases h; exact hargs
      | cons pr params1 =>
        simp only [] at h
        obtain ⟨r1, hr1, h1⟩ := Res.bind_eq_ok h
        rw [parse_expr_loop_eq_frames_loop top env tokens fuel _ _ _ _ _ _ Sim.initial] at hr1
        have hr1s := ihA [⟨Operator.Root, Expr.null⟩] Expr.null false current r1
          (by intro g hg; simp at hg; subst hg; rfl) rfl hr1
        have happ := callsBound_allArgs_append _ args r1.1 hargs hr1s
        split at h1
        · obtain ⟨c2, _, h2⟩ := Res.bind_eq_ok h1
          exact ihD _ _ _ _ h2 happ
        · cases h1; exact happ

/-- A tree returned by `parse_expr` contains only calls of functions bound in
`top.funcManager`. -/
theorem parse_expr_callsBound {top : Top} {env : FuncDef} {tokens : List Token}
    {fuel current : Nat} {r : Expr × Nat}
    (h : parse_expr fuel top env tokens current = Res.ok r) :
    r.1.callsBound top.funcManager = true := by
  rw [parse_expr_eq_frames_loop] at h
  exact (callsBound_of_parse top env tokens fuel).1 [⟨Operator.Root, Expr.null⟩] Expr.null false
    current r (by intro g hg; simp at hg; subst hg; rfl) rfl h

theorem parse_var_some_ok {top : Top} {e : FuncDef} {tokens : List Token} {current : Nat}
    {r : VarResult} (h : parse_var top (some e) tokens current = Res.ok r) :
    ∃ ty, List.lookup (tokAt tokens current).str top.typeManager = some ty ∧
      e.varManager.count (tokAt tokens (current + 1)).str = false ∧
      r.var = ⟨ty, (tokAt tokens (current + 1)).str, top.allocated⟩ ∧
      r.top = { top with allocated := top.allocated + 1 } ∧
      r.env = some { e with
        varManager := e.varManager.assign (tokAt tokens (current + 1)).str r.var } ∧
      r.current = current + 2 := by
  unfold parse_var at h
  obtain ⟨c1, hc1, h1⟩ := Res.bind_eq_ok h
  obtain ⟨c2, hc2, h2⟩ := Res.bind_eq_ok h1
  have e1 : c1 = current + 1 := by
    unfold eat at hc1; split at hc1
    · exact (Res.ok.inj hc1).symm
    · cases hc1
  have e2 : c2 = c1 + 1 := by
    unfold eat at hc2; split at hc2
    · exact (Res.ok.inj hc2).symm
    · cases hc2
  split at h2
  · cases h2
  · rename_i ty hty
    simp only [] at h2
    split at h2
    · cases h2
    · rename_i hc
      cases h2
      exact ⟨ty, hty, by simpa using hc, rfl, rfl, rfl, by show c2 = current + 2; omega⟩

theorem parse_var_none_ok {top : Top} {tokens : List Token} {current : Nat}
    {r : VarResult} (h : parse_var top none tokens current = Res.ok r) :
    ∃ ty, List.lookup (tokAt tokens current).str top.typeManager = some ty ∧
      top.varManager.count (tokAt tokens (current + 1)).str = false ∧
      r.var = ⟨ty, (tokAt tokens (current + 1)).str, top.allocated⟩ ∧
      r.top = { top with
        varManager := top.varManager.assign (tokAt tokens (current + 1)).str r.var,
        allocated := top.allocated + 1 } ∧
      r.env = none ∧ r.current = current + 2 := by
  unfold parse_var at h
  obtain ⟨c1, hc1, h1⟩ := Res.bind_eq_ok h
  obtain ⟨c2, hc2, h2⟩ := Res.bind_eq_ok h1
  have e1 : c1 = current + 1 := by
    unfold eat at hc1; split at hc1
    · exact (Res.ok.inj hc1).symm
    · cases hc1
  have e2 : c2 = c1 + 1 := by
    unfold eat at hc2; split at hc2
    · exact (Res.ok.inj hc2).symm
    · cases hc2
  split at h2
  · cases h2
  · rename_i ty hty
    simp only [] at h2
    split at h2
    · cases h2
    · rename_i hc
      cases h2
      exact ⟨ty, hty, by simpa using hc, rfl, rfl, rfl, by show c2 = current + 2; omega⟩

theorem parse_return_callsBound {top : Top} {env : FuncDef} {tokens : List Token}
    {fuel current : Nat} {r : Statement × Nat}
    (h : parse_return fuel top env tokens current = Res.ok r) :
    r.1.expression.callsBound top.funcManager = true := by
  unfold parse_return at h
  obtain ⟨c1, _, h1⟩ := Res.bind_eq_ok h
  obtain ⟨r1, hr1, h2⟩ := Res.bind_eq_ok h1
  cases h2
  exact parse_expr_callsBound hr1

theorem mem_append_singleton_forall {α : Type} {P : α → Prop} {l : List α} {a : α}
    (hl : ∀ x ∈ l, P x) (ha : P a) : ∀ x ∈ l ++ [a], P x := by
  intro x hx
  rcases List.mem_append.mp hx with h | h
  · exact hl x h
  · have : x = a := by simpa using h
    subst this; exact ha

/-- The statement loop of `parse_func` leaves the function table and the name
of the function alone, and appends only statements whose calls are bound in
the function table. -/
theorem parse_func_stmts_callsBound (tokens : List Token) : ∀ (fuel : Nat) (top : Top)
    (ret : FuncDef) (current : Nat) (s : FuncState),
    parse_func_stmts fuel top ret tokens current = Res.ok s →
    (∀ st ∈ ret.stmtList, st.expression.callsBound top.funcManager = true) →
    s.top.funcManager = top.funcManager ∧ s.ret.name = ret.name ∧
      ∀ st ∈ s.ret.stmtList, st.expression.callsBound top.funcManager = true := by
  intro fuel
  induction fuel with
  | zero => intro top ret current s h; simp [parse_func_stmts] at h
  | succ fuel ih =>
    intro top ret current s h hst
    rw [parse_func_stmts] at h
    split at h
    · obtain ⟨r, hr, h1⟩ := Res.bind_eq_ok h
      have := ih top _ _ s h1
        (mem_append_singleton_forall hst (parse_return_callsBound hr))
      exact this
    · split at h
      · obtain ⟨r, hr, h1⟩ := Res.bind_eq_ok h
        have := ih top _ _ s h1
          (mem_append_singleton_forall (a := Statement.expr r.1) hst (parse_expr_callsBound hr))
        exact this
      · obtain ⟨r, hr, h1⟩ := Res.bind_eq_ok h
        obtain ⟨ty, _, _, _, htop, henv, _⟩ := parse_var_some_ok hr
        rw [henv] at h1
        simp only [] at h1
        have := ih _ _ _ s h1 (by rw [htop]; exact hst)
        rw [htop] at this
        exact this
    · cases h
      exact ⟨rfl, rfl, hst⟩
    · obtain ⟨r, hr, h1⟩ := Res.bind_eq_ok h
      have := ih top _ _ s h1
        (mem_append_singleton_forall (a := Statement.expr r.1) hst (parse_expr_callsBound hr))
      exact this

/-- The parameter loop of `parse_func` leaves the function table, the name and
the statements of the function alone. -/
theorem parse_func_params_frame (tokens : List Token) : ∀ (fuel : Nat) (top : Top)
    (ret : FuncDef) (current : Nat) (s : FuncState),
    parse_func_params fuel top ret tokens current = Res.ok s →
    s.top.funcManager = top.funcManager ∧ s.ret.name = ret.name ∧
      s.ret.stmtList = ret.stmtList := by
  intro fuel
  induction fuel with
  | zero => intro top ret current s h; simp [parse_func_params] at h
  | succ fuel ih =>
    intro top ret current s h
    rw [parse_func_params] at h
    obtain ⟨c1, _, h1⟩ := Res.bind_eq_ok h
    obtain ⟨c2, _, h2⟩ := Res.bind_eq_ok h1
    split at h2
    · cases h2
    · split at h2
      · cases h2
      · simp only [] at h2
        split at h2
        · obtain ⟨c3, _, h3⟩ := Res.bind_eq_ok h2
          have := ih _ _ _ s h3
          exact this
        · cases h2
          exact ⟨rfl, rfl, rfl⟩

/-- A function accepted by `parse_func` was not in the function table when its
parse began, is entered into the table by the final assignment only, and has
statements whose calls are all bound in the table as it was before that
assignment. -/
theorem parse_func_callsBound {fuel : Nat} {top : Top} {tokens : List Token} {current : Nat}
    {s : FuncState} (h : parse_func fuel top tokens current = Res.ok s) :
    top.funcManager.count s.ret.name = false ∧
      s.top.funcManager = top.funcManager.assign s.ret.name s.ret ∧
      ∀ st ∈ s.ret.stmtList, st.expression.callsBound top.funcManager = true := by
  unfold parse_func at h
  obtain ⟨c1, _, h1⟩ := Res.bind_eq_ok h
  obtain ⟨c2, _, h2⟩ := Res.bind_eq_ok h1
  split at h2
  · cases h2
  · rename_i ty hty
    simp only [] at h2
    split at h2
    · cases h2
    · rename_i hdup
      obtain ⟨c3, _, h3⟩ := Res.bind_eq_ok h2
      obtain ⟨s1, hs1, h4⟩ := Res.bind_eq_ok h3
      obtain ⟨c4, _, h5⟩ := Res.bind_eq_ok h4
      obtain ⟨c5, _, h6⟩ := Res.bind_eq_ok h5
      obtain ⟨s2, hs2, h7⟩ := Res.bind_eq_ok h6
      obtain ⟨c6, _, h8⟩ := Res.bind_eq_ok h7
      have hs1p : s1.top.funcManager = top.funcManager ∧
          s1.ret.name = (tokAt tokens (current + 1)).str ∧ s1.ret.stmtList = [] := by
        split at hs1
        · exact parse_func_params_frame tokens _ _ _ _ _ hs1
        · cases hs1; exact ⟨rfl, rfl, rfl⟩
      obtain ⟨hf1, hn1, hl1⟩ := hs1p
      obtain ⟨hf2, hn2, hl2⟩ := parse_func_stmts_callsBound tokens _ _ _ _ _ hs2
        (by rw [hl1]; intro st hst; cases hst)
      cases h8
      simp only []
      rw [hn2, hn1, hf2, hf1]
      refine ⟨by simpa using hdup, rfl, ?_⟩
      rw [hf1] at hl2
      exact hl2

theorem count_eq_false_iff {α : Type} (m : Map α) (k : String) :
    m.count k = false ↔ List.lookup k m = none := by
  unfold Map.count
  cases List.lookup k m <;> simp

mutual

theorem callsBound_not_calls (fm : Map FuncDef) (name : String)
    (hn : fm.count name = false) : ∀ e : Expr, e.callsBound fm = true → e.calls name = false
  | Expr.null, _ => rfl
  | Expr.varNode _, _ => rfl
  | Expr.constantNumNode _, _ => rfl
  | Expr.opNode _ l r, h => by
    simp only [Expr.callsBound, Bool.and_eq_true] at h
    simp only [Expr.calls, Bool.or_eq_false_iff]
    exact ⟨callsBound_not_calls fm name hn l h.1, callsBound_not_calls fm name hn r h.2⟩
  | Expr.callNode func args, h => by
    simp only [Expr.callsBound, Bool.and_eq_true] at h
    simp only [Expr.calls, Bool.or_eq_false_iff]
    refine ⟨?_, callsBound_allArgs_not_calls fm name hn args h.2⟩
    have : func ≠ name := by
      intro heq
      rw [heq, hn] at h
      exact Bool.false_ne_true h.1
    simpa using this

theorem callsBound_allArgs_not_calls (fm : Map FuncDef) (name : String)
    (hn : fm.count name = false) : ∀ args : List Expr,
    Expr.callsBound.allArgs fm args = true → Expr.calls.anyArg name args = false
  | [], _ => rfl
  | a :: rest, h => by
    simp only [Expr.callsBound.allArgs, Bool.and_eq_true] at h
    simp only [Expr.calls.anyArg, Bool.or_eq_false_iff]
    exact ⟨callsBound_not_calls fm name hn a h.1,
      callsBound_allArgs_not_calls fm name hn rest h.2⟩

end

/-- Where an operand is due, a call of a name that is not in the function
table aborts the loop of `parse_expr` with "function not find", whatever the
stack holds. -/
theorem parse_expr_loop_unbound_call (fuel : Nat) (top : Top) (env : FuncDef)
    (tokens : List Token) (heap : List OpNode) (now : Nat) (rest : List Nat) (current : Nat)
    (hname : top.funcManager.count (tokAt tokens current).str = false)
    (hk : (tokAt tokens current).kind = TokKind.identifier)
    (hl : (tokAt tokens (current + 1)).kind = TokKind.lparen) :
    parse_expr_loop (fuel + 3) top env tokens heap (now :: rest) false current =
      Res.error Err.functionNotFound := by
  have hlk := (count_eq_false_iff _ _).mp hname
  simp [parse_expr_loop, parse_factor, parse_call_node, hk, hl, hlk]

/-- A statement that begins with a call of a name that is not in the function
table, or with `return` and such a call, aborts the statement loop of
`parse_func` with "function not find". -/
theorem parse_func_stmts_unbound_call (fuel : Nat) (top : Top) (ret : FuncDef)
    (tokens : List Token) (current : Nat) :
    (top.funcManager.count (tokAt tokens current).str = false →
      (tokAt tokens current).kind = TokKind.identifier →
      (tokAt tokens (current + 1)).kind = TokKind.lparen →
      parse_func_stmts (fuel + 4) top ret tokens current = Res.error Err.functionNotFound) ∧
    (top.funcManager.count (tokAt tokens (current + 1)).str = false →
      (tokAt tokens current).kind = TokKind.kwd_return →
      (tokAt tokens (current + 1)).kind = TokKind.identifier →
      (tokAt tokens (current + 2)).kind = TokKind.lparen →
      parse_func_stmts (fuel + 4) top ret tokens current = Res.error Err.functionNotFound) := by
  constructor
  · intro hname hk hl
    have h := parse_expr_loop_unbound_call fuel top ret tokens initialHeap 0 [] current hname hk hl
    rw [parse_func_stmts]
    simp [hk, hl, parse_expr, h]
  · intro hname hr hk hl
    have h := parse_expr_loop_unbound_call fuel top ret tokens initialHeap 0 [] (current + 1)
      hname hk hl
    rw [parse_func_stmts]
    simp [hr, parse_return, eat, parse_expr, h]

/-- The parameter loop of `parse_func` accepts a parameter list with registered
types and pairwise distinct fresh names that is followed by `)`, stops at that
`)`, and leaves the function table alone. -/
theorem parse_func_params_ok (tokens : List Token) (rest : List Token)
    (hrest : (rest.headD Token.eof).kind = TokKind.rparen) :
    ∀ (decl : List (String × String)) (fuel : Nat) (top : Top) (ret : FuncDef) (current : Nat),
    decl ≠ [] → tokens.drop current = paramTokens decl ++ rest →
    (∀ d ∈ decl, List.lookup d.1 top.typeManager ≠ none) →
    (∀ d ∈ decl, ret.varManager.count d.2 = false) → (decl.map Prod.snd).Nodup →
    decl.length ≤ fuel →
    ∃ s1, parse_func_params fuel top ret tokens current = Res.ok s1 ∧
      tokens.drop s1.current = rest ∧ s1.top.funcManager = top.funcManager := by
  intro decl
  induction decl with
  | nil => intro fuel top ret current hne; exact absurd rfl hne
  | cons d ds ih =>
    intro fuel top ret current _ hdrop hty hfresh hnd hfuel
    obtain ⟨f, rfl⟩ : ∃ f, fuel = f + 1 := ⟨fuel - 1, by simp at hfuel; omega⟩
    obtain ⟨ty, hlk⟩ : ∃ ty, List.lookup d.1 top.typeManager = some ty := by
      have := hty d (List.mem_cons_self _ _)
      cases h : List.lookup d.1 top.typeManager with
      | none => exact absurd h this
      | some ty => exact ⟨ty, rfl⟩
    have hc0 : ret.varManager.count d.2 = false := hfresh d (List.mem_cons_self _ _)
    cases ds with
    | nil =>
      have hdrop0 : tokens.drop current = Token.ident d.1 :: Token.ident d.2 :: rest := hdrop
      have t0 := tokAt_of_drop hdrop0
      have hd1 := drop_succ_of_drop hdrop0
      have t1 := tokAt_of_drop hd1
      have hd2 := drop_succ_of_drop hd1
      have t2 : (tokAt tokens (current + 1 + 1)).kind = TokKind.rparen := by
        rw [tokAt_of_drop_headD hd2]; exact hrest
      refine ⟨⟨{ top with allocated := top.allocated + 1 },
        { ret with varManager := ret.varManager.assign d.2 ⟨ty, d.2, top.allocated⟩,
                   arguments := ret.arguments ++ [⟨ty, d.2, top.allocated⟩] },
        current + 1 + 1⟩, ?_, hd2, rfl⟩
      rw [parse_func_params]
      simp [eat, t0, t1, t2, Token.ident, hlk, hc0]
    | cons e es =>
      have hdrop0 : tokens.drop current = Token.ident d.1 :: Token.ident d.2 ::
          Token.sym TokKind.comma :: (paramTokens (e :: es) ++ rest) := hdrop
      have t0 := tokAt_of_drop hdrop0
      have hd1 := drop_succ_of_drop hdrop0
      have t1 := tokAt_of_drop hd1
      have hd2 := drop_succ_of_drop hd1
      have t2 := tokAt_of_drop hd2
      have hd3 := drop_succ_of_drop hd2
      have hnd0 := List.nodup_cons.mp (by simpa using hnd :
        (d.2 :: (e :: es).map Prod.snd).Nodup)
      have hfresh1 : ∀ x ∈ e :: es,
          (ret.varManager.assign d.2 ⟨ty, d.2, top.allocated⟩).count x.2 = false := by
        intro x hx
        have hne : x.2 ≠ d.2 := by
          intro heq
          exact hnd0.1 (by rw [← heq]; exact List.mem_map_of_mem _ hx)
        rw [count_eq_false_iff, Map.lookup_assign_ne _ _ _ _ hne]
        exact (count_eq_false_iff _ _).mp (hfresh x (List.mem_cons_of_mem _ hx))
      obtain ⟨s1, hs1, hdr, hfm⟩ := ih f { top with allocated := top.allocated + 1 }
        { ret with varManager := ret.varManager.assign d.2 ⟨ty, d.2, top.allocated⟩,
                   arguments := ret.arguments ++ [⟨ty, d.2, top.allocated⟩] }
        (current + 1 + 1 + 1) (by simp) hd3
        (fun x hx => hty x (List.mem_cons_of_mem _ hx)) hfresh1 hnd0.2
        (by simp at hfuel ⊢; omega)
      refine ⟨s1, ?_, hdr, hfm⟩
      rw [parse_func_params]
      simpa [eat, t0, t1, t2, Token.ident, Token.sym, hlk, hc0] using hs1

/-- A function definition with any parameter list whose body begins with a
call of the function itself, or with `return` and such a call, is rejected
with "function not find". -/
theorem parse_func_self_call_first (fuel : Nat) (top : Top) (tokens : List Token)
    (current : Nat) (fty fname : String) (decl : List (String × String))
    (body : List Token)
    (hdrop : tokens.drop current = Token.ident fty :: Token.ident fname ::
      Token.sym TokKind.lparen ::
        (paramTokens decl ++ Token.sym TokKind.rparen :: Token.sym TokKind.lbrace :: body))
    (hfty : top.typeManager.count fty = true) (hname : top.funcManager.count fname = false)
    (hty : ∀ d ∈ decl, List.lookup d.1 top.typeManager ≠ none)
    (hnd : (decl.map Prod.snd).Nodup)
    (hbody : (∃ more, body = Token.ident fname :: Token.sym TokKind.lparen :: more) ∨
      ∃ more, body = Token.sym TokKind.kwd_return :: Token.ident fname ::
        Token.sym TokKind.lparen :: more)
    (hfuel : decl.length + 4 ≤ fuel) :
    parse_func fuel top tokens current = Res.error Err.functionNotFound := by
  obtain ⟨f, rfl⟩ : ∃ f, fuel = f + 4 := ⟨fuel - 4, by omega⟩
  have t0 := tokAt_of_drop hdrop
  have hd1 := drop_succ_of_drop hdrop
  have t1 := tokAt_of_drop hd1
  have hd2 := drop_succ_of_drop hd1
  have t2 := tokAt_of_drop hd2
  have hd3 := drop_succ_of_drop hd2
  obtain ⟨ty, hlk⟩ : ∃ ty, List.lookup fty top.typeManager = some ty := by
    unfold Map.count at hfty
    cases h : List.lookup fty top.typeManager with
    | none => rw [h] at hfty; cases hfty
    | some t => exact ⟨t, rfl⟩
  -- the parameter stage
  have hstage : ∃ s1, (if (tokAt tokens (current + 1 + 1 + 1)).kind ≠ TokKind.rparen then
        parse_func_params (f + 4) top ⟨ty, fname, [], [], []⟩ tokens (current + 1 + 1 + 1)
      else Res.ok ⟨top, ⟨ty, fname, [], [], []⟩, current + 1 + 1 + 1⟩) = Res.ok s1 ∧
      tokens.drop s1.current = Token.sym TokKind.rparen :: Token.sym TokKind.lbrace :: body ∧
      s1.top.funcManager = top.funcManager := by
    cases decl with
    | nil =>
      have hd3n : tokens.drop (current + 1 + 1 + 1) =
          Token.sym TokKind.rparen :: Token.sym TokKind.lbrace :: body := hd3
      have t3 := tokAt_of_drop hd3n
      refine ⟨⟨top, ⟨ty, fname, [], [], []⟩, current + 1 + 1 + 1⟩, ?_, hd3n, rfl⟩
      simp [t3, Token.sym]
    | cons d ds =>
      have t3 : (tokAt tokens (current + 1 + 1 + 1)).kind = TokKind.identifier := by
        have : ∃ more, tokens.drop (current + 1 + 1 + 1) = Token.ident d.1 :: more := by
          cases ds with
          | nil => exact ⟨_, by rw [hd3]; rfl⟩
          | cons e es => exact ⟨_, by rw [hd3]; rfl⟩
        obtain ⟨more, hmore⟩ := this
        rw [tokAt_of_drop hmore]; rfl
      obtain ⟨s1, hs1, hdr, hfm⟩ := parse_func_params_ok tokens
        (Token.sym TokKind.rparen :: Token.sym TokKind.lbrace :: body) rfl (d :: ds) (f + 4) top
        ⟨ty, fname, [], [], []⟩ (current + 1 + 1 + 1) (by simp) hd3 hty
        (by intro x _; rfl) hnd (by omega)
      refine ⟨s1, ?_, hdr, hfm⟩
      rw [if_pos (by rw [t3]; decide)]
      exact hs1
  obtain ⟨s1, hs1, hdr, hfm⟩ := hstage
  have t4 := tokAt_of_drop hdr
  have hd5 := drop_succ_of_drop hdr
  have t5 := tokAt_of_drop hd5
  have hd6 := drop_succ_of_drop hd5
  have hname1 : s1.top.funcManager.count fname = false := by rw [hfm]; exact hname
  have hstmts : parse_func_stmts (f + 4) s1.top s1.ret tokens (s1.current + 1 + 1) =
      Res.error Err.functionNotFound := by
    rcases hbody with ⟨more, hb⟩ | ⟨more, hb⟩
    · rw [hb] at hd6
      have b0 := tokAt_of_drop hd6
      have b1 := tokAt_of_drop (drop_succ_of_drop hd6)
      exact (parse_func_stmts_unbound_call f s1.top s1.ret tokens (s1.current + 1 + 1)).1
        (by rw [b0]; exact hname1) (by rw [b0]; rfl) (by rw [b1]; rfl)
    · rw [hb] at hd6
      have b0 := tokAt_of_drop hd6
      have hd7 := drop_succ_of_drop hd6
      have b1 := tokAt_of_drop hd7
      have b2 := tokAt_of_drop (drop_succ_of_drop hd7)
      exact (parse_func_stmts_unbound_call f s1.top s1.ret tokens (s1.current + 1 + 1)).2
        (by rw [b1]; exact hname1) (by rw [b0]; rfl) (by rw [b1]; rfl) (by rw [b2]; rfl)
  unfold parse_func
  simp only [eat, t0, t1, t2, Token.ident, Token.sym, if_true, Res.bind_ok, hlk, hname,
    Bool.false_eq_true, if_false]
  simp only [Token.sym] at hs1
  rw [hs1]
  simp only [Res.bind_ok, eat, t4, t5, Token.sym, if_true, hstmts, Res.bind_error]

theorem Map.filter_fresh {α : Type} (k : String) : ∀ m : Map α, List.lookup k m = none →
    m.filter (fun p => p.1 != k) = m := by
  intro m
  induction m with
  | nil => intro _; rfl
  | cons p rest ih =>
    intro hl
    obtain ⟨a, b⟩ := p
    simp only [List.lookup] at hl
    split at hl
    · cases hl
    · rename_i hne
      have hne2 : a ≠ k := by
        intro heq
        subst heq
        simp at hne
      have h2 : (a != k) = true := by simpa using hne2
      simp only [List.filter, h2]
      rw [ih hl]

theorem Map.assign_fresh {α : Type} (m : Map α) (k : String) (v : α)
    (h : m.count k = false) : m.assign k v = (k, v) :: m := by
  have hl : List.lookup k m = none := by
    unfold Map.count at h
    cases hh : List.lookup k m with
    | none => rfl
    | some a => rw [hh] at h; cases h
  unfold Map.assign
  rw [Map.filter_fresh k m hl]

/-- The parameter loop of `parse_func` enters the parameters into the table of
the function in the order of the parameter list, and leaves the definition
list and the global table alone. -/
theorem parse_func_params_defList (tokens : List Token) : ∀ (fuel : Nat) (top : Top)
    (ret : FuncDef) (current : Nat) (s : FuncState),
    parse_func_params fuel top ret tokens current = Res.ok s →
    ret.varManager.reverse.map Prod.snd = ret.arguments →
    s.ret.varManager.reverse.map Prod.snd = s.ret.arguments ∧
      s.top.defList = top.defList ∧ s.top.varManager = top.varManager := by
  intro fuel
  induction fuel with
  | zero => intro top ret current s h; simp [parse_func_params] at h
  | succ fuel ih =>
    intro top ret current s h hinv
    rw [parse_func_params] at h
    obtain ⟨c1, _, h1⟩ := Res.bind_eq_ok h
    obtain ⟨c2, _, h2⟩ := Res.bind_eq_ok h1
    split at h2
    · cases h2
    · rename_i ty hty
      split at h2
      · cases h2
      · rename_i hdup
        have hfresh : ret.varManager.count (tokAt tokens (current + 1)).str = false := by
          simpa using hdup
        simp only [] at h2
        have hinv1 : ((ret.varManager.assign (tokAt tokens (current + 1)).str
            ⟨ty, (tokAt tokens (current + 1)).str, top.allocated⟩).reverse.map Prod.snd) =
            ret.arguments ++ [⟨ty, (tokAt tokens (current + 1)).str, top.allocated⟩] := by
          rw [Map.assign_fresh _ _ _ hfresh]
          simp [hinv]
        split at h2
        · obtain ⟨c3, _, h3⟩ := Res.bind_eq_ok h2
          have := ih _ _ _ s h3 hinv1
          exact this
        · cases h2
          exact ⟨hinv1, rfl, rfl⟩

/-- The statement loop of `parse_func` enters every variable declared in the
body into the table of the function and appends it to `top.defList`; it leaves
the parameter list and the global table alone. -/
theorem parse_func_stmts_defList (tokens : List Token) : ∀ (fuel : Nat) (top : Top)
    (ret : FuncDef) (current : Nat) (s : FuncState),
    parse_func_stmts fuel top ret tokens current = Res.ok s →
    ∃ locals : List VarDef,
      s.ret.varManager.reverse.map Prod.snd = ret.varManager.reverse.map Prod.snd ++ locals ∧
      s.top.defList = top.defList ++ locals.map Definition.var ∧
      s.ret.arguments = ret.arguments ∧ s.top.varManager = top.varManager := by
  intro fuel
  induction fuel with
  | zero => intro top ret current s h; simp [parse_func_stmts] at h
  | succ fuel ih =>
    intro top ret current s h
    rw [parse_func_stmts] at h
    split at h
    · obtain ⟨r, hr, h1⟩ := Res.bind_eq_ok h
      have := ih top _ _ s h1
      exact this
    · split at h
      · obtain ⟨r, hr, h1⟩ := Res.bind_eq_ok h
        have := ih top _ _ s h1
        exact this
      · obtain ⟨r, hr, h1⟩ := Res.bind_eq_ok h
        obtain ⟨ty, _, hfresh, hvar, htop, henv, _⟩ := parse_var_some_ok hr
        rw [henv] at h1
        simp only [] at h1
        obtain ⟨locals, h2, h3, h4, h5⟩ := ih _ _ _ s h1
        refine ⟨r.var :: locals, ?_, ?_, h4, ?_⟩
        · rw [h2, Map.assign_fresh _ _ _ hfresh]
          simp
        · rw [h3]
          simp [htop]
        · rw [h5, htop]
    · cases h
      exact ⟨[], by simp, by simp, rfl, rfl⟩
    · obtain ⟨r, hr, h1⟩ := Res.bind_eq_ok h
      have := ih top _ _ s h1
      exact this

/-- What `parse_func` leaves behind: the variables declared in the body
appended to `top.defList`, the global variable table untouched, and the
function bound under its name on top of the function table. -/
theorem parse_func_defList {fuel : Nat} {top : Top} {tokens : List Token} {current : Nat}
    {s : FuncState} (h : parse_func fuel top tokens current = Res.ok s) :
    s.top.defList = top.defList ++ (bodyLocals s.ret).map Definition.var ∧
      s.top.varManager = top.varManager ∧
      s.top.funcManager = (s.ret.name, s.ret) :: top.funcManager := by
  obtain ⟨hcount, hfm, _⟩ := parse_func_callsBound h
  rw [Map.assign_fresh _ _ _ hcount] at hfm
  refine ⟨?_, ?_, hfm⟩
  all_goals
    unfold parse_func at h
    obtain ⟨c1, _, h1⟩ := Res.bind_eq_ok h
    obtain ⟨c2, _, h2⟩ := Res.bind_eq_ok h1
    split at h2
    · cases h2
    · rename_i ty hty
      simp only [] at h2
      split at h2
      · cases h2
      · obtain ⟨c3, _, h3⟩ := Res.bind_eq_ok h2
        obtain ⟨s1, hs1, h4⟩ := Res.bind_eq_ok h3
        obtain ⟨c4, _, h5⟩ := Res.bind_eq_ok h4
        obtain ⟨c5, _, h6⟩ := Res.bind_eq_ok h5
        obtain ⟨s2, hs2, h7⟩ := Res.bind_eq_ok h6
        obtain ⟨c6, _, h8⟩ := Res.bind_eq_ok h7
        have hs1p : s1.ret.varManager.reverse.map Prod.snd = s1.ret.arguments ∧
            s1.top.defList = top.defList ∧ s1.top.varManager = top.varManager := by
          split at hs1
          · exact parse_func_params_defList tokens _ _ _ _ _ hs1 rfl
          · cases hs1; exact ⟨rfl, rfl, rfl⟩
        obtain ⟨hv1, hd1, hg1⟩ := hs1p
        obtain ⟨locals, hv2, hd2, ha2, hg2⟩ := parse_func_stmts_defList tokens _ _ _ _ _ hs2
        cases h8
        simp only [bodyLocals]
        first
          | rw [hd2, hd1, hv2, hv1, ha2]
            simp
          | rw [hg2, hg1]

/-- C7, the claim as stated fails: on `int f ( ) { int x }`, where the only
top-level definition is the function `f` and no global variable exists, the
definition list returned by `parse_init` has two entries, the first of them
the variable `x` declared in the body of `f`. -/
theorem defList_holds_body_variable :
    ∃ top f, parse_init 4 localDeclTokens = Res.ok top ∧
      top.varManager = [] ∧ top.funcManager = [("f", f)] ∧
      f.varManager = [("x", ⟨Type_.Int, "x", 0⟩)] ∧
      top.defList = [Definition.var ⟨Type_.Int, "x", 0⟩, Definition.func f] :=
  ⟨_, _, rfl, rfl, rfl, rfl, rfl⟩

/-! ### Operator slots (C12) -/

/-- The first step of `regi`, the associativity check, passes: it does not end
in "inconsistent left associate". -/
theorem regi_asso_step (m : OperatorManager) (op : Operator)
    (hasso : ¬ (m.leftAssoManager op.prec = true ∧ op.leftAsso = false)) :
    ∃ m1 : OperatorManager,
      (if m.leftAssoManager op.prec then
        if m.leftAssoManager op.prec != op.leftAsso then
          Res.error Err.inconsistentAssociativity
        else Res.ok m
      else
        Res.ok { m with leftAssoManager :=
          fun p => if p = op.prec then op.leftAsso else m.leftAssoManager p }) = Res.ok m1 ∧
      m1.binOrLeftUnaryManager = m.binOrLeftUnaryManager ∧
      m1.rightUnaryManager = m.rightUnaryManager := by
  cases h1 : m.leftAssoManager op.prec
  · exact ⟨{ m with leftAssoManager :=
        fun p => if p = op.prec then op.leftAsso else m.leftAssoManager p },
      by simp, rfl, rfl⟩
  · cases h2 : op.leftAsso
    · exact absurd ⟨h1, h2⟩ hasso
    · exact ⟨m, by simp, rfl, rfl⟩

/-- C12: when the associativity check of `regi` passes, registering `tok` with
a binary or left-unary operator aborts with "duplicate operator registor"
exactly when the binary/left-unary slot of `tok` is filled, and otherwise fills
that slot and leaves every other slot of both tables alone; registering it with
a right-unary operator does the same on the right-unary table; and `init` on
the zero-initialised table succeeds with `+` bound to `Add` as binary and to
`Pos` as right-unary operator, `=` to `Assign` and `*` to `Mul`. -/
theorem regi_duplicate_iff (m : OperatorManager) (tok : TokKind) (op : Operator)
    (hasso : ¬ (m.leftAssoManager op.prec = true ∧ op.leftAsso = false)) :
    ((op.type = OpType.binary ∨ op.type = OpType.left_unary) →
      (m.regi tok op = Res.error Err.duplicateOperator ↔
        (m.binOrLeftUnaryManager tok).isSome = true) ∧
      ((m.binOrLeftUnaryManager tok).isSome = false →
        ∃ m1, m.regi tok op = Res.ok m1 ∧ m1.binOrLeftUnaryManager tok = some op ∧
          (∀ t, t ≠ tok → m1.binOrLeftUnaryManager t = m.binOrLeftUnaryManager t) ∧
          m1.rightUnaryManager = m.rightUnaryManager)) ∧
    (op.type = OpType.right_unary →
      (m.regi tok op = Res.error Err.duplicateOperator ↔
        (m.rightUnaryManager tok).isSome = true) ∧
      ((m.rightUnaryManager tok).isSome = false →
        ∃ m1, m.regi tok op = Res.ok m1 ∧ m1.rightUnaryManager tok = some op ∧
          (∀ t, t ≠ tok → m1.rightUnaryManager t = m.rightUnaryManager t) ∧
          m1.binOrLeftUnaryManager = m.binOrLeftUnaryManager)) ∧
    (∃ m0, OperatorManager.empty.init = Res.ok m0 ∧
      m0.binOrLeftUnaryManager TokKind.plus = some Operator.Add ∧
      m0.rightUnaryManager TokKind.plus = some Operator.Pos ∧
      m0.binOrLeftUnaryManager TokKind.equ = some Operator.Assign ∧
      m0.binOrLeftUnaryManager TokKind.star = some Operator.Mul) := by
  obtain ⟨m1, hm1, hb, hr⟩ := regi_asso_step m op hasso
  refine ⟨?_, ?_, ⟨_, init_eq_builtin, rfl, rfl, rfl, rfl⟩⟩
  · intro hty
    have hreg : m.regi tok op =
        if (m1.binOrLeftUnaryManager tok).isSome then Res.error Err.duplicateOperator
        else Res.ok { m1 with binOrLeftUnaryManager :=
          fun t => if t = tok then some op else m1.binOrLeftUnaryManager t } := by
      unfold OperatorManager.regi
      rw [hm1]
      rcases hty with h | h <;> simp [h]
    rw [hreg, hb]
    cases hs : (m.binOrLeftUnaryManager tok).isSome
    · simp only [Bool.false_eq_true, if_false]
      refine ⟨by simp, fun _ => ⟨_, rfl, by simp, ?_, hr⟩⟩
      intro t ht
      simp [ht, hb]
    · simp
  · intro hty
    have hreg : m.regi tok op =
        if (m1.rightUnaryManager tok).isSome then Res.error Err.duplicateOperator
        else Res.ok { m1 with rightUnaryManager :=
          fun t => if t = tok then some op else m1.rightUnaryManager t } := by
      unfold OperatorManager.regi
      rw [hm1]
      simp [hty]
    rw [hreg, hr]
    cases hs : (m.rightUnaryManager tok).isSome
    · simp only [Bool.false_eq_true, if_false]
      refine ⟨by simp, fun _ => ⟨_, rfl, by simp, ?_, hb⟩⟩
      intro t ht
      simp [ht, hr]
    · simp

/-- C12 at a concrete input: in the built-in table, where `+` is registered as
the binary `Add`, a second binary registration of `+` is a duplicate. -/
theorem regi_duplicate_iff_witness :
    ¬ (OperatorManager.builtin.leftAssoManager Operator.Mul.prec = true ∧
        Operator.Mul.leftAsso = false) ∧
    OperatorManager.builtin.regi TokKind.plus Operator.Mul =
      Res.error Err.duplicateOperator ∧
    (OperatorManager.builtin.binOrLeftUnaryManager TokKind.plus).isSome = true :=
  ⟨by decide,
    ((regi_duplicate_iff OperatorManager.builtin TokKind.plus Operator.Mul (by decide)).1
      (Or.inl rfl)).1.mpr rfl, rfl⟩

/-! ### Missing operands and empty expressions (C14) -/

/-- C14: at a token that is neither an identifier, an integer literal nor a
registered right-unary operator, the loop of `parse_expr`, when it expects an
operand (`filled = false`), aborts with "rvalue expected" if the stack holds
more than one node and returns null without moving the cursor if it holds the
sentinel alone, as it does at the start of `parse_expr`; with the built-in
table, `a +` and `+` followed by such a token abort with "rvalue expected". -/
theorem parse_expr_missing_operand (top : Top) (env : FuncDef) (tokens : List Token)
    (current : Nat) (hk : (tokAt tokens current).kind ≠ TokKind.identifier)
    (hc : (tokAt tokens current).kind ≠ TokKind.constant_int)
    (hu : top.opManager.rightUnaryManager (tokAt tokens current).kind = none) :
    (∀ (fuel : Nat) (heap : List OpNode) (now : Nat) (rest : List Nat), rest ≠ [] →
      parse_expr_loop (fuel + 1) top env tokens heap (now :: rest) false current =
        Res.error Err.rvalueExpected) ∧
    (∀ (fuel : Nat) (heap : List OpNode) (now : Nat),
      parse_expr_loop (fuel + 1) top env tokens heap [now] false current =
        Res.ok (Expr.null, current)) ∧
    (∀ fuel : Nat, parse_expr (fuel + 1) top env tokens current = Res.ok (Expr.null, current)) ∧
    (top.opManager = OperatorManager.builtin →
      ∀ (a : Token) (ea : Expr) (fuel : Nat), operand top env a = some ea → 4 ≤ fuel →
        parse_expr fuel top env [a, Token.sym TokKind.plus, tokAt tokens current] 0 =
          Res.error Err.rvalueExpected ∧
        parse_expr fuel top env [Token.sym TokKind.plus, tokAt tokens current] 0 =
          Res.error Err.rvalueExpected) := by
  refine ⟨?_, ?_, ?_, ?_⟩
  · intro fuel heap now rest hrest
    cases rest with
    | nil => exact absurd rfl hrest
    | cons q rest1 => simp [parse_expr_loop, hk, hc, hu, is_const]
  · intro fuel heap now
    simp [parse_expr_loop, hk, hc, hu, is_const]
  · intro fuel
    simp [parse_expr, parse_expr_loop, initialHeap, hk, hc, hu, is_const]
  · intro hb a ea fuel ha hfuel
    obtain ⟨f, rfl⟩ : ∃ f, fuel = f + 4 := ⟨fuel - 4, by omega⟩
    have hu1 : OperatorManager.builtin.rightUnaryManager (tokAt tokens current).kind = none := by
      rw [← hb]; exact hu
    constructor
    · rw [parse_expr_eq_frames_loop]
      rw [frames_loop_operand (f + 2) _ _ _ (by exact ha) (by simp [tokAt, Token.sym])]
      rw [frames_loop_binop (f + 2) _ _ _ Operator.Add (by rw [hb]; rfl)]
      have hred1 : reduceFrames top.opManager Operator.Add.prec [⟨Operator.Root, Expr.null⟩] ea =
          Res.ok ([⟨Operator.Root, Expr.null⟩], ea) := by rw [hb]; rfl
      rw [hred1]
      simp only [Res.bind_ok]
      rw [show (if Operator.Add.type = OpType.binary then false else true) = false from rfl]
      rw [frames_loop]
      have ht : tokAt [a, Token.sym TokKind.plus, tokAt tokens current] (0 + 1 + 1) =
          tokAt tokens current := by simp [tokAt]
      simp [ht, hk, hc, hb, hu1, is_const]
    · rw [parse_expr_eq_frames_loop]
      rw [frames_loop_unary (f + 3) _ _ _ Operator.Pos (by simp [tokAt, Token.sym])
        (by simp [tokAt, Token.sym]) (by rw [hb]; rfl)]
      rw [frames_loop]
      have ht : tokAt [Token.sym TokKind.plus, tokAt tokens current] (0 + 1) =
          tokAt tokens current := by simp [tokAt]
      simp [ht, hk, hc, hb, hu1, is_const]

/-- C14 at a concrete input: `a + )` aborts with "rvalue expected", and `)`
alone gives the null expression with the cursor unmoved. -/
theorem parse_expr_missing_operand_witness :
    (tokAt [Token.sym TokKind.rparen] 0).kind ≠ TokKind.identifier ∧
    parse_expr 4 demoTop demoEnv
      [Token.ident "a", Token.sym TokKind.plus, Token.sym TokKind.rparen] 0 =
        Res.error Err.rvalueExpected ∧
    parse_expr 1 demoTop demoEnv [Token.sym TokKind.rparen] 0 = Res.ok (Expr.null, 0) :=
  ⟨by decide,
    ((parse_expr_missing_operand demoTop demoEnv [Token.sym TokKind.rparen] 0 (by decide)
      (by decide) rfl).2.2.2 rfl (Token.ident "a") _ 4 rfl (by decide)).1,
    (parse_expr_missing_operand demoTop demoEnv [Token.sym TokKind.rparen] 0 (by decide)
      (by decide) rfl).2.2.1 0⟩

/-! ### Complete operator nodes (C16) -/

mutual

theorem shape_complete : ∀ e : Expr, e.shape = true → e.complete = true
  | Expr.null, _ => rfl
  | Expr.varNode _, _ => rfl
  | Expr.constantNumNode _, _ => rfl
  | Expr.callNode _ args, h => by
    simp only [Expr.shape] at h
    simp only [Expr.complete]
    exact shape_allArgs_complete args h
  | Expr.opNode op l r, h => by
    simp only [Expr.shape, Bool.and_eq_true, Bool.or_eq_true, decide_eq_true_eq] at h
    obtain ⟨⟨⟨hop, hr⟩, _⟩, hl⟩ := h
    have ihr := shape_complete r hr
    have hrn : r.isNull = false := by
      cases r <;> simp [Expr.shape, Expr.isNull] at hr ⊢
    simp only [Expr.complete, Bool.and_eq_true]
    rcases hop with ((h1 | h1) | h1) | h1
    all_goals
      subst h1
      first
        | (simp only [Operator.Assign, Operator.Add, Operator.Mul, if_true,
            Bool.and_eq_true] at hl
           have hln : l.isNull = false := by
             cases l <;> simp [Expr.shape, Expr.isNull] at hl ⊢
           exact ⟨⟨by simp [Operator.Assign, Operator.Add, Operator.Mul, hln, hrn],
             shape_complete l hl.1⟩, ihr⟩)
        | (have hln : l.isNull = true := by simpa [Operator.Pos] using hl
           have hl0 : l = Expr.null := isNull_eq hln
           subst hl0
           exact ⟨⟨by show (Expr.null.isNull && !r.isNull) = true; rw [hrn]; rfl, rfl⟩, ihr⟩)

theorem shape_allArgs_complete : ∀ args : List Expr, Expr.shape.allArgs args = true →
    Expr.complete.allArgs args = true
  | [], _ => rfl
  | a :: rest, h => by
    simp only [Expr.shape.allArgs, Bool.and_eq_true, Bool.or_eq_true] at h
    simp only [Expr.complete.allArgs, Bool.and_eq_true]
    refine ⟨?_, shape_allArgs_complete rest h.2⟩
    rcases h.1 with h1 | h1
    · rw [isNull_eq h1]; rfl
    · exact shape_complete a h1

end

/-- C16: with the built-in operator table, every tree returned by `parse_expr`
is complete at its operator nodes: each binary node has a non-null left and a
non-null right child, each right-unary node a non-null right child and a null
left child. -/
theorem parse_expr_complete (top : Top) (env : FuncDef)
    (hinit : OperatorManager.empty.init = Res.ok top.opManager) (fuel : Nat)
    (tokens : List Token) (current : Nat) (e : Expr) (current1 : Nat)
    (h : parse_expr fuel top env tokens current = Res.ok (e, current1)) :
    e.complete = true := by
  rcases parse_expr_shape hinit h with h1 | h1
  · have h2 : e = Expr.null := isNull_eq h1
    rw [h2]; rfl
  · exact shape_complete e h1

/-- C16 at a concrete input: the tree of `+ a * b` inside `f(a, b)`. -/
theorem parse_expr_complete_witness :
    OperatorManager.empty.init = Res.ok demoTop.opManager ∧
    parse_expr 5 demoTop demoEnv
      [Token.sym TokKind.plus, Token.ident "a", Token.sym TokKind.star, Token.ident "b"] 0 =
      Res.ok (Expr.opNode Operator.Mul
        (Expr.opNode Operator.Pos Expr.null (Expr.varNode ⟨Type_.Int, "a", 1⟩))
        (Expr.varNode ⟨Type_.Int, "b", 2⟩), 4) ∧
    (Expr.opNode Operator.Mul
        (Expr.opNode Operator.Pos Expr.null (Expr.varNode ⟨Type_.Int, "a", 1⟩))
        (Expr.varNode ⟨Type_.Int, "b", 2⟩)).complete = true :=
  ⟨rfl, rfl,
    parse_expr_complete demoTop demoEnv rfl 5
      [Token.sym TokKind.plus, Token.ident "a", Token.sym TokKind.star, Token.ident "b"] 0 _ 4
      rfl⟩

/-! ### The overload trie (C13, C20) -/

theorem Trie.lookup_setChild_self : ∀ (children : List (Type_ × Trie)) (t : Type_) (c : Trie),
    List.lookup t (Trie.setChild children t c) = some c := by
  intro children
  induction children with
  | nil => intro t c; simp [Trie.setChild, List.lookup]
  | cons p rest ih =>
    intro t c
    obtain ⟨k, v⟩ := p
    by_cases hk : k = t
    · simp [Trie.setChild, hk, List.lookup]
    · have hk2 : (t == k) = false := by
        simp only [beq_eq_false_iff_ne, ne_eq]
        exact fun h => hk h.symm
      simp only [Trie.setChild, hk, if_false, List.lookup, hk2]
      exact ih t c

theorem Trie.lookup_setChild_ne : ∀ (children : List (Type_ × Trie)) (t u : Type_) (c : Trie),
    u ≠ t → List.lookup u (Trie.setChild children t c) = List.lookup u children := by
  intro children
  induction children with
  | nil =>
    intro t u c hu
    have hu2 : (u == t) = false := by simpa using hu
    simp [Trie.setChild, List.lookup, hu2]
  | cons p rest ih =>
    intro t u c hu
    obtain ⟨k, v⟩ := p
    have hu2 : (u == t) = false := by simpa using hu
    by_cases hk : k = t
    · subst hk
      simp [Trie.setChild, List.lookup, hu2]
    · simp only [Trie.setChild, hk, if_false, List.lookup]
      cases (u == k)
      · exact ih t u c hu
      · rfl

theorem Trie.find_empty (types : List Type_) : Trie.empty.find types = none := by
  cases types <;> simp [Trie.empty, Trie.find, List.lookup]

theorem Trie.find_of_lookup_getD (cb : CallBack) (children : List (Type_ × Trie)) (t : Type_)
    (rest : List Type_) :
    (Trie.node cb children).find (t :: rest) =
      ((children.lookup t).getD Trie.empty).find rest := by
  simp only [Trie.find]
  cases List.lookup t children with
  | none => simp [Trie.find_empty]
  | some c => rfl

/-- `Trie::insert` aborts exactly when the node reached along `types` holds a
handler. -/
theorem Trie.insert_error_iff : ∀ (types : List Type_) (t : Trie) (callBack : CallBack),
    t.insert types callBack = Res.error Err.duplicateOverload ↔
      (t.find types).isSome = true := by
  intro types
  induction types with
  | nil =>
    intro t callBack
    obtain ⟨cb, children⟩ := t
    simp only [Trie.insert, Trie.find]
    cases cb <;> simp
  | cons ty rest ih =>
    intro t callBack
    obtain ⟨cb, children⟩ := t
    rw [Trie.find_of_lookup_getD, ← ih ((children.lookup ty).getD Trie.empty) callBack]
    simp only [Trie.insert]
    cases Trie.insert ((children.lookup ty).getD Trie.empty) rest callBack <;> simp

/-- The results of `Trie::insert`: a normal return or the duplicate abort. -/
theorem Trie.insert_ok_or_error : ∀ (types : List Type_) (t : Trie) (callBack : CallBack),
    (∃ t1, t.insert types callBack = Res.ok t1) ∨
      t.insert types callBack = Res.error Err.duplicateOverload := by
  intro types
  induction types with
  | nil =>
    intro t callBack
    obtain ⟨cb, children⟩ := t
    simp only [Trie.insert]
    cases cb <;> simp
  | cons ty rest ih =>
    intro t callBack
    obtain ⟨cb, children⟩ := t
    simp only [Trie.insert]
    rcases ih ((children.lookup ty).getD Trie.empty) callBack with ⟨t1, h⟩ | h
    · left; rw [h]; exact ⟨_, rfl⟩
    · right; rw [h]; rfl

/-- C20: a successful `Trie::insert` of the sequence `types` with the handler
`callBack` makes `callBack` the handler at the node reached along `types`, and
leaves the handler reached along every other sequence (proper prefixes and
extensions of `types` and the empty sequence included) as it was. -/
theorem Trie.insert_find (types : List Type_) : ∀ (t t1 : Trie) (callBack : CallBack),
    t.insert types callBack = Res.ok t1 →
    t1.find types = callBack ∧ ∀ other : List Type_, other ≠ types → t1.find other = t.find other := by
  induction types with
  | nil =>
    intro t t1 callBack h
    obtain ⟨cb, children⟩ := t
    simp only [Trie.insert] at h
    split at h
    · cases h
    · cases h
      refine ⟨rfl, ?_⟩
      intro other ho
      cases other with
      | nil => exact absurd rfl ho
      | cons u rest => rfl
  | cons ty rest ih =>
    intro t t1 callBack h
    obtain ⟨cb, children⟩ := t
    simp only [Trie.insert] at h
    obtain ⟨child, hc, h1⟩ := Res.bind_eq_ok h
    cases h1
    obtain ⟨ih1, ih2⟩ := ih _ child callBack hc
    refine ⟨?_, ?_⟩
    · simp only [Trie.find, Trie.lookup_setChild_self]
      exact ih1
    · intro other ho
      cases other with
      | nil => rfl
      | cons u rest1 =>
        by_cases hu : u = ty
        · subst hu
          have hr : rest1 ≠ rest := fun hh => ho (by rw [hh])
          rw [Trie.find_of_lookup_getD cb children]
          simp only [Trie.find, Trie.lookup_setChild_self]
          exact ih2 rest1 hr
        · simp only [Trie.find, Trie.lookup_setChild_ne children ty u child hu]

/-- C20 at a concrete input: after `(int, int)` has been given the handler 7 in
the empty trie, that handler is found along `(int, int)` and none along
`(int)`. -/
theorem Trie.insert_find_witness :
    Trie.empty.insert [Type_.Int, Type_.Int] (some 7) =
      Res.ok (Trie.node none [(Type_.Int, Trie.node none [(Type_.Int, Trie.node (some 7) [])])]) ∧
    (Trie.node none [(Type_.Int, Trie.node none [(Type_.Int, Trie.node (some 7) [])])]).find
      [Type_.Int, Type_.Int] = some 7 ∧
    (Trie.node none [(Type_.Int, Trie.node none [(Type_.Int, Trie.node (some 7) [])])]).find
      [Type_.Int] = Trie.empty.find [Type_.Int] :=
  ⟨rfl,
    (Trie.insert_find [Type_.Int, Type_.Int] Trie.empty _ (some 7) rfl).1,
    (Trie.insert_find [Type_.Int, Type_.Int] Trie.empty _ (some 7) rfl).2 [Type_.Int]
      (by decide)⟩

theorem OverloadTable.trie_setTrie_self : ∀ (m : OverloadTable) (a : Nat) (t : Trie),
    OverloadTable.trie (OverloadTable.setTrie m a t) a = t := by
  intro m
  induction m with
  | nil => intro a t; simp [OverloadTable.setTrie, OverloadTable.trie, List.lookup]
  | cons p rest ih =>
    intro a t
    obtain ⟨k, v⟩ := p
    by_cases hk : k = a
    · simp [OverloadTable.setTrie, OverloadTable.trie, hk, List.lookup]
    · have hk2 : (a == k) = false := by
        simp only [beq_eq_false_iff_ne, ne_eq]
        exact fun h => hk h.symm
      have := ih a t
      simp only [OverloadTable.trie] at this
      simp only [OverloadTable.setTrie, hk, if_false, OverloadTable.trie, List.lookup, hk2]
      exact this

theorem OverloadTable.trie_setTrie_ne : ∀ (m : OverloadTable) (a a1 : Nat) (t : Trie),
    a1 ≠ a → OverloadTable.trie (OverloadTable.setTrie m a t) a1 = OverloadTable.trie m a1 := by
  intro m
  induction m with
  | nil =>
    intro a a1 t hne
    have h2 : (a1 == a) = false := by simpa using hne
    simp [OverloadTable.setTrie, OverloadTable.trie, List.lookup, h2]
  | cons p rest ih =>
    intro a a1 t hne
    obtain ⟨k, v⟩ := p
    have h2 : (a1 == a) = false := by simpa using hne
    by_cases hk : k = a
    · subst hk
      simp [OverloadTable.setTrie, OverloadTable.trie, List.lookup, h2]
    · have := ih a a1 t hne
      simp only [OverloadTable.trie] at this
      simp only [OverloadTable.setTrie, hk, if_false, OverloadTable.trie, List.lookup]
      cases (a1 == k)
      · exact this
      · rfl

/-- `overload` aborts exactly when the trie of the operator object holds a
handler at the node reached along `types`. -/
theorem overload_error_iff (m : OverloadTable) (op : OperatorRef) (types : List Type_)
    (callBack : CallBack) :
    OperatorManager.overload m op types callBack = Res.error Err.duplicateOverload ↔
      ((m.trie op.addr).find types).isSome = true := by
  rw [← Trie.insert_error_iff types (m.trie op.addr) callBack]
  unfold OperatorManager.overload
  cases (m.trie op.addr).insert types callBack <;> simp

/-- What a successful `overload` changes: the handler of the operator object
along `types`, and no handler of another object or along another sequence. -/
theorem overload_frame {m m1 : OverloadTable} {op : OperatorRef} {types : List Type_}
    {callBack : CallBack} (h : OperatorManager.overload m op types callBack = Res.ok m1) :
    (m1.trie op.addr).find types = callBack ∧
      ∀ (a : Nat) (other : List Type_), (a ≠ op.addr ∨ other ≠ types) →
        (m1.trie a).find other = (m.trie a).find other := by
  unfold OperatorManager.overload at h
  obtain ⟨t, ht, h1⟩ := Res.bind_eq_ok h
  cases h1
  obtain ⟨hf1, hf2⟩ := Trie.insert_find types _ t callBack ht
  refine ⟨by rw [OverloadTable.trie_setTrie_self]; exact hf1, ?_⟩
  intro a other hne
  by_cases hop : a = op.addr
  · subst hop
    rw [OverloadTable.trie_setTrie_self]
    rcases hne with h2 | h2
    · exact absurd rfl h2
    · exact hf2 other h2
  · rw [OverloadTable.trie_setTrie_ne m op.addr a t hop]

/-- After a run of successful `overload` calls with non-null handlers, the
sequences with a handler under an address are those that had one before and
those that the run registered for an operator object at that address. -/
theorem overloadAll_handlers : ∀ (hist : List (OperatorRef × List Type_ × Nat))
    (m0 m : OverloadTable), OperatorManager.overloadAll m0 hist = Res.ok m →
    ∀ (a : Nat) (types : List Type_),
      ((m.trie a).find types).isSome = true ↔
        (((m0.trie a).find types).isSome = true ∨
          ∃ o h, (o, types, h) ∈ hist ∧ o.addr = a) := by
  intro hist
  induction hist with
  | nil =>
    intro m0 m h a types
    cases h
    simp
  | cons entry rest ih =>
    intro m0 m h a types
    obtain ⟨op1, types1, h1⟩ := entry
    simp only [OperatorManager.overloadAll] at h
    obtain ⟨m1, hm1, hrest⟩ := Res.bind_eq_ok h
    obtain ⟨hf1, hf2⟩ := overload_frame hm1
    rw [ih m1 m hrest a types]
    by_cases hsame : a = op1.addr ∧ types = types1
    · obtain ⟨ho, ht⟩ := hsame
      subst ho ht
      rw [hf1]
      constructor
      · intro _
        exact Or.inr ⟨op1, h1, List.mem_cons_self _ _, rfl⟩
      · intro _
        exact Or.inl rfl
    · have hne : a ≠ op1.addr ∨ types ≠ types1 := by
        by_cases ho : a = op1.addr
        · right; exact fun ht => hsame ⟨ho, ht⟩
        · left; exact ho
      rw [hf2 a types hne]
      constructor
      · rintro (h2 | ⟨o, h3, h4, h5⟩)
        · exact Or.inl h2
        · exact Or.inr ⟨o, h3, List.mem_cons_of_mem _ h4, h5⟩
      · rintro (h2 | ⟨o, h3, h4, h5⟩)
        · exact Or.inl h2
        · rcases List.mem_cons.mp h4 with h6 | h6
          · exfalso
            apply hsame
            simp only [Prod.mk.injEq] at h6
            exact ⟨by rw [← h5, h6.1], h6.2.1⟩
          · exact Or.inr ⟨o, h3, h6, h5⟩

/-- C13: after any run `hist` of successful `overload` calls with non-null
handlers on the empty table, `overload` of the operator object `op` and the
sequence `types` with a non-null handler aborts with "duplicate operator
overload" exactly when the run registered a handler for that same object (the
object at the address of `op`) and exactly that sequence; in every other case
(a proper prefix or a proper extension of a registered sequence, the same
sequence under another operator object, be its descriptor equal or not) it
returns normally. -/
theorem overload_duplicate_iff (hist : List (OperatorRef × List Type_ × Nat))
    (m : OverloadTable) (hm : OperatorManager.overloadAll [] hist = Res.ok m)
    (op : OperatorRef) (types : List Type_) (h : Nat) :
    (OperatorManager.overload m op types (some h) = Res.error Err.duplicateOverload ↔
      ∃ o h1, (o, types, h1) ∈ hist ∧ o.addr = op.addr) ∧
    ((¬ ∃ o h1, (o, types, h1) ∈ hist ∧ o.addr = op.addr) →
      ∃ m1, OperatorManager.overload m op types (some h) = Res.ok m1) := by
  have hiff := overloadAll_handlers hist [] m hm op.addr types
  have hnone : ((OverloadTable.trie [] op.addr).find types).isSome = false := by
    simp [OverloadTable.trie, List.lookup, Trie.find_empty]
  rw [hnone] at hiff
  have hiff2 : OperatorManager.overload m op types (some h) = Res.error Err.duplicateOverload ↔
      ∃ o h1, (o, types, h1) ∈ hist ∧ o.addr = op.addr := by
    rw [overload_error_iff, hiff]
    simp
  refine ⟨hiff2, ?_⟩
  intro hno
  have hne : OperatorManager.overload m op types (some h) ≠ Res.error Err.duplicateOverload :=
    fun hh => hno (hiff2.mp hh)
  unfold OperatorManager.overload at hne ⊢
  rcases Trie.insert_ok_or_error types (m.trie op.addr) (some h) with ⟨t1, ht⟩ | ht
  · rw [ht]; exact ⟨_, rfl⟩
  · rw [ht] at hne; exact absurd rfl hne

/-- C13 at a concrete input: with a handler registered on `(int, int)` for the
`Add` object at address 1, the same sequence under that object is a duplicate,
while `(int)` and `(int, int, int)` under it, `(int, int)` under the `Mul`
object at address 2, and `(int, int)` under a second object at address 3 with
the descriptor of `Add` are accepted. -/
theorem overload_duplicate_iff_witness :
    ∃ m, OperatorManager.overloadAll [] [(⟨1, Operator.Add⟩, [Type_.Int, Type_.Int], 1)] =
        Res.ok m ∧
      OperatorManager.overload m ⟨1, Operator.Add⟩ [Type_.Int, Type_.Int] (some 2) =
        Res.error Err.duplicateOverload ∧
      (∃ m1, OperatorManager.overload m ⟨1, Operator.Add⟩ [Type_.Int] (some 2) = Res.ok m1) ∧
      (∃ m1, OperatorManager.overload m ⟨1, Operator.Add⟩ [Type_.Int, Type_.Int, Type_.Int]
        (some 2) = Res.ok m1) ∧
      (∃ m1, OperatorManager.overload m ⟨2, Operator.Mul⟩ [Type_.Int, Type_.Int] (some 2) =
        Res.ok m1) ∧
      (∃ m1, OperatorManager.overload m ⟨3, Operator.Add⟩ [Type_.Int, Type_.Int] (some 2) =
        Res.ok m1) :=
  ⟨_, rfl,
    (overload_duplicate_iff [(⟨1, Operator.Add⟩, [Type_.Int, Type_.Int], 1)] _ rfl
      ⟨1, Operator.Add⟩ [Type_.Int, Type_.Int] 2).1.mpr ⟨_, 1, List.mem_cons_self _ _, rfl⟩,
    (overload_duplicate_iff [(⟨1, Operator.Add⟩, [Type_.Int, Type_.Int], 1)] _ rfl
      ⟨1, Operator.Add⟩ [Type_.Int] 2).2 (by simp),
    (overload_duplicate_iff [(⟨1, Operator.Add⟩, [Type_.Int, Type_.Int], 1)] _ rfl
      ⟨1, Operator.Add⟩ [Type_.Int, Type_.Int, Type_.Int] 2).2 (by simp),
    (overload_duplicate_iff [(⟨1, Operator.Add⟩, [Type_.Int, Type_.Int], 1)] _ rfl
      ⟨2, Operator.Mul⟩ [Type_.Int, Type_.Int] 2).2 (by simp),
    (overload_duplicate_iff [(⟨1, Operator.Add⟩, [Type_.Int, Type_.Int], 1)] _ rfl
      ⟨3, Operator.Add⟩ [Type_.Int, Type_.Int] 2).2 (by simp)⟩

/-! ### A larger budget does not change a finished run -/

theorem Res.le_rfl {α : Type} (r : Res α) : r.le r := Or.inr rfl

theorem Res.le_bind {α β : Type} {a a1 : Res α} {k k1 : α → Res β} (ha : a.le a1)
    (hk : ∀ v, (k v).le (k1 v)) : (a.bind k).le (a1.bind k1) := by
  rcases ha with h | h
  · left; rw [h]; rfl
  · subst h
    cases a with
    | ok v => exact hk v
    | error e => right; rfl
    | undefined => right; rfl
    | timeout => left; rfl

theorem Res.le_trans {α : Type} {a b c : Res α} (h1 : a.le b) (h2 : b.le c) : a.le c := by
  rcases h1 with h | h
  · left; exact h
  · subst h; exact h2

theorem Res.eq_of_le_ok {α : Type} {a b : Res α} {v : α} (h : a.le b) (ha : a = Res.ok v) :
    b = Res.ok v := by
  rcases h with h1 | h1
  · rw [h1] at ha; cases ha
  · rw [← h1]; exact ha

theorem Res.eq_of_le_error {α : Type} {a b : Res α} {e : Err} (h : a.le b)
    (ha : a = Res.error e) : b = Res.error e := by
  rcases h with h1 | h1
  · rw [h1] at ha; cases ha
  · rw [← h1]; exact ha

/-- One more unit of budget leaves a finished run of the four mutually
recursive parsing functions as it was. -/
theorem parse_fuel_succ (top : Top) (env : FuncDef) (tokens : List Token) : ∀ fuel : Nat,
    (∀ frames cur filled current,
      (frames_loop fuel top env tokens frames cur filled current).le
        (frames_loop (fuel + 1) top env tokens frames cur filled current)) ∧
    (∀ current, (parse_factor fuel top env tokens current).le
        (parse_factor (fuel + 1) top env tokens current)) ∧
    (∀ current, (parse_call_node fuel top env tokens current).le
        (parse_call_node (fuel + 1) top env tokens current)) ∧
    (∀ params args current,
      (parse_call_args fuel top env tokens params args current).le
        (parse_call_args (fuel + 1) top env tokens params args current)) := by
  intro fuel
  induction fuel with
  | zero =>
    refine ⟨?_, ?_, ?_, ?_⟩
    · intro frames cur filled current; left; simp [frames_loop]
    · intro current; left; simp [parse_factor]
    · intro current; left; simp [parse_call_node]
    · intro params args current; left; simp [parse_call_args]
  | succ fuel ih =>
    obtain ⟨ihA, ihB, ihC, ihD⟩ := ih
    refine ⟨?_, ?_, ?_, ?_⟩
    · intro frames cur filled current
      simp only [frames_loop]
      cases frames with
      | nil => exact Res.le_rfl _
      | cons f fs =>
        simp only []
        cases filled with
        | true =>
          simp only [if_true]
          cases top.opManager.binOrLeftUnaryManager (tokAt tokens current).kind with
          | some op =>
            simp only []
            exact Res.le_bind (Res.le_rfl _) (fun s => ihA _ _ _ _)
          | none => exact Res.le_rfl _
        | false =>
          simp only [Bool.false_eq_true, if_false]
          split
          · exact Res.le_bind (ihB _) (fun r => ihA _ _ _ _)
          · cases top.opManager.rightUnaryManager (tokAt tokens current).kind with
            | some op => exact ihA _ _ _ _
            | none => exact Res.le_rfl _
    · intro current
      simp only [parse_factor]
      split
      · split
        · exact ihC _
        · exact Res.le_rfl _
      · exact Res.le_rfl _
    · intro current
      simp only [parse_call_node]
      cases List.lookup (tokAt tokens current).str top.funcManager with
      | none => exact Res.le_rfl _
      | some func =>
        simp only []
        refine Res.le_bind (Res.le_rfl _) (fun c1 => ?_)
        refine Res.le_bind (Res.le_rfl _) (fun c2 => ?_)
        exact Res.le_bind (ihD _ _ _) (fun r => Res.le_rfl _)
    · intro params args current
      simp only [parse_call_args]
      cases params with
      | nil => exact Res.le_rfl _
      | cons pr params1 =>
        simp only []
        rw [parse_expr_loop_eq_frames_loop top env tokens fuel _ _ _ _ _ _ Sim.initial,
          parse_expr_loop_eq_frames_loop top env tokens (fuel + 1) _ _ _ _ _ _ Sim.initial]
        refine Res.le_bind (ihA _ _ _ _) (fun r => ?_)
        split
        · exact Res.le_bind (Res.le_rfl _) (fun c1 => ihD _ _ _)
        · exact Res.le_rfl _

/-- A larger budget leaves a finished run of `parse_expr` as it was. -/
theorem parse_expr_fuel_mono (top : Top) (env : FuncDef) (tokens : List Token) (current : Nat) :
    ∀ (fuel more : Nat), (parse_expr fuel top env tokens current).le
      (parse_expr (fuel + more) top env tokens current) := by
  intro fuel more
  induction more with
  | zero => exact Res.le_rfl _
  | succ more ih =>
    refine Res.le_trans ih ?_
    rw [parse_expr_eq_frames_loop, parse_expr_eq_frames_loop]
    exact (parse_fuel_succ top env tokens (fuel + more)).1 _ _ _ _

/-- A larger budget leaves a finished run of `parse_call_args` as it was. -/
theorem parse_call_args_fuel_mono (top : Top) (env : FuncDef) (tokens : List Token)
    (params : List VarDef) (args : List Expr) (current : Nat) :
    ∀ (fuel more : Nat), (parse_call_args fuel top env tokens params args current).le
      (parse_call_args (fuel + more) top env tokens params args current) := by
  intro fuel more
  induction more with
  | zero => exact Res.le_rfl _
  | succ more ih =>
    exact Res.le_trans ih ((parse_fuel_succ top env tokens (fuel + more)).2.2.2 _ _ _)

/-! ### The arguments of a call (C11, C19) -/

/-- The `for` loop of `parse_call_node` appends at most one argument per
parameter still to be visited. -/
theorem parse_call_args_length (top : Top) (env : FuncDef) (tokens : List Token) :
    ∀ (fuel : Nat) (params : List VarDef) (args : List Expr) (current : Nat)
      (r : List Expr × Nat),
      parse_call_args fuel top env tokens params args current = Res.ok r →
      r.1.length ≤ args.length + params.length := by
  intro fuel
  induction fuel with
  | zero => intro params args current r h; simp [parse_call_args] at h
  | succ fuel ih =>
    intro params args current r h
    simp only [parse_call_args] at h
    cases params with
    | nil =>
      simp only [] at h
      cases h; simp
    | cons pr params1 =>
      simp only [] at h
      obtain ⟨r1, _, h1⟩ := Res.bind_eq_ok h
      split at h1
      · obtain ⟨c2, _, h2⟩ := Res.bind_eq_ok h1
        have := ih _ _ _ _ h2
        simp only [List.length_append, List.length_cons, List.length_nil] at this ⊢
        omega
      · cases h1
        simp

/-- Arguments followed by commas are taken by the `for` loop of
`parse_call_node` one per parameter. -/
theorem parse_call_args_commas (top : Top) (env : FuncDef) (tokens : List Token) :
    ∀ (k : Nat) (params : List VarDef) (args0 : List Expr) (c c1 : Nat),
      k ≤ params.length → argsWithCommas top env tokens k c c1 →
      ∃ (bound : Nat) (es : List Expr), es.length = k ∧ ∀ fuel, bound ≤ fuel →
        parse_call_args (fuel + k) top env tokens params args0 c =
          parse_call_args fuel top env tokens (params.drop k) (args0 ++ es) c1 := by
  intro k
  induction k with
  | zero =>
    intro params args0 c c1 _ h
    have hc : c = c1 := h
    subst hc
    exact ⟨0, [], rfl, fun fuel _ => by simp⟩
  | succ k ih =>
    intro params args0 c c1 hk h
    cases params with
    | nil => simp at hk
    | cons p ps =>
      obtain ⟨f0, e, c2, hpe, hcomma, hrest⟩ := h
      obtain ⟨bound, es, hes, hrun⟩ := ih ps (args0 ++ [e]) (c2 + 1) c1
        (by simpa using hk) hrest
      refine ⟨max bound f0, e :: es, by simp [hes], ?_⟩
      intro fuel hfuel
      have hb : bound ≤ fuel := le_trans (le_max_left _ _) hfuel
      have hf0 : f0 ≤ fuel + k := le_trans (le_trans (le_max_right _ _) hfuel) (Nat.le_add_right _ _)
      have hpe1 : parse_expr (fuel + k) top env tokens c = Res.ok (e, c2) := by
        obtain ⟨d, hd⟩ := Nat.exists_eq_add_of_le hf0
        rw [hd]
        exact Res.eq_of_le_ok (parse_expr_fuel_mono top env tokens c f0 d) hpe
      rw [show fuel + (k + 1) = (fuel + k) + 1 from rfl, parse_call_args]
      rw [show parse_expr_loop (fuel + k) top env tokens initialHeap [0] false c =
        parse_expr (fuel + k) top env tokens c from rfl, hpe1]
      simp only [Res.bind_ok, hcomma, if_true, eat]
      rw [hrun fuel hb]
      simp

/-- C11: a call node returned by `parse_call_node` has at most as many
arguments as the callee has parameters; a call with fewer arguments than
parameters (`k` arguments followed by commas, one more followed by `)`,
`k + 1` not above the number of parameters) is accepted with the `k + 1`
arguments; and a call in which as many arguments as the callee has parameters
are each followed by a comma and a further argument begins (the next token is
not `)`) is rejected with "token unexpected" by the `eat(rparen)`. -/
theorem parse_call_node_arguments (top : Top) (env : FuncDef) (tokens : List Token)
    (current : Nat) :
    (∀ (fuel : Nat) (r : Expr × Nat), parse_call_node fuel top env tokens current = Res.ok r →
      ∃ func args, List.lookup (tokAt tokens current).str top.funcManager = some func ∧
        r.1 = Expr.callNode (tokAt tokens current).str args ∧
        args.length ≤ func.arguments.length) ∧
    (∀ (func : FuncDef) (k c fuel0 : Nat) (e : Expr) (c2 : Nat),
      List.lookup (tokAt tokens current).str top.funcManager = some func →
      (tokAt tokens current).kind = TokKind.identifier →
      (tokAt tokens (current + 1)).kind = TokKind.lparen →
      argsWithCommas top env tokens k (current + 2) c →
      parse_expr fuel0 top env tokens c = Res.ok (e, c2) →
      (tokAt tokens c2).kind = TokKind.rparen → k + 1 ≤ func.arguments.length →
      ∃ (bound : Nat) (args : List Expr), args.length = k + 1 ∧ ∀ fuel, bound ≤ fuel →
        parse_call_node fuel top env tokens current =
          Res.ok (Expr.callNode (tokAt tokens current).str args, c2 + 1)) ∧
    (∀ (func : FuncDef) (c : Nat),
      List.lookup (tokAt tokens current).str top.funcManager = some func →
      (tokAt tokens current).kind = TokKind.identifier →
      (tokAt tokens (current + 1)).kind = TokKind.lparen →
      argsWithCommas top env tokens func.arguments.length (current + 2) c →
      (tokAt tokens c).kind ≠ TokKind.rparen →
      ∃ bound : Nat, ∀ fuel, bound ≤ fuel →
        parse_call_node fuel top env tokens current = Res.error Err.tokenUnexpected) := by
  refine ⟨?_, ?_, ?_⟩
  · intro fuel r h
    cases fuel with
    | zero => simp [parse_call_node] at h
    | succ fuel =>
      simp only [parse_call_node] at h
      split at h
      · cases h
      · rename_i func hfunc
        obtain ⟨c1, _, h1⟩ := Res.bind_eq_ok h
        obtain ⟨c2, _, h2⟩ := Res.bind_eq_ok h1
        obtain ⟨r3, hr3, h3⟩ := Res.bind_eq_ok h2
        obtain ⟨c4, _, h4⟩ := Res.bind_eq_ok h3
        cases h4
        have := parse_call_args_length top env tokens _ _ _ _ _ hr3
        exact ⟨func, r3.1, hfunc, rfl, by simpa using this⟩
  · intro func k c fuel0 e c2 hfunc hid hlp hargs hpe hrp hk
    obtain ⟨bound, es, hes, hrun⟩ := parse_call_args_commas top env tokens k func.arguments []
      (current + 2) c (by omega) hargs
    refine ⟨max bound (fuel0 + 1) + k + 1, es ++ [e], by simp [hes], ?_⟩
    intro fuel hfuel
    obtain ⟨f, rfl⟩ : ∃ f, fuel = (f + k) + 1 := ⟨fuel - k - 1, by omega⟩
    have hb : bound ≤ f := by
      have := le_max_left bound (fuel0 + 1)
      omega
    have hf0 : fuel0 + 1 ≤ f := by
      have := le_max_right bound (fuel0 + 1)
      omega
    have hdrop : ∃ p ps, func.arguments.drop k = p :: ps := by
      cases hd : func.arguments.drop k with
      | nil =>
        have := congrArg List.length hd
        simp at this
        omega
      | cons p ps => exact ⟨p, ps, rfl⟩
    obtain ⟨p, ps, hd⟩ := hdrop
    obtain ⟨g, rfl⟩ : ∃ g, f = g + 1 := ⟨f - 1, by omega⟩
    have hpe1 : parse_expr g top env tokens c = Res.ok (e, c2) := by
      obtain ⟨d, hdd⟩ := Nat.exists_eq_add_of_le (show fuel0 ≤ g by omega)
      rw [hdd]
      exact Res.eq_of_le_ok (parse_expr_fuel_mono top env tokens c fuel0 d) hpe
    have hne : (tokAt tokens c2).kind ≠ TokKind.comma := by rw [hrp]; decide
    simp only [parse_call_node, hfunc, eat, hid, hlp, if_true, Res.bind_ok]
    rw [hrun (g + 1) hb, hd, parse_call_args]
    rw [show parse_expr_loop g top env tokens initialHeap [0] false c =
      parse_expr g top env tokens c from rfl, hpe1]
    simp [hne, hrp]
  · intro func c hfunc hid hlp hargs hnr
    obtain ⟨bound, es, hes, hrun⟩ := parse_call_args_commas top env tokens func.arguments.length
      func.arguments [] (current + 2) c (le_refl _) hargs
    refine ⟨bound + 1 + func.arguments.length + 1, ?_⟩
    intro fuel hfuel
    obtain ⟨f, rfl⟩ : ∃ f, fuel = (f + func.arguments.length) + 1 :=
      ⟨fuel - func.arguments.length - 1, by omega⟩
    obtain ⟨g, rfl⟩ : ∃ g, f = g + 1 := ⟨f - 1, by omega⟩
    simp only [parse_call_node, hfunc, eat, hid, hlp, if_true, Res.bind_ok]
    rw [hrun (g + 1) (by omega), List.drop_length, parse_call_args]
    simp [hnr]

/-- C11 at a concrete input: with `h(p, q)` defined, the call `h ( a )` is
accepted with the one argument `a`, and the call `h ( a , b , a )` is
rejected with "token unexpected". -/
theorem parse_call_node_arguments_witness :
    parse_call_node 5 demoTopWithH demoEnv
      [Token.ident "h", Token.sym TokKind.lparen, Token.ident "a", Token.sym TokKind.rparen] 0 =
      Res.ok (Expr.callNode "h" [Expr.varNode ⟨Type_.Int, "a", 1⟩], 4) ∧
    (∃ func args, List.lookup "h" demoTopWithH.funcManager = some func ∧
      Expr.callNode "h" [Expr.varNode ⟨Type_.Int, "a", 1⟩] = Expr.callNode "h" args ∧
      args.length ≤ func.arguments.length) ∧
    (∃ bound : Nat, ∀ fuel, bound ≤ fuel →
      parse_call_node fuel demoTopWithH demoEnv
        [Token.ident "h", Token.sym TokKind.lparen, Token.ident "a", Token.sym TokKind.comma,
          Token.ident "b", Token.sym TokKind.comma, Token.ident "a", Token.sym TokKind.rparen] 0 =
        Res.error Err.tokenUnexpected) :=
  ⟨rfl,
    (parse_call_node_arguments demoTopWithH demoEnv
      [Token.ident "h", Token.sym TokKind.lparen, Token.ident "a", Token.sym TokKind.rparen]
      0).1 5 _ rfl,
    (parse_call_node_arguments demoTopWithH demoEnv
      [Token.ident "h", Token.sym TokKind.lparen, Token.ident "a", Token.sym TokKind.comma,
        Token.ident "b", Token.sym TokKind.comma, Token.ident "a", Token.sym TokKind.rparen]
      0).2.2 demoH 6 rfl rfl rfl
      ⟨2, Expr.varNode ⟨Type_.Int, "a", 1⟩, 3, rfl, rfl,
        ⟨2, Expr.varNode ⟨Type_.Int, "b", 2⟩, 5, rfl, rfl, rfl⟩⟩
      (by decide)⟩

/-- C19: the call `f ( )` of a function with at least one parameter is accepted
with the argument list that holds the null expression alone, and the call
`f ( )` of a function without parameters with the empty argument list (no
right-unary operator being registered for `)`). -/
theorem parse_call_node_empty_parens (top : Top) (env : FuncDef) (tokens : List Token)
    (current : Nat) (func : FuncDef)
    (hfunc : List.lookup (tokAt tokens current).str top.funcManager = some func)
    (hid : (tokAt tokens current).kind = TokKind.identifier)
    (hlp : (tokAt tokens (current + 1)).kind = TokKind.lparen)
    (hrp : (tokAt tokens (current + 2)).kind = TokKind.rparen)
    (hu : top.opManager.rightUnaryManager TokKind.rparen = none) :
    (func.arguments ≠ [] → ∀ fuel, 3 ≤ fuel →
      parse_call_node fuel top env tokens current =
        Res.ok (Expr.callNode (tokAt tokens current).str [Expr.null], current + 3)) ∧
    (func.arguments = [] → ∀ fuel, 2 ≤ fuel →
      parse_call_node fuel top env tokens current =
        Res.ok (Expr.callNode (tokAt tokens current).str [], current + 3)) := by
  constructor
  · intro hne fuel hfuel
    obtain ⟨f, rfl⟩ : ∃ f, fuel = f + 3 := ⟨fuel - 3, by omega⟩
    obtain ⟨p, ps, hp⟩ : ∃ p ps, func.arguments = p :: ps := by
      cases h : func.arguments with
      | nil => exact absurd h hne
      | cons p ps => exact ⟨p, ps, rfl⟩
    simp [parse_call_node, parse_call_args, parse_expr_loop, hfunc, eat, hid, hlp, hrp, hp, hu,
      is_const, initialHeap]
  · intro hnil fuel hfuel
    obtain ⟨f, rfl⟩ : ∃ f, fuel = f + 2 := ⟨fuel - 2, by omega⟩
    simp [parse_call_node, parse_call_args, hfunc, eat, hid, hlp, hrp, hnil]

/-- C19 at a concrete input: with `h(p, q)` defined, `h ( )` gives the call
node of `h` with the single argument null. -/
theorem parse_call_node_empty_parens_witness :
    List.lookup "h" demoTopWithH.funcManager = some demoH ∧ demoH.arguments ≠ [] ∧
    parse_call_node 3 demoTopWithH demoEnv
      [Token.ident "h", Token.sym TokKind.lparen, Token.sym TokKind.rparen] 0 =
      Res.ok (Expr.callNode "h" [Expr.null], 3) :=
  ⟨rfl, by decide,
    (parse_call_node_empty_parens demoTopWithH demoEnv
      [Token.ident "h", Token.sym TokKind.lparen, Token.sym TokKind.rparen] 0 demoH rfl rfl rfl
      rfl rfl).1 (by decide) 3 (le_refl _)⟩

/-! ### The parameters of a function (C15) -/

theorem eat_kind {tokens : List Token} {k : TokKind} {current c : Nat}
    (h : eat tokens k current = Res.ok c) : (tokAt tokens current).kind = k := by
  unfold eat at h
  split at h
  · assumption
  · cases h

theorem Map.count_assign_self {α : Type} (m : Map α) (k : String) (v : α) :
    (m.assign k v).count k = true := by
  unfold Map.count
  rw [Map.lookup_assign_self]; rfl

theorem Map.count_assign_of_count {α : Type} (m : Map α) (k k1 : String) (v : α)
    (h : m.count k1 = true) : (m.assign k v).count k1 = true := by
  by_cases hk : k1 = k
  · subst hk; exact Map.count_assign_self m k1 v
  · unfold Map.count at h ⊢
    rw [Map.lookup_assign_ne m k k1 v hk]; exact h

/-- Binding a fresh name keeps the parameters bound and their names distinct. -/
theorem params_bound_step {args : List VarDef} {vm : Map VarDef} {v : VarDef}
    (hfresh : vm.count v.name = false)
    (hnd : (args.map VarDef.name).Nodup)
    (hb : ∀ w ∈ args, List.lookup w.name vm = some w) :
    ((args ++ [v]).map VarDef.name).Nodup ∧
      ∀ w ∈ args ++ [v], List.lookup w.name (vm.assign v.name v) = some w := by
  have hne : ∀ w ∈ args, w.name ≠ v.name := by
    intro w hw heq
    have h1 := hb w hw
    rw [heq, (count_eq_false_iff vm v.name).mp hfresh] at h1
    cases h1
  constructor
  · rw [List.map_append, List.nodup_append]
    refine ⟨hnd, by simp, ?_⟩
    intro a ha hb1
    have hav : a = v.name := by simpa using hb1
    obtain ⟨w, hw, hwa⟩ := List.mem_map.mp ha
    exact hne w hw (hwa.trans hav)
  · intro w hw
    rcases List.mem_append.mp hw with h | h
    · rw [Map.lookup_assign_ne vm v.name w.name v (hne w h)]
      exact hb w h
    · have : w = v := by simpa using h
      subst this
      exact Map.lookup_assign_self vm w.name w

/-- The parameter loop of `parse_func` appends to the parameter list the
parameters declared from the cursor on, one more than the number of commas
passed, stops at the first closing parenthesis that follows a declaration, and
keeps the parameters bound in the table of the function under distinct names. -/
theorem parse_func_params_declared (tokens : List Token) : ∀ (fuel : Nat) (top : Top)
    (ret : FuncDef) (current : Nat) (s : FuncState),
    parse_func_params fuel top ret tokens current = Res.ok s →
    (ret.arguments.map VarDef.name).Nodup →
    (∀ v ∈ ret.arguments, List.lookup v.name ret.varManager = some v) →
    ∃ k : Nat,
      s.ret.arguments.map some = ret.arguments.map some ++
        declaredParams top.typeManager tokens (k + 1) current top.allocated ∧
      (∀ i, i < k → (tokAt tokens (current + 3 * i + 2)).kind = TokKind.comma) ∧
      (tokAt tokens (current + 3 * k + 2)).kind = TokKind.rparen ∧
      s.current = current + 3 * k + 2 ∧
      (s.ret.arguments.map VarDef.name).Nodup ∧
      (∀ v ∈ s.ret.arguments, List.lookup v.name s.ret.varManager = some v) := by
  intro fuel
  induction fuel with
  | zero => intro top ret current s h; simp [parse_func_params] at h
  | succ fuel ih =>
    intro top ret current s h hnd hb
    rw [parse_func_params] at h
    obtain ⟨c1, hc1, h1⟩ := Res.bind_eq_ok h
    obtain ⟨c2, hc2, h2⟩ := Res.bind_eq_ok h1
    have e1 := eat_eq_ok hc1
    have e2 := eat_eq_ok hc2
    subst e1
    subst e2
    split at h2
    · cases h2
    · rename_i ty hty
      split at h2
      · cases h2
      · rename_i hdup
        have hfresh : ret.varManager.count (tokAt tokens (current + 1)).str = false := by
          simpa using hdup
        simp only [] at h2
        obtain ⟨hnd1, hb1⟩ := params_bound_step
          (v := ⟨ty, (tokAt tokens (current + 1)).str, top.allocated⟩) hfresh hnd hb
        have hdecl : declaredParam top.typeManager tokens current top.allocated =
            some ⟨ty, (tokAt tokens (current + 1)).str, top.allocated⟩ := by
          simp [declaredParam, hty]
        split at h2
        · obtain ⟨c3, hc3, h3⟩ := Res.bind_eq_ok h2
          have e3 := eat_eq_ok hc3
          have hcomma := eat_kind hc3
          subst e3
          obtain ⟨k, hk1, hk2, hk3, hk4, hk5, hk6⟩ := ih _ _ _ s h3 hnd1 hb1
          refine ⟨k + 1, ?_, ?_, ?_, ?_, hk5, hk6⟩
          · rw [hk1]
            show _ = _ ++ (declaredParam top.typeManager tokens current top.allocated ::
              declaredParams top.typeManager tokens (k + 1) (current + 3) (top.allocated + 1))
            rw [hdecl]
            simp
          · intro i hi
            cases i with
            | zero => exact hcomma
            | succ j =>
              have := hk2 j (by omega)
              have e : current + 3 * (j + 1) + 2 = current + 1 + 1 + 1 + 3 * j + 2 := by omega
              rw [e]; exact this
          · have e : current + 3 * (k + 1) + 2 = current + 1 + 1 + 1 + 3 * k + 2 := by omega
            rw [e]; exact hk3
          · rw [hk4]; omega
        · rename_i hrp
          cases h2
          refine ⟨0, ?_, ?_, ?_, rfl, hnd1, hb1⟩
          · show (ret.arguments ++ _).map some = _ ++
              [declaredParam top.typeManager tokens current top.allocated]
            rw [hdecl]
            simp
          · intro i hi; omega
          · simpa using hrp

/-- The statement loop of `parse_func` leaves the parameter list alone and
keeps every parameter bound in the table of the function. -/
theorem parse_func_stmts_bound (tokens : List Token) : ∀ (fuel : Nat) (top : Top)
    (ret : FuncDef) (current : Nat) (s : FuncState),
    parse_func_stmts fuel top ret tokens current = Res.ok s →
    (∀ v ∈ ret.arguments, List.lookup v.name ret.varManager = some v) →
    s.ret.arguments = ret.arguments ∧
      ∀ v ∈ s.ret.arguments, List.lookup v.name s.ret.varManager = some v := by
  intro fuel
  induction fuel with
  | zero => intro top ret current s h; simp [parse_func_stmts] at h
  | succ fuel ih =>
    intro top ret current s h hb
    rw [parse_func_stmts] at h
    split at h
    · obtain ⟨r, hr, h1⟩ := Res.bind_eq_ok h
      have := ih top _ _ s h1 hb
      exact this
    · split at h
      · obtain ⟨r, hr, h1⟩ := Res.bind_eq_ok h
        have := ih top _ _ s h1 hb
        exact this
      · obtain ⟨r, hr, h1⟩ := Res.bind_eq_ok h
        obtain ⟨ty, _, hfresh, hvar, htop, henv, _⟩ := parse_var_some_ok hr
        rw [henv] at h1
        simp only [] at h1
        have hb1 : ∀ v ∈ ret.arguments, List.lookup v.name
            (ret.varManager.assign (tokAt tokens (current + 1)).str r.var) = some v := by
          intro v hv
          have hne : v.name ≠ (tokAt tokens (current + 1)).str := by
            intro heq
            have h2 := hb v hv
            rw [heq, (count_eq_false_iff _ _).mp hfresh] at h2
            cases h2
          rw [Map.lookup_assign_ne _ _ _ _ hne]
          exact hb v hv
        have := ih _ _ _ s h1 hb1
        exact this
    · cases h
      exact ⟨rfl, hb⟩
    · obtain ⟨r, hr, h1⟩ := Res.bind_eq_ok h
      have := ih top _ _ s h1 hb
      exact this

/-- The parameter loop of `parse_func` stops with "duplicated definition" when
the declarations ahead hold a name that is already bound in the table of the
function, or hold some name twice. -/
theorem parse_func_params_duplicate (tokens : List Token) (rest : List Token) :
    ∀ (decl : List (String × String)) (fuel : Nat) (top : Top) (ret : FuncDef) (current : Nat),
    tokens.drop current = paramTokens decl ++ rest →
    (∀ d ∈ decl, List.lookup d.1 top.typeManager ≠ none) →
    ((∃ d ∈ decl, ret.varManager.count d.2 = true) ∨ ¬ (decl.map Prod.snd).Nodup) →
    decl.length ≤ fuel →
    parse_func_params fuel top ret tokens current = Res.error Err.duplicatedDefinition := by
  intro decl
  induction decl with
  | nil =>
    intro fuel top ret current _ _ hdup _
    rcases hdup with ⟨d, hd, _⟩ | h
    · cases hd
    · exact absurd List.nodup_nil h
  | cons d ds ih =>
    intro fuel top ret current hdrop hty hdup hfuel
    obtain ⟨f, rfl⟩ : ∃ f, fuel = f + 1 := ⟨fuel - 1, by simp at hfuel; omega⟩
    have hdrop0 : ∃ more, tokens.drop current = Token.ident d.1 :: Token.ident d.2 :: more := by
      cases ds with
      | nil => exact ⟨rest, by rw [hdrop]; rfl⟩
      | cons e es => exact ⟨_, by rw [hdrop]; rfl⟩
    obtain ⟨more, hmore⟩ := hdrop0
    have t0 := tokAt_of_drop hmore
    have t1 := tokAt_of_drop (drop_succ_of_drop hmore)
    obtain ⟨ty, hlk⟩ : ∃ ty, List.lookup d.1 top.typeManager = some ty := by
      have := hty d (List.mem_cons_self _ _)
      cases h : List.lookup d.1 top.typeManager with
      | none => exact absurd h this
      | some ty => exact ⟨ty, rfl⟩
    by_cases hc : ret.varManager.count d.2 = true
    · rw [parse_func_params]
      simp [eat, t0, t1, Token.ident, hlk, hc]
    · have hc0 : ret.varManager.count d.2 = false := by simpa using hc
      have hdup1 : (∃ e ∈ ds, (ret.varManager.assign d.2 ⟨ty, d.2, top.allocated⟩).count e.2 =
          true) ∨ ¬ (ds.map Prod.snd).Nodup := by
        rcases hdup with ⟨e, he, hec⟩ | h
        · rcases List.mem_cons.mp he with h1 | h1
          · subst h1; exact absurd hec hc
          · exact Or.inl ⟨e, h1, Map.count_assign_of_count _ _ _ _ hec⟩
        · by_cases hmem : d.2 ∈ ds.map Prod.snd
          · obtain ⟨e, he, hed⟩ := List.mem_map.mp hmem
            exact Or.inl ⟨e, he, by rw [hed]; exact Map.count_assign_self _ _ _⟩
          · right
            intro hnd
            exact h (by rw [List.map_cons]; exact List.nodup_cons.mpr ⟨hmem, hnd⟩)
      cases ds with
      | nil =>
        rcases hdup1 with ⟨e, he, _⟩ | h
        · cases he
        · exact absurd List.nodup_nil h
      | cons e es =>
        have hdrop2 : tokens.drop current = Token.ident d.1 :: Token.ident d.2 ::
            Token.sym TokKind.comma :: (paramTokens (e :: es) ++ rest) := by
          rw [hdrop]; rfl
        have hd1 := drop_succ_of_drop hdrop2
        have hd2 := drop_succ_of_drop hd1
        have t2 := tokAt_of_drop hd2
        have hd3 := drop_succ_of_drop hd2
        have hrec := ih f { top with allocated := top.allocated + 1 }
          { ret with varManager := ret.varManager.assign d.2 ⟨ty, d.2, top.allocated⟩,
                     arguments := ret.arguments ++ [⟨ty, d.2, top.allocated⟩] }
          (current + 1 + 1 + 1) hd3
          (fun x hx => hty x (List.mem_cons_of_mem _ hx)) hdup1
          (by simp at hfuel ⊢; omega)
        rw [parse_func_params]
        simpa [eat, t0, t1, t2, Token.ident, Token.sym, hlk, hc0] using hrec

/-- A pass of `parse_top` over a global variable definition. -/
theorem parse_top_var_step (fuel : Nat) (top : Top) (tokens : List Token) (current : Nat)
    (hlen : current < tokens.length)
    (h0 : (tokAt tokens current).kind = TokKind.identifier)
    (h1 : (tokAt tokens (current + 1)).kind = TokKind.identifier)
    (h2 : (tokAt tokens (current + 2)).kind ≠ TokKind.lparen) :
    parse_top (fuel + 1) top tokens current =
      (parse_var top none tokens current).bind fun r =>
        parse_top fuel { r.top with defList := r.top.defList ++ [Definition.var r.var] }
          tokens r.current := by
  rw [parse_top]
  simp [hlen, h0, h1, h2]

/-- The run of `parse_init` on
`int g  int f ( int a , int b ) { return a + b * g }`. -/
theorem parse_init_scenario : parse_init 9 scenarioTokens = Res.ok scenarioTop := by
  have h0 : Top.initial = Res.ok startTop := rfl
  have h1 : parse_var startTop none scenarioTokens 0 = Res.ok ⟨⟨Type_.Int, "g", 0⟩,
      ⟨[("int", Type_.Int)], OperatorManager.builtin, [("g", ⟨Type_.Int, "g", 0⟩)], [], [], 1⟩,
      none, 2⟩ := rfl
  have h2 : parse_top 8 ⟨[("int", Type_.Int)], OperatorManager.builtin,
      [("g", ⟨Type_.Int, "g", 0⟩)], [], [Definition.var ⟨Type_.Int, "g", 0⟩], 1⟩
      scenarioTokens 2 = Res.ok scenarioTop := rfl
  rw [parse_init, h0, Res.bind_ok,
    parse_top_var_step 8 startTop scenarioTokens 0 (by decide) rfl rfl (by decide), h1,
    Res.bind_ok]
  exact h2

/-- C15: for every function definition that `parse_func` accepts, the parameter
list is exactly the list of the parameters declared between the parentheses,
in the order of the tokens (the closing parenthesis follows the last of them,
commas separate them), the names of the parameters are pairwise distinct, and
every parameter name is bound in the table of the function to the very
`VarDef` of the list; a parameter list that holds a name twice is rejected with
"duplicated definition"; and for
`int g  int f ( int a , int b ) { return a + b * g }` the function `f` has the
parameters `a`, `b` and the single statement `return +(a, *(b, g))`. -/
theorem parse_func_parameters :
    (∀ (fuel : Nat) (top : Top) (tokens : List Token) (current : Nat) (s : FuncState),
      parse_func fuel top tokens current = Res.ok s →
      (∃ k : Nat,
        s.ret.arguments.map some =
          declaredParams top.typeManager tokens k (current + 3) top.allocated ∧
        (∀ i, i + 1 < k → (tokAt tokens (current + 3 + 3 * i + 2)).kind = TokKind.comma) ∧
        (tokAt tokens (if k = 0 then current + 3 else current + 3 * k + 2)).kind =
          TokKind.rparen) ∧
      (s.ret.arguments.map VarDef.name).Nodup ∧
      (∀ v ∈ s.ret.arguments, List.lookup v.name s.ret.varManager = some v)) ∧
    (∀ (top : Top) (tokens : List Token) (current : Nat) (fty fname : String)
      (decl : List (String × String)) (rest : List Token),
      tokens.drop current = Token.ident fty :: Token.ident fname :: Token.sym TokKind.lparen ::
        (paramTokens decl ++ rest) →
      List.lookup fty top.typeManager ≠ none →
      top.funcManager.count fname = false →
      (∀ d ∈ decl, List.lookup d.1 top.typeManager ≠ none) →
      ¬ (decl.map Prod.snd).Nodup →
      ∀ fuel, decl.length ≤ fuel →
        parse_func fuel top tokens current = Res.error Err.duplicatedDefinition) ∧
    (parse_init 9 scenarioTokens = Res.ok scenarioTop ∧
      List.lookup "f" scenarioTop.funcManager = some scenarioFunc ∧
      scenarioFunc.arguments = [⟨Type_.Int, "a", 1⟩, ⟨Type_.Int, "b", 2⟩] ∧
      scenarioFunc.stmtList =
        [Statement.ret (Expr.opNode Operator.Add (Expr.varNode ⟨Type_.Int, "a", 1⟩)
          (Expr.opNode Operator.Mul (Expr.varNode ⟨Type_.Int, "b", 2⟩)
            (Expr.varNode ⟨Type_.Int, "g", 0⟩)))]) := by
  refine ⟨?_, ?_, ⟨parse_init_scenario, rfl, rfl, rfl⟩⟩
  · intro fuel top tokens current s h
    unfold parse_func at h
    obtain ⟨c1, hc1, h1⟩ := Res.bind_eq_ok h
    obtain ⟨c2, hc2, h2⟩ := Res.bind_eq_ok h1
    have e1 := eat_eq_ok hc1
    have e2 := eat_eq_ok hc2
    subst e1
    subst e2
    split at h2
    · cases h2
    · rename_i ty hty
      simp only [] at h2
      split at h2
      · cases h2
      · obtain ⟨c3, hc3, h3⟩ := Res.bind_eq_ok h2
        have e3 := eat_eq_ok hc3
        subst e3
        obtain ⟨s1, hs1, h4⟩ := Res.bind_eq_ok h3
        obtain ⟨c4, _, h5⟩ := Res.bind_eq_ok h4
        obtain ⟨c5, _, h6⟩ := Res.bind_eq_ok h5
        obtain ⟨s2, hs2, h7⟩ := Res.bind_eq_ok h6
        obtain ⟨c6, _, h8⟩ := Res.bind_eq_ok h7
        have hs1p : (∃ k : Nat,
            s1.ret.arguments.map some =
              declaredParams top.typeManager tokens k (current + 3) top.allocated ∧
            (∀ i, i + 1 < k → (tokAt tokens (current + 3 + 3 * i + 2)).kind = TokKind.comma) ∧
            (tokAt tokens (if k = 0 then current + 3 else current + 3 * k + 2)).kind =
              TokKind.rparen) ∧
            (s1.ret.arguments.map VarDef.name).Nodup ∧
            (∀ v ∈ s1.ret.arguments, List.lookup v.name s1.ret.varManager = some v) := by
          split at hs1
          · obtain ⟨k, hk1, hk2, hk3, _, hk5, hk6⟩ :=
              parse_func_params_declared tokens _ _ _ _ _ hs1 List.nodup_nil
                (by intro v hv; cases hv)
            refine ⟨⟨k + 1, ?_, ?_, ?_⟩, hk5, hk6⟩
            · rw [hk1]; rfl
            · intro i hi
              exact hk2 i (by omega)
            · rw [if_neg (by omega)]
              have e : current + 3 * (k + 1) + 2 = current + 1 + 1 + 1 + 3 * k + 2 := by omega
              rw [e]; exact hk3
          · rename_i hrp
            cases hs1
            refine ⟨⟨0, rfl, ?_, ?_⟩, List.nodup_nil, by intro v hv; cases hv⟩
            · intro i hi; omega
            · rw [if_pos rfl]
              simpa using hrp
        obtain ⟨hk, hnd, hb⟩ := hs1p
        obtain ⟨ha2, hb2⟩ := parse_func_stmts_bound tokens _ _ _ _ _ hs2 hb
        cases h8
        simp only []
        refine ⟨?_, ?_, hb2⟩
        · rw [ha2]; exact hk
        · rw [ha2]; exact hnd
  · intro top tokens current fty fname decl rest hdrop hfty hfn hty hdup fuel hfuel
    have t0 := tokAt_of_drop hdrop
    have hd1 := drop_succ_of_drop hdrop
    have t1 := tokAt_of_drop hd1
    have hd2 := drop_succ_of_drop hd1
    have t2 := tokAt_of_drop hd2
    have hd3 := drop_succ_of_drop hd2
    obtain ⟨ty, hlk⟩ : ∃ ty, List.lookup fty top.typeManager = some ty := by
      cases h : List.lookup fty top.typeManager with
      | none => exact absurd h hfty
      | some ty => exact ⟨ty, rfl⟩
    obtain ⟨d, ds, rfl⟩ : ∃ d ds, decl = d :: ds := by
      cases decl with
      | nil => exact absurd List.nodup_nil hdup
      | cons d ds => exact ⟨d, ds, rfl⟩
    have t3 : (tokAt tokens (current + 1 + 1 + 1)).kind = TokKind.identifier := by
      have : ∃ more, tokens.drop (current + 1 + 1 + 1) = Token.ident d.1 :: more := by
        cases ds with
        | nil => exact ⟨_, by rw [hd3]; rfl⟩
        | cons e es => exact ⟨_, by rw [hd3]; rfl⟩
      obtain ⟨more, hmore⟩ := this
      rw [tokAt_of_drop hmore]; rfl
    have hrec := parse_func_params_duplicate tokens rest (d :: ds) fuel top
      ⟨ty, fname, [], [], []⟩ (current + 1 + 1 + 1) hd3 hty (Or.inr hdup) hfuel
    unfold parse_func
    simp [eat, t0, t1, t2, t3, Token.ident, Token.sym, hlk, hfn, hrec]

/-- C15 at concrete inputs: the accepted definition `int f ( int a , int b ) { }`
and the rejected parameter list `( int a , int a`. -/
theorem parse_func_parameters_witness :
    (∃ s, parse_func 3 startTop twoParamTokens 0 = Res.ok s ∧
      s.ret.arguments = [⟨Type_.Int, "a", 0⟩, ⟨Type_.Int, "b", 1⟩] ∧
      (s.ret.arguments.map VarDef.name).Nodup ∧
      (∀ v ∈ s.ret.arguments, List.lookup v.name s.ret.varManager = some v)) ∧
    parse_func 2 startTop
      (Token.ident "int" :: Token.ident "f" :: Token.sym TokKind.lparen ::
        (paramTokens [("int", "a"), ("int", "a")] ++ [])) 0 =
      Res.error Err.duplicatedDefinition :=
  ⟨⟨twoParamState, rfl, rfl,
      (parse_func_parameters.1 3 startTop twoParamTokens 0 twoParamState rfl).2⟩,
    parse_func_parameters.2.1 startTop _ 0 "int" "f" [("int", "a"), ("int", "a")] [] rfl
      (by decide) rfl (by decide) (by decide) 2 (le_refl _)⟩

/-! ### The stack of `parse_expr` (C18) -/

/-- The loop of `parse_expr` is its body followed by the remaining passes. -/
theorem parse_expr_loop_step (fuel : Nat) (top : Top) (env : FuncDef) (tokens : List Token)
    (heap : List OpNode) (stack : List Nat) (filled : Bool) (current : Nat) :
    parse_expr_loop (fuel + 1) top env tokens heap stack filled current =
      (parse_expr_step fuel top env tokens ⟨heap, stack, filled, current⟩).bind
        (parse_expr_continue fuel top env tokens) := by
  unfold parse_expr_step
  cases stack with
  | nil => rfl
  | cons now rest =>
    simp only [parse_expr_loop]
    cases filled with
    | true =>
      simp only [if_true]
      cases top.opManager.binOrLeftUnaryManager (tokAt tokens current).kind with
      | some op =>
        simp only []
        cases reduce top.opManager (heap ++ [⟨op, Ptr.null, Ptr.null⟩]) op.prec (now :: rest) with
        | ok stack1 =>
          simp only [Res.bind_ok]
          cases stack1 with
          | nil => rfl
          | cons now1 rest1 =>
            simp only []
            cases (heap ++ [⟨op, Ptr.null, Ptr.null⟩])[now1]? with
            | none => rfl
            | some n => rfl
        | error e => rfl
        | undefined => rfl
        | timeout => rfl
      | none =>
        simp only []
        cases (now :: rest).getLast? with
        | none => rfl
        | some front =>
          simp only []
          cases heap[front]? with
          | none => rfl
          | some n => rfl
    | false =>
      simp only [Bool.false_eq_true, if_false]
      split
      · cases parse_factor fuel top env tokens current with
        | ok r => rfl
        | error e => rfl
        | undefined => rfl
        | timeout => rfl
      · cases top.opManager.rightUnaryManager (tokAt tokens current).kind with
        | some op => rfl
        | none =>
          simp only []
          split <;> rfl

theorem Res.bind_ne_undefined {α β : Type} {r : Res α} {f : α → Res β}
    (hr : r ≠ Res.undefined) (hf : ∀ a, f a ≠ Res.undefined) : r.bind f ≠ Res.undefined := by
  cases r with
  | ok a => exact hf a
  | error e => intro h; cases h
  | undefined => exact absurd rfl hr
  | timeout => intro h; cases h

theorem eat_ne_undefined (tokens : List Token) (k : TokKind) (current : Nat) :
    eat tokens k current ≠ Res.undefined := by
  unfold eat
  split <;> intro h <;> cases h

theorem parse_var_node_ne_undefined (top : Top) (env : FuncDef) (tokens : List Token)
    (current : Nat) : parse_var_node top env tokens current ≠ Res.undefined := by
  unfold parse_var_node
  refine Res.bind_ne_undefined (eat_ne_undefined _ _ _) (fun c => ?_)
  split
  · intro h; cases h
  · split <;> intro h <;> cases h

theorem parse_const_int_ne_undefined (tokens : List Token) (current : Nat) :
    parse_const_int tokens current ≠ Res.undefined := by
  unfold parse_const_int
  exact Res.bind_ne_undefined (eat_ne_undefined _ _ _) (fun c => by intro h; cases h)

theorem framesRooted_cons (x : Frame) : ∀ fs : List Frame, framesRooted fs = true →
    framesRooted (x :: fs) = true := by
  intro fs h
  cases fs with
  | nil => cases h
  | cons g gs => exact h

/-- The inner loop stops at the bottom frame at the latest when the new
operator has a precedence above 0. -/
theorem reduceFrames_rooted (m : OperatorManager) (prec : Nat) (hprec : 0 < prec) :
    ∀ (frames : List Frame) (cur : Expr), framesRooted frames = true →
      ∃ frames1 cur1, reduceFrames m prec frames cur = Res.ok (frames1, cur1) ∧
        framesRooted frames1 = true := by
  intro frames
  induction frames with
  | nil => intro cur h; cases h
  | cons f below ih =>
    intro cur h
    rw [reduceFrames]
    split
    · rename_i hc
      cases below with
      | nil =>
        have h0 : f.op.prec = 0 := by simpa [framesRooted] using h
        rw [h0] at hc
        have : ¬ (0 = prec) := by omega
        simp [this] at hc
      | cons g gs => exact ih _ h
    · exact ⟨_, _, rfl, h⟩

/-- With every binary or left-unary operator above precedence 0, no run of the
parser from a stack whose bottom frame is the sentinel ends in undefined
behaviour. -/
theorem frames_ne_undefined (top : Top) (env : FuncDef) (tokens : List Token)
    (hpos : ∀ t op, top.opManager.binOrLeftUnaryManager t = some op → 0 < op.prec) :
    ∀ fuel : Nat,
    (∀ frames cur filled current, framesRooted frames = true →
      frames_loop fuel top env tokens frames cur filled current ≠ Res.undefined) ∧
    (∀ current, parse_factor fuel top env tokens current ≠ Res.undefined) ∧
    (∀ current, parse_call_node fuel top env tokens current ≠ Res.undefined) ∧
    (∀ params args current,
      parse_call_args fuel top env tokens params args current ≠ Res.undefined) := by
  intro fuel
  induction fuel with
  | zero =>
    refine ⟨?_, ?_, ?_, ?_⟩
    · intro frames cur filled current _; simp [frames_loop]
    · intro current; simp [parse_factor]
    · intro current; simp [parse_call_node]
    · intro params args current; simp [parse_call_args]
  | succ fuel ih =>
    obtain ⟨ihA, ihB, ihC, ihD⟩ := ih
    refine ⟨?_, ?_, ?_, ?_⟩
    · intro frames cur filled current hroot
      simp only [frames_loop]
      cases frames with
      | nil => cases hroot
      | cons f fs =>
        simp only []
        cases filled with
        | true =>
          simp only [if_true]
          cases hop : top.opManager.binOrLeftUnaryManager (tokAt tokens current).kind with
          | some op =>
            simp only []
            obtain ⟨frames1, cur1, hred, hroot1⟩ :=
              reduceFrames_rooted top.opManager op.prec (hpos _ _ hop) (f :: fs) cur hroot
            rw [hred]
            simp only [Res.bind_ok]
            exact ihA _ _ _ _ (framesRooted_cons _ _ hroot1)
          | none => intro h; cases h
        | false =>
          simp only [Bool.false_eq_true, if_false]
          split
          · exact Res.bind_ne_undefined (ihB _) (fun r => ihA _ _ _ _ hroot)
          · cases top.opManager.rightUnaryManager (tokAt tokens current).kind with
            | some op => exact ihA _ _ _ _ (framesRooted_cons _ _ hroot)
            | none =>
              simp only []
              split <;> intro h <;> cases h
    · intro current
      simp only [parse_factor]
      split
      · split
        · exact ihC _
        · exact parse_var_node_ne_undefined _ _ _ _
      · split
        · exact parse_const_int_ne_undefined _ _
        · intro h; cases h
    · intro current
      simp only [parse_call_node]
      cases List.lookup (tokAt tokens current).str top.funcManager with
      | none => intro h; cases h
      | some func =>
        simp only []
        refine Res.bind_ne_undefined (eat_ne_undefined _ _ _) (fun c1 => ?_)
        refine Res.bind_ne_undefined (eat_ne_undefined _ _ _) (fun c2 => ?_)
        refine Res.bind_ne_undefined (ihD _ _ _) (fun r => ?_)
        exact Res.bind_ne_undefined (eat_ne_undefined _ _ _) (fun c3 => by intro h; cases h)
    · intro params args current
      simp only [parse_call_args]
      cases params with
      | nil => intro h; cases h
      | cons pr params1 =>
        simp only []
        rw [parse_expr_loop_eq_frames_loop top env tokens fuel _ _ _ _ _ _ Sim.initial]
        refine Res.bind_ne_undefined (ihA _ _ _ _ rfl) (fun r => ?_)
        split
        · exact Res.bind_ne_undefined (eat_ne_undefined _ _ _) (fun c1 => ihD _ _ _)
        · intro h; cases h

theorem StackLinked.top_some {heap : List OpNode} {p : Nat} {rest : List Nat}
    (h : StackLinked heap (p :: rest)) : ∃ n, heap[p]? = some n := by
  cases rest with
  | nil =>
    obtain ⟨_, n, hn, _⟩ := h
    exact ⟨n, hn⟩
  | cons q rest => exact h.2.1

theorem StackLinked.lt_length_of_mem {heap : List OpNode} : ∀ {stack : List Nat},
    StackLinked heap stack → ∀ p ∈ stack, p < heap.length := by
  intro stack
  induction stack with
  | nil => intro h; cases h
  | cons p rest ih =>
    intro h x hx
    rcases List.mem_cons.mp hx with hx1 | hx1
    · subst hx1
      obtain ⟨n, hn⟩ := h.top_some
      exact lt_length_of_getElem? hn
    · cases rest with
      | nil => cases hx1
      | cons q rest => exact ih h.2.2.2 x hx1

/-- The bottom of a linked stack is the sentinel: `stack.front()` is defined
and is the node with index 0, whose operator is `Operator::Root`. -/
theorem StackLinked.bottom {heap : List OpNode} : ∀ {stack : List Nat},
    StackLinked heap stack →
      stack.getLast? = some 0 ∧ ∃ n, heap[0]? = some n ∧ n.op = Operator.Root := by
  intro stack
  induction stack with
  | nil => intro h; cases h
  | cons p rest ih =>
    intro h
    cases rest with
    | nil =>
      obtain ⟨hp, n, hn, hop⟩ := h
      subst hp
      exact ⟨rfl, n, hn, hop⟩
    | cons q rest =>
      obtain ⟨h1, h2⟩ := ih h.2.2.2
      exact ⟨by rw [List.getLast?_cons_cons]; exact h1, h2⟩

/-- A linked stack stays linked when the node store changes at the topmost
stacked node and above it only, the operator of the topmost node being kept. -/
theorem StackLinked.update {heap heap1 : List OpNode} : ∀ {stack : List Nat} {p : Nat},
    StackLinked heap (p :: stack) → (∀ i, i < p → heap1[i]? = heap[i]?) →
    (∀ n, heap[p]? = some n → ∃ n1, heap1[p]? = some n1 ∧ n1.op = n.op) →
    StackLinked heap1 (p :: stack) := by
  intro stack
  induction stack with
  | nil =>
    intro p h _ htop
    obtain ⟨hp, n, hn, hop⟩ := h
    obtain ⟨n1, hn1, hop1⟩ := htop n hn
    exact ⟨hp, n1, hn1, hop1.trans hop⟩
  | cons q rest ih =>
    intro p h hlow htop
    obtain ⟨hqp, ⟨n, hn⟩, ⟨m, hm, hmr⟩, hrest⟩ := h
    obtain ⟨n1, hn1, _⟩ := htop n hn
    refine ⟨hqp, ⟨n1, hn1⟩, ⟨m, by rw [hlow q hqp]; exact hm, hmr⟩, ?_⟩
    exact ih hrest (fun i hi => hlow i (by omega))
      (fun n2 hn2 => ⟨n2, by rw [hlow q hqp]; exact hn2, rfl⟩)

/-- The inner loop of `parse_expr` leaves a linked stack linked and never pops
the sentinel, when the new operator has a precedence above 0. -/
theorem reduce_linked (m : OperatorManager) (heap : List OpNode) (prec : Nat)
    (hprec : 0 < prec) : ∀ stack : List Nat, StackLinked heap stack →
      ∃ stack1, reduce m heap prec stack = Res.ok stack1 ∧ stack1 <:+ stack ∧
        StackLinked heap stack1 := by
  intro stack
  induction stack with
  | nil => intro h; cases h
  | cons p rest ih =>
    intro h
    obtain ⟨n, hn⟩ := h.top_some
    rw [reduce]
    simp only [hn]
    split
    · rename_i hc
      cases rest with
      | nil =>
        obtain ⟨hp, n0, hn0, hop⟩ := h
        rw [hn] at hn0
        cases hn0
        rw [hop] at hc
        have : ¬ (0 = prec) := by omega
        simp [Operator.Root, this] at hc
      | cons q rest =>
        obtain ⟨stack1, h1, h2, h3⟩ := ih h.2.2.2
        exact ⟨stack1, h1, List.IsSuffix.trans h2 (List.suffix_cons _ _), h3⟩
    · exact ⟨_, rfl, List.suffix_refl _, h⟩

theorem StackLinked.append {heap : List OpNode} (x : OpNode) : ∀ {stack : List Nat},
    StackLinked heap stack → StackLinked (heap ++ [x]) stack := by
  intro stack h
  cases stack with
  | nil => cases h
  | cons p rest =>
    have hp : p < heap.length := h.lt_length_of_mem p (List.mem_cons_self _ _)
    refine h.update (fun i hi => getElem?_append_one_lt heap x i (by omega)) ?_
    intro n hn
    exact ⟨n, by rw [getElem?_append_one_lt heap x p hp]; exact hn, rfl⟩

/-- Pushing the node `t` on a linked stack whose topmost node gets `t` as its
`right` gives a linked stack. -/
theorem StackLinked.push {heap heap1 : List OpNode} {p t : Nat} {rest : List Nat}
    (h : StackLinked heap (p :: rest)) (hlow : ∀ i, i < p → heap1[i]? = heap[i]?)
    (hp : ∀ n, heap[p]? = some n →
      ∃ n1, heap1[p]? = some n1 ∧ n1.op = n.op ∧ n1.right = Ptr.node t)
    (hpt : p < t) (ht : ∃ n, heap1[t]? = some n) : StackLinked heap1 (t :: p :: rest) := by
  obtain ⟨n, hn⟩ := h.top_some
  obtain ⟨n1, hn1, _, hr1⟩ := hp n hn
  refine ⟨hpt, ht, ⟨n1, hn1, hr1⟩, h.update hlow ?_⟩
  intro n2 hn2
  obtain ⟨n3, a, b, _⟩ := hp n2 hn2
  exact ⟨n3, a, b⟩

/-- A pass of the loop of `parse_expr` that starts with a linked stack does
not run into undefined behaviour and, when another pass follows, leaves a
linked stack. -/
theorem parse_expr_step_linked (top : Top) (env : FuncDef) (tokens : List Token)
    (hpos : ∀ t op, top.opManager.binOrLeftUnaryManager t = some op → 0 < op.prec)
    (fuel : Nat) (st : LoopState) (h : StackLinked st.heap st.stack) :
    parse_expr_step fuel top env tokens st ≠ Res.undefined ∧
      ∀ st1, parse_expr_step fuel top env tokens st = Res.ok (Sum.inl st1) →
        StackLinked st1.heap st1.stack := by
  obtain ⟨heap, stack, filled, current⟩ := st
  simp only [] at h
  cases stack with
  | nil => cases h
  | cons p rest =>
    have hplt : p < heap.length := h.lt_length_of_mem p (List.mem_cons_self _ _)
    obtain ⟨np, hnp⟩ := h.top_some
    unfold parse_expr_step
    simp only []
    cases filled with
    | true =>
      simp only [if_true]
      cases hop : top.opManager.binOrLeftUnaryManager (tokAt tokens current).kind with
      | some op =>
        simp only []
        obtain ⟨stack1, hred, hsuf, hl1⟩ := reduce_linked top.opManager
          (heap ++ [⟨op, Ptr.null, Ptr.null⟩]) op.prec (hpos _ _ hop) (p :: rest)
          (h.append _)
        rw [hred]
        simp only [Res.bind_ok]
        cases stack1 with
        | nil => cases hl1
        | cons now1 rest1 =>
          have hlt1 : now1 < heap.length :=
            h.lt_length_of_mem now1 (hsuf.subset (List.mem_cons_self _ _))
          obtain ⟨n, hn⟩ := hl1.top_some
          simp only [hn]
          refine ⟨(by intro hh; cases hh), ?_⟩
          intro st1 hst1
          cases hst1
          simp only []
          have hne : heap.length ≠ now1 := by omega
          have hne1 : now1 ≠ heap.length := by omega
          refine hl1.push ?_ ?_ hlt1 ?_
          · intro i hi
            have h1 : i ≠ now1 := by omega
            have h2 : i ≠ heap.length := by omega
            rw [getElem?_setRight, if_neg h1, getElem?_setLeft, if_neg h2]
          · intro n2 hn2
            rw [getElem?_setRight, if_pos rfl, getElem?_setLeft, if_neg hne1, hn2]
            exact ⟨_, rfl, rfl, rfl⟩
          · rw [getElem?_setRight, if_neg hne, getElem?_setLeft, if_pos rfl,
              getElem?_append_one_self]
            exact ⟨_, rfl⟩
      | none =>
        simp only []
        obtain ⟨hlast, n0, hn0, _⟩ := h.bottom
        rw [hlast]
        simp only [hn0]
        exact ⟨(by intro hh; cases hh), by intro st1 hst1; cases hst1⟩
    | false =>
      simp only [Bool.false_eq_true, if_false]
      split
      · constructor
        · exact Res.bind_ne_undefined ((frames_ne_undefined top env tokens hpos fuel).2.1 _)
            (fun r => by intro hh; cases hh)
        · intro st1 hst1
          obtain ⟨r, _, hr⟩ := Res.bind_eq_ok hst1
          cases hr
          simp only []
          refine h.update ?_ ?_
          · intro i hi
            have h1 : i ≠ p := by omega
            rw [getElem?_setRight, if_neg h1]
          · intro n2 hn2
            rw [getElem?_setRight, if_pos rfl, hn2]
            exact ⟨_, rfl, rfl⟩
      · cases top.opManager.rightUnaryManager (tokAt tokens current).kind with
        | some op =>
          simp only []
          refine ⟨(by intro hh; cases hh), ?_⟩
          intro st1 hst1
          cases hst1
          simp only []
          have hne : heap.length ≠ p := by omega
          refine h.push ?_ ?_ hplt ?_
          · intro i hi
            have h1 : i ≠ p := by omega
            rw [getElem?_setRight, if_neg h1, getElem?_append_one_lt _ _ _ (by omega)]
          · intro n2 hn2
            rw [getElem?_setRight, if_pos rfl, getElem?_append_one_lt _ _ _ hplt, hn2]
            exact ⟨_, rfl, rfl, rfl⟩
          · rw [getElem?_setRight, if_neg hne, getElem?_append_one_self]
            exact ⟨_, rfl⟩
        | none =>
          simp only []
          split
          · exact ⟨(by intro hh; cases hh), by intro st1 hst1; cases hst1⟩
          · exact ⟨(by intro hh; cases hh), by intro st1 hst1; cases hst1⟩

/-- Every operator of the built-in binary and left-unary table has a
precedence above 0. -/
theorem builtin_bin_prec_pos (t : TokKind) (op : Operator)
    (h : OperatorManager.builtin.binOrLeftUnaryManager t = some op) : 0 < op.prec := by
  rcases builtin_bin_cases h with h1 | h1 | h1 <;> subst h1 <;> decide

/-- Every pass of a run of the loop that is entered with a linked stack starts
with a linked stack. -/
theorem parse_expr_states_linked (top : Top) (env : FuncDef) (tokens : List Token)
    (hpos : ∀ t op, top.opManager.binOrLeftUnaryManager t = some op → 0 < op.prec) :
    ∀ (fuel : Nat) (st : LoopState), StackLinked st.heap st.stack →
      ∀ st1 ∈ parse_expr_states fuel top env tokens st, StackLinked st1.heap st1.stack := by
  intro fuel
  induction fuel with
  | zero => intro st _ st1 h1; cases h1
  | succ fuel ih =>
    intro st h st1 h1
    rw [parse_expr_states] at h1
    rcases List.mem_cons.mp h1 with h2 | h2
    · subst h2; exact h
    · split at h2
      · rename_i st2 hst2
        exact ih st2 ((parse_expr_step_linked top env tokens hpos fuel st h).2 st2 hst2) st1 h2
      · cases h2

/-- C18: when every operator of the binary and left-unary table has a
precedence above 0, the stack of `parse_expr` is linked in every pass of every
run: it is not empty, its bottom element is the sentinel `Operator::Root`, and
the `right` of every stacked node but the topmost is the node stacked directly
above it.  The run starts with a linked stack; the loop is its body followed by
the remaining passes; a pass that starts with a linked stack meets no undefined
`stack.back()`, `stack.front()` or node and leaves a linked stack; the inner
loop stops at the sentinel at the latest; a linked stack has the sentinel as
its bottom; every state in which a pass of a run starts has a linked stack; and
no run of `parse_expr` ends in undefined behaviour. -/
theorem parse_expr_stack_linked (top : Top) (env : FuncDef) (tokens : List Token)
    (hpos : ∀ t op, top.opManager.binOrLeftUnaryManager t = some op → 0 < op.prec) :
    StackLinked initialHeap [0] ∧
    (∀ fuel heap stack filled current,
      parse_expr_loop (fuel + 1) top env tokens heap stack filled current =
        (parse_expr_step fuel top env tokens ⟨heap, stack, filled, current⟩).bind
          (parse_expr_continue fuel top env tokens)) ∧
    (∀ fuel st, StackLinked st.heap st.stack →
      parse_expr_step fuel top env tokens st ≠ Res.undefined ∧
      ∀ st1, parse_expr_step fuel top env tokens st = Res.ok (Sum.inl st1) →
        StackLinked st1.heap st1.stack) ∧
    (∀ heap stack t op, top.opManager.binOrLeftUnaryManager t = some op →
      StackLinked heap stack →
      ∃ stack1, reduce top.opManager heap op.prec stack = Res.ok stack1 ∧ stack1 <:+ stack ∧
        StackLinked heap stack1) ∧
    (∀ heap stack, StackLinked heap stack →
      stack ≠ [] ∧ stack.getLast? = some 0 ∧ ∃ n, heap[0]? = some n ∧ n.op = Operator.Root) ∧
    (∀ fuel current, ∀ st ∈ parse_expr_states fuel top env tokens ⟨initialHeap, [0], false, current⟩,
      StackLinked st.heap st.stack) ∧
    (∀ fuel current, parse_expr fuel top env tokens current ≠ Res.undefined) := by
  have hinit : StackLinked initialHeap [0] := ⟨rfl, _, rfl, rfl⟩
  refine ⟨hinit, ?_, ?_, ?_, ?_, ?_, ?_⟩
  · intro fuel heap stack filled current
    exact parse_expr_loop_step fuel top env tokens heap stack filled current
  · intro fuel st h
    exact parse_expr_step_linked top env tokens hpos fuel st h
  · intro heap stack t op hop h
    exact reduce_linked top.opManager heap op.prec (hpos t op hop) stack h
  · intro heap stack h
    refine ⟨?_, h.bottom⟩
    intro hnil
    subst hnil
    cases h
  · intro fuel current st hst
    exact parse_expr_states_linked top env tokens hpos fuel _ hinit st hst
  · intro fuel current
    rw [parse_expr_eq_frames_loop]
    exact (frames_ne_undefined top env tokens hpos fuel).1 _ _ _ _ rfl

/-- C18 at a concrete input: with the built-in table, the pass of the loop
over the leading `+` of `+ a` pushes the node of `Operator::Pos` on the
sentinel, and the stack it leaves is linked. -/
theorem parse_expr_stack_linked_witness :
    parse_expr_step 1 demoTop demoEnv [Token.sym TokKind.plus, Token.ident "a"]
      ⟨initialHeap, [0], false, 0⟩ = Res.ok (Sum.inl demoPushed) ∧
    StackLinked demoPushed.heap demoPushed.stack :=
  ⟨rfl, ((parse_expr_stack_linked demoTop demoEnv [Token.sym TokKind.plus, Token.ident "a"]
    builtin_bin_prec_pos).2.2.1 1 ⟨initialHeap, [0], false, 0⟩ ⟨rfl, _, rfl, rfl⟩).2
      demoPushed rfl⟩

/-! ### The order of the tokens in the tree (C17) -/

theorem plug_inorder : ∀ (frames : List Frame) (cur : Expr),
    (plug frames cur).inorder = framesLin frames ++ cur.inorder
  | [], cur => by simp [plug, framesLin]
  | [_], cur => by simp [plug, framesLin]
  | f :: g :: fs, cur => by
    rw [plug, plug_inorder (g :: fs)]
    simp [framesLin, Expr.inorder]

theorem reduceFrames_inorder (m : OperatorManager) (prec : Nat) :
    ∀ (frames : List Frame) (cur : Expr) (s : List Frame × Expr),
      reduceFrames m prec frames cur = Res.ok s →
      s.1 ≠ [] ∧ framesLin s.1 ++ s.2.inorder = framesLin frames ++ cur.inorder := by
  intro frames
  induction frames with
  | nil => intro cur s h; simp [reduceFrames] at h
  | cons f below ih =>
    intro cur s h
    rw [reduceFrames] at h
    split at h
    · obtain ⟨h1, h2⟩ := ih _ s h
      refine ⟨h1, ?_⟩
      rw [h2]
      cases below with
      | nil => simp [reduceFrames] at h
      | cons g gs => simp [framesLin, Expr.inorder]
    · cases h
      exact ⟨by simp, rfl⟩

theorem parse_call_node_callNode {fuel : Nat} {top : Top} {env : FuncDef} {tokens : List Token}
    {current : Nat} {r : Expr × Nat}
    (h : parse_call_node fuel top env tokens current = Res.ok r) :
    ∃ name args, r.1 = Expr.callNode name args := by
  cases fuel with
  | zero => simp [parse_call_node] at h
  | succ fuel =>
    rw [parse_call_node] at h
    split at h
    · cases h
    · obtain ⟨c1, _, h1⟩ := Res.bind_eq_ok h
      obtain ⟨c2, _, h2⟩ := Res.bind_eq_ok h1
      obtain ⟨r3, _, h3⟩ := Res.bind_eq_ok h2
      obtain ⟨c3, _, h4⟩ := Res.bind_eq_ok h3
      cases h4
      exact ⟨_, _, rfl⟩

/-- What `parse_factor` accepts: a call, or the factor that the token under
the cursor denotes, with the cursor moved over that one token. -/
theorem parse_factor_cases {fuel : Nat} {top : Top} {env : FuncDef} {tokens : List Token}
    {current : Nat} {r : Expr × Nat}
    (h : parse_factor fuel top env tokens current = Res.ok r) :
    (∃ name args, r.1 = Expr.callNode name args) ∨
      (operand top env (tokAt tokens current) = some r.1 ∧ r.2 = current + 1) := by
  cases fuel with
  | zero => simp [parse_factor] at h
  | succ fuel =>
    rw [parse_factor] at h
    split at h
    · rename_i hk
      split at h
      · exact Or.inl (parse_call_node_callNode h)
      · right
        unfold parse_var_node at h
        obtain ⟨c1, hc1, h1⟩ := Res.bind_eq_ok h
        have e1 := eat_eq_ok hc1
        subst e1
        simp only [operand, hk]
        split at h1
        · rename_i v hv
          cases h1
          simp [hv]
        · rename_i hv
          split at h1
          · rename_i v hv1
            cases h1
            simp [hv, hv1]
          · cases h1
    · split at h
      · rename_i hk
        right
        unfold parse_const_int at h
        obtain ⟨c1, hc1, h1⟩ := Res.bind_eq_ok h
        have e1 := eat_eq_ok hc1
        subst e1
        cases h1
        simp [operand, hk]
      · cases h

theorem parse_factor_inorder {fuel : Nat} {top : Top} {env : FuncDef} {tokens : List Token}
    {current : Nat} {r : Expr × Nat}
    (h : parse_factor fuel top env tokens current = Res.ok r) :
    r.1.inorder = [Label.leaf r.1] := by
  rcases parse_factor_cases h with ⟨name, args, h1⟩ | ⟨h1, _⟩
  · rw [h1]; rfl
  · unfold operand at h1
    split at h1
    · rw [← Option.some.inj h1]; rfl
    · split at h1
      · rw [← Option.some.inj h1]; rfl
      · split at h1
        · rw [← Option.some.inj h1]; rfl
        · cases h1
    · cases h1

/-- The tree returned by the loop of `parse_expr` reads, in order, as the
stacked frames, the tree under the topmost node when `filled` holds, and the
items that the loop passes from the cursor position on. -/
theorem frames_loop_inorder (top : Top) (env : FuncDef) (tokens : List Token) :
    ∀ (fuel : Nat) (frames : List Frame) (cur : Expr) (filled : Bool) (current : Nat)
      (r : Expr × Nat),
      frames_loop fuel top env tokens frames cur filled current = Res.ok r →
      ∃ L, Consumed top env tokens current r.2 L ∧
        r.1.inorder = framesLin frames ++ (if filled then cur.inorder else []) ++ L := by
  intro fuel
  induction fuel with
  | zero => intro frames cur filled current r h; simp [frames_loop] at h
  | succ fuel ih =>
    intro frames cur filled current r h
    cases frames with
    | nil => simp [frames_loop] at h
    | cons f fs =>
      rw [frames_loop] at h
      cases filled with
      | true =>
        simp only [if_true] at h
        cases hop : top.opManager.binOrLeftUnaryManager (tokAt tokens current).kind with
        | some op =>
          rw [hop] at h
          simp only [] at h
          obtain ⟨s, hs, h1⟩ := Res.bind_eq_ok h
          obtain ⟨hne, hlin⟩ := reduceFrames_inorder _ _ _ _ _ hs
          obtain ⟨L, hL, hin⟩ := ih _ _ _ _ r h1
          refine ⟨Label.op op :: L, Consumed.op _ _ _ _ (Or.inl hop) hL, ?_⟩
          rw [hin]
          obtain ⟨g, gs, hg⟩ : ∃ g gs, s.1 = g :: gs := by
            cases hs1 : s.1 with
            | nil => exact absurd hs1 hne
            | cons g gs => exact ⟨g, gs, rfl⟩
          rw [hg] at hlin ⊢
          have e1 : framesLin (⟨op, s.2⟩ :: g :: gs) =
              framesLin (g :: gs) ++ s.2.inorder ++ [Label.op op] := rfl
          rw [e1, hlin]
          have e2 : (if (if op.type = OpType.binary then false else true) = true
              then Expr.null.inorder else []) = [] := by
            split <;> rfl
          rw [e2]
          simp
        | none =>
          rw [hop] at h
          cases h
          exact ⟨[], Consumed.done _, by simp [plug_inorder]⟩
      | false =>
        simp only [Bool.false_eq_true, if_false] at h
        split at h
        · obtain ⟨r1, hr1, h1⟩ := Res.bind_eq_ok h
          obtain ⟨L, hL, hin⟩ := ih _ _ _ _ r h1
          refine ⟨Label.leaf r1.1 :: L, Consumed.leaf _ _ _ _ _ hr1 hL, ?_⟩
          rw [hin, parse_factor_inorder hr1]
          simp
        · cases hop : top.opManager.rightUnaryManager (tokAt tokens current).kind with
          | some op =>
            rw [hop] at h
            simp only [] at h
            obtain ⟨L, hL, hin⟩ := ih _ _ _ _ r h
            refine ⟨Label.op op :: L, Consumed.op _ _ _ _ (Or.inr hop) hL, ?_⟩
            rw [hin]
            simp [framesLin, Expr.inorder]
          | none =>
            rw [hop] at h
            simp only [] at h
            split at h
            · cases h
            · rename_i hlen
              cases h
              refine ⟨[], Consumed.done _, ?_⟩
              cases fs with
              | nil => rfl
              | cons g gs => simp at hlen

theorem inorder_noCall : ∀ e : Expr, e.hasCall = false → ∀ l ∈ e.inorder, l.isCall = false
  | Expr.null, _ => by intro l hl; cases hl
  | Expr.opNode op l r, h => by
    have h1 : l.hasCall = false ∧ r.hasCall = false := by
      simpa [Expr.hasCall] using h
    intro x hx
    have hx1 : x ∈ l.inorder ∨ x = Label.op op ∨ x ∈ r.inorder := by
      simpa [Expr.inorder, or_assoc] using hx
    rcases hx1 with hx2 | hx2 | hx2
    · exact inorder_noCall l h1.1 x hx2
    · subst hx2; rfl
    · exact inorder_noCall r h1.2 x hx2
  | Expr.varNode v, _ => by
    intro l hl
    have : l = Label.leaf (Expr.varNode v) := by simpa [Expr.inorder] using hl
    subst this; rfl
  | Expr.callNode f a, h => by simp [Expr.hasCall] at h
  | Expr.constantNumNode n, _ => by
    intro l hl
    have : l = Label.leaf (Expr.constantNumNode n) := by simpa [Expr.inorder] using hl
    subst this; rfl

theorem tokensFrom_length (tokens : List Token) : ∀ (n i : Nat),
    (tokensFrom tokens n i).length = n
  | 0, _ => rfl
  | n + 1, i => by simp [tokensFrom, tokensFrom_length tokens n (i + 1)]

theorem tokensBetween_succ (tokens : List Token) {a b : Nat} (h : a < b) :
    tokensBetween tokens a b = tokAt tokens a :: tokensBetween tokens (a + 1) b := by
  unfold tokensBetween
  have e : b - a = (b - (a + 1)) + 1 := by omega
  rw [e]
  rfl

/-- When no item passed is a call, every item is one token: the items are the
tokens between the two cursor positions, in order. -/
theorem consumed_tokens {top : Top} {env : FuncDef} {tokens : List Token} {a b : Nat}
    {L : List Label} (h : Consumed top env tokens a b L) :
    (∀ l ∈ L, l.isCall = false) →
      a ≤ b ∧ List.Forall₂ (tokenMatches top env) (tokensBetween tokens a b) L := by
  induction h with
  | done c =>
    intro _
    refine ⟨le_refl _, ?_⟩
    simp [tokensBetween, tokensFrom]
  | op current c o L hm _ ih =>
    intro hL
    obtain ⟨h1, h2⟩ := ih (fun l hl => hL l (List.mem_cons_of_mem _ hl))
    refine ⟨by omega, ?_⟩
    rw [tokensBetween_succ tokens (by omega)]
    exact List.Forall₂.cons hm h2
  | leaf current c fuel r L hp _ ih =>
    intro hL
    have hr := hL (Label.leaf r.1) (List.mem_cons_self _ _)
    obtain ⟨h1, h2⟩ := ih (fun l hl => hL l (List.mem_cons_of_mem _ hl))
    rcases parse_factor_cases hp with ⟨name, args, h3⟩ | ⟨h3, h4⟩
    · rw [h3] at hr
      simp [Label.isCall] at hr
    · rw [h4] at h1 h2
      refine ⟨by omega, ?_⟩
      rw [tokensBetween_succ tokens (by omega)]
      exact List.Forall₂.cons h3 h2

/-- C17: `parse_expr` keeps the order of the tokens: when it returns a tree
that contains no function call, the cursor has not moved backwards, the tree
has as many operator nodes and leaves as tokens were passed, and its in-order
linearisation (left subtree, operator, right subtree for an operator node, a
null child contributing nothing; the leaf itself for a variable or a literal)
matches, one by one and in order, the tokens from the starting cursor position
up to the final cursor position: an operator the token that one of the operator
tables maps to it, a leaf the operand token that denotes it. -/
theorem parse_expr_inorder (top : Top) (env : FuncDef) (tokens : List Token)
    (fuel current : Nat) (e : Expr) (c : Nat)
    (h : parse_expr fuel top env tokens current = Res.ok (e, c))
    (hcall : e.hasCall = false) :
    current ≤ c ∧ e.inorder.length = c - current ∧
      List.Forall₂ (tokenMatches top env) (tokensBetween tokens current c) e.inorder := by
  rw [parse_expr_eq_frames_loop] at h
  obtain ⟨L, hL, hin⟩ := frames_loop_inorder top env tokens fuel _ _ _ _ _ h
  have hin1 : e.inorder = L := by
    simpa [framesLin] using hin
  rw [hin1]
  obtain ⟨h1, h2⟩ := consumed_tokens hL (by rw [← hin1]; exact inorder_noCall e hcall)
  refine ⟨h1, ?_, h2⟩
  have := h2.length_eq
  rw [← this]
  exact tokensFrom_length tokens _ _

/-- C17 at a concrete input: inside `f(a, b)` with the global `g`, the tree of
`a + b * g` reads in order as the five tokens passed. -/
theorem parse_expr_inorder_witness :
    parse_expr 6 demoTop demoEnv
      [Token.ident "a", Token.sym TokKind.plus, Token.ident "b", Token.sym TokKind.star,
        Token.ident "g"] 0 =
      Res.ok (Expr.opNode Operator.Add (Expr.varNode ⟨Type_.Int, "a", 1⟩)
        (Expr.opNode Operator.Mul (Expr.varNode ⟨Type_.Int, "b", 2⟩)
          (Expr.varNode ⟨Type_.Int, "g", 0⟩)), 5) ∧
    List.Forall₂ (tokenMatches demoTop demoEnv)
      [Token.ident "a", Token.sym TokKind.plus, Token.ident "b", Token.sym TokKind.star,
        Token.ident "g"]
      [Label.leaf (Expr.varNode ⟨Type_.Int, "a", 1⟩), Label.op Operator.Add,
        Label.leaf (Expr.varNode ⟨Type_.Int, "b", 2⟩), Label.op Operator.Mul,
        Label.leaf (Expr.varNode ⟨Type_.Int, "g", 0⟩)] :=
  ⟨rfl, (parse_expr_inorder demoTop demoEnv
    [Token.ident "a", Token.sym TokKind.plus, Token.ident "b", Token.sym TokKind.star,
      Token.ident "g"] 6 0 _ 5 rfl rfl).2.2⟩

/-! ### The definition list in the order of the tokens (C7) -/

/-- The cursor never moves backwards in the expression parser. -/
theorem parse_cursor_le (top : Top) (env : FuncDef) (tokens : List Token) : ∀ fuel : Nat,
    (∀ frames cur filled current r,
      frames_loop fuel top env tokens frames cur filled current = Res.ok r → current ≤ r.2) ∧
    (∀ current r, parse_factor fuel top env tokens current = Res.ok r → current ≤ r.2) ∧
    (∀ current r, parse_call_node fuel top env tokens current = Res.ok r → current ≤ r.2) ∧
    (∀ params args current r,
      parse_call_args fuel top env tokens params args current = Res.ok r → current ≤ r.2) := by
  intro fuel
  induction fuel with
  | zero =>
    refine ⟨?_, ?_, ?_, ?_⟩
    · intro frames cur filled current r h; simp [frames_loop] at h
    · intro current r h; simp [parse_factor] at h
    · intro current r h; simp [parse_call_node] at h
    · intro params args current r h; simp [parse_call_args] at h
  | succ fuel ih =>
    obtain ⟨ihA, ihB, ihC, ihD⟩ := ih
    refine ⟨?_, ?_, ?_, ?_⟩
    · intro frames cur filled current r h
      cases frames with
      | nil => simp [frames_loop] at h
      | cons f fs =>
        rw [frames_loop] at h
        cases filled with
        | true =>
          simp only [if_true] at h
          split at h
          · obtain ⟨s, _, h1⟩ := Res.bind_eq_ok h
            have := ihA _ _ _ _ _ h1
            omega
          · cases h
            exact le_refl _
        | false =>
          simp only [Bool.false_eq_true, if_false] at h
          split at h
          · obtain ⟨r1, hr1, h1⟩ := Res.bind_eq_ok h
            have h2 := ihB _ _ hr1
            have h3 := ihA _ _ _ _ _ h1
            omega
          · split at h
            · have := ihA _ _ _ _ _ h
              omega
            · split at h
              · cases h
              · cases h
                exact le_refl _
    · intro current r h
      rw [parse_factor] at h
      split at h
      · split at h
        · exact ihC _ _ h
        · unfold parse_var_node at h
          obtain ⟨c1, hc1, h1⟩ := Res.bind_eq_ok h
          have e1 := eat_eq_ok hc1
          split at h1
          · cases h1; show current ≤ c1; omega
          · split at h1
            · cases h1; show current ≤ c1; omega
            · cases h1
      · split at h
        · unfold parse_const_int at h
          obtain ⟨c1, hc1, h1⟩ := Res.bind_eq_ok h
          have e1 := eat_eq_ok hc1
          cases h1; show current ≤ c1; omega
        · cases h
    · intro current r h
      rw [parse_call_node] at h
      split at h
      · cases h
      · obtain ⟨c1, hc1, h1⟩ := Res.bind_eq_ok h
        obtain ⟨c2, hc2, h2⟩ := Res.bind_eq_ok h1
        obtain ⟨r3, hr3, h3⟩ := Res.bind_eq_ok h2
        obtain ⟨c3, hc3, h4⟩ := Res.bind_eq_ok h3
        have e1 := eat_eq_ok hc1
        have e2 := eat_eq_ok hc2
        have e3 := eat_eq_ok hc3
        have := ihD _ _ _ _ hr3
        cases h4
        show current ≤ c3
        omega
    · intro params args current r h
      cases params with
      | nil =>
        simp only [parse_call_args] at h
        cases h
        exact le_refl _
      | cons pr params1 =>
        simp only [parse_call_args] at h
        rw [parse_expr_loop_eq_frames_loop top env tokens fuel _ _ _ _ _ _ Sim.initial] at h
        obtain ⟨r1, hr1, h1⟩ := Res.bind_eq_ok h
        have h2 := ihA _ _ _ _ _ hr1
        split at h1
        · obtain ⟨c1, hc1, h3⟩ := Res.bind_eq_ok h1
          have e1 := eat_eq_ok hc1
          have := ihD _ _ _ _ h3
          omega
        · cases h1
          exact h2

theorem parse_expr_cursor_le {fuel : Nat} {top : Top} {env : FuncDef} {tokens : List Token}
    {current : Nat} {r : Expr × Nat}
    (h : parse_expr fuel top env tokens current = Res.ok r) : current ≤ r.2 := by
  rw [parse_expr_eq_frames_loop] at h
  exact (parse_cursor_le top env tokens fuel).1 _ _ _ _ _ h

/-- The cursor never moves backwards in the statement loop of `parse_func`. -/
theorem parse_func_stmts_cursor_le (tokens : List Token) : ∀ (fuel : Nat) (top : Top)
    (ret : FuncDef) (current : Nat) (s : FuncState),
    parse_func_stmts fuel top ret tokens current = Res.ok s → current ≤ s.current := by
  intro fuel
  induction fuel with
  | zero => intro top ret current s h; simp [parse_func_stmts] at h
  | succ fuel ih =>
    intro top ret current s h
    rw [parse_func_stmts] at h
    split at h
    · obtain ⟨r, hr, h1⟩ := Res.bind_eq_ok h
      unfold parse_return at hr
      obtain ⟨c1, hc1, h2⟩ := Res.bind_eq_ok hr
      obtain ⟨r2, hr2, h3⟩ := Res.bind_eq_ok h2
      have e1 := eat_eq_ok hc1
      have h4 := parse_expr_cursor_le hr2
      cases h3
      have := ih _ _ _ s h1
      simp only [] at this
      omega
    · split at h
      · obtain ⟨r, hr, h1⟩ := Res.bind_eq_ok h
        have h4 := parse_expr_cursor_le hr
        have := ih _ _ _ s h1
        omega
      · obtain ⟨r, hr, h1⟩ := Res.bind_eq_ok h
        obtain ⟨ty, _, _, _, _, henv, hcur⟩ := parse_var_some_ok hr
        rw [henv] at h1
        simp only [] at h1
        have := ih _ _ _ s h1
        omega
    · cases h
      exact le_refl _
    · obtain ⟨r, hr, h1⟩ := Res.bind_eq_ok h
      have h4 := parse_expr_cursor_le hr
      have := ih _ _ _ s h1
      omega

/-- Where an accepted function definition stands in the tokens: its name is
the second token, and it ends behind a closing brace, at least six tokens
after its start. -/
theorem parse_func_span {fuel : Nat} {top : Top} {tokens : List Token} {current : Nat}
    {s : FuncState} (h : parse_func fuel top tokens current = Res.ok s) :
    s.ret.name = (tokAt tokens (current + 1)).str ∧ current + 2 < s.current ∧
      (tokAt tokens (s.current - 1)).kind = TokKind.rbrace := by
  unfold parse_func at h
  obtain ⟨c1, hc1, h1⟩ := Res.bind_eq_ok h
  obtain ⟨c2, hc2, h2⟩ := Res.bind_eq_ok h1
  have e1 := eat_eq_ok hc1
  have e2 := eat_eq_ok hc2
  split at h2
  · cases h2
  · simp only [] at h2
    split at h2
    · cases h2
    · obtain ⟨c3, hc3, h3⟩ := Res.bind_eq_ok h2
      obtain ⟨s1, hs1, h4⟩ := Res.bind_eq_ok h3
      obtain ⟨c4, hc4, h5⟩ := Res.bind_eq_ok h4
      obtain ⟨c5, hc5, h6⟩ := Res.bind_eq_ok h5
      obtain ⟨s2, hs2, h7⟩ := Res.bind_eq_ok h6
      obtain ⟨c6, hc6, h8⟩ := Res.bind_eq_ok h7
      have e3 := eat_eq_ok hc3
      have e4 := eat_eq_ok hc4
      have e5 := eat_eq_ok hc5
      have e6 := eat_eq_ok hc6
      have hrb := eat_kind hc6
      have hs1p : s1.ret.name = (tokAt tokens (current + 1)).str ∧ s1.ret.stmtList = [] ∧
          c3 ≤ s1.current := by
        split at hs1
        · obtain ⟨_, hn, hl⟩ := parse_func_params_frame tokens _ _ _ _ _ hs1
          obtain ⟨k, _, _, _, hk4, _, _⟩ := parse_func_params_declared tokens _ _ _ _ _ hs1
            List.nodup_nil (by intro v hv; cases hv)
          exact ⟨hn, hl, by rw [hk4]; omega⟩
        · cases hs1; exact ⟨rfl, rfl, le_refl _⟩
      obtain ⟨hn1, hl1, hle1⟩ := hs1p
      obtain ⟨_, hn2, _⟩ := parse_func_stmts_callsBound tokens _ _ _ _ _ hs2
        (by rw [hl1]; intro st hst; cases hst)
      have hle2 := parse_func_stmts_cursor_le tokens _ _ _ _ _ hs2
      cases h8
      simp only []
      refine ⟨by rw [hn2, hn1], by omega, ?_⟩
      have : c6 - 1 = s2.current := by omega
      rw [this]; exact hrb

/-- C7 as amended: after a successful `parse_top`, the definitions `temp` of
its passes, in the order of the passes, are written in the tokens one after
the other from the starting cursor position to the end of the tokens (each is
two identifiers, the second its name, a function being followed by `(` and
ending behind its closing brace, a variable ending behind its name), and
`top.defList` has grown by their entries in that order: for a global variable
the variable itself, for a function the variables declared in its body (in
the order of declaration, parameters excluded) followed by the function
itself; the global variable table and the function table have grown by the
variables and the functions among them. -/
theorem parse_top_defList : ∀ (fuel : Nat) (top : Top) (tokens : List Token) (current : Nat)
    (top1 : Top), parse_top fuel top tokens current = Res.ok top1 →
    Tiled tokens current (parse_top_passes fuel top tokens current) ∧
      top1.defList = top.defList ++
        entriesOf ((parse_top_passes fuel top tokens current).map fun x => x.2.2) ∧
      top1.varManager = bindGlobals top.varManager
        ((parse_top_passes fuel top tokens current).map fun x => x.2.2) ∧
      top1.funcManager = bindFuncs top.funcManager
        ((parse_top_passes fuel top tokens current).map fun x => x.2.2) := by
  intro fuel
  induction fuel with
  | zero => intro top tokens current top1 h; simp [parse_top] at h
  | succ fuel ih =>
    intro top tokens current top1 h
    rw [parse_top] at h
    rw [parse_top_passes]
    by_cases hlen : current < tokens.length
    · rw [if_pos hlen] at h ⊢
      by_cases hk : (tokAt tokens current).kind = TokKind.identifier
      · simp only [hk] at h ⊢
        by_cases hk1 : (tokAt tokens (current + 1)).kind = TokKind.identifier
        · have hk1n : ¬ ((tokAt tokens (current + 1)).kind ≠ TokKind.identifier) :=
            fun hh => hh hk1
          rw [if_neg hk1n] at h ⊢
          by_cases hk2 : (tokAt tokens (current + 2)).kind = TokKind.lparen
          · rw [if_pos hk2] at h ⊢
            obtain ⟨s, hs, h1⟩ := Res.bind_eq_ok h
            rw [hs]
            simp only []
            obtain ⟨ht, h2, h3, h4⟩ := ih _ _ _ top1 h1
            obtain ⟨hd, hv, hf⟩ := parse_func_defList hs
            obtain ⟨hn, hq, hrb⟩ := parse_func_span hs
            refine ⟨⟨rfl, hlen, ⟨hk, hk1, hn, hk2, hq, hrb⟩, ht⟩, ?_, ?_, ?_⟩
            · rw [h2]
              simp [hd, entriesOf, Definition.entries]
            · rw [h3]
              simp [hv, bindGlobals]
            · rw [h4]
              simp [hf, bindFuncs]
          · rw [if_neg hk2] at h ⊢
            obtain ⟨r, hr, h1⟩ := Res.bind_eq_ok h
            rw [hr]
            simp only []
            obtain ⟨ht, h2, h3, h4⟩ := ih _ _ _ top1 h1
            obtain ⟨ty, _, hfresh, hvar, htop, _, hcur⟩ := parse_var_none_ok hr
            refine ⟨⟨rfl, hlen, ⟨hk, hk1, by rw [hvar], hk2, hcur⟩, ht⟩, ?_, ?_, ?_⟩
            · rw [h2]
              simp [htop, entriesOf, Definition.entries]
            · rw [h3]
              simp only [htop, bindGlobals, List.map_cons]
              rw [Map.assign_fresh _ _ _ hfresh, hvar]
            · rw [h4]
              simp [htop, bindFuncs]
        · have hk1n : (tokAt tokens (current + 1)).kind ≠ TokKind.identifier := hk1
          rw [if_pos hk1n] at h
          cases h
      · exfalso
        split at h
        · rename_i hk0
          exact hk hk0
        · cases h
    · rw [if_neg hlen] at h ⊢
      cases h
      exact ⟨by show tokens.length ≤ current; omega, by simp [entriesOf], rfl, rfl⟩

/-- C7 as amended, at a concrete input: for `int g  int f ( ) { int x }  int k`
the passes parse `g` at the tokens 0 to 2, `f` at 2 to 10 and `k` at 10 to 12,
and the definition list is `g`, the body variable `x`, `f`, `k`. -/
theorem parse_top_defList_witness :
    parse_top 4 startTop mixedDefsTokens 0 = Res.ok mixedDefsTop ∧
    parse_top_passes 4 startTop mixedDefsTokens 0 =
      [(0, 2, Definition.var ⟨Type_.Int, "g", 0⟩), (2, 10, Definition.func mixedDefsFunc),
        (10, 12, Definition.var ⟨Type_.Int, "k", 2⟩)] ∧
    mixedDefsTop.defList = startTop.defList ++
      entriesOf ((parse_top_passes 4 startTop mixedDefsTokens 0).map fun x => x.2.2) :=
  ⟨rfl, rfl, (parse_top_defList 4 startTop mixedDefsTokens 0 mixedDefsTop rfl).2.1⟩

end CompilerPractice
